import Mathlib

/-!
Verification development for the JooyaCrawler core: a shallow embedding of
the frontier queue (crawler/storage/radar_queue_manager.py), the worker
pipeline decisions (crawler/worker.py), the per-domain politeness controller
(Worker._respect_domain_policy), the robots.txt handler
(crawler/utils/robots.py) and the URL utilities
(crawler/utils/url_utils.py, crawler/utils/filters.py,
crawler/parsing/html_extractor.py), together with theorems settling the
frozen claims about these components.

Python strings are modelled as lists of characters (`PyStr`).  String
functions from the Python standard library that the source calls
(urllib.parse, re substitution for the two fixed patterns, str.strip,
str.lower, urllib.robotparser) are translated at character level, following
CPython 3.11 semantics, with these documented restrictions: character
classes (whitespace, lower-casing, digits) are modelled over ASCII, and
bracketed IPv6 host literals are modelled as parse failures (CPython instead
validates the bracketed host and raises only for invalid ones).
-/

namespace Jooya

/-- Python strings, modelled as lists of characters. -/
abbrev PyStr := List Char

/-- Coerce a Lean string literal to the Python string model. -/
def pyOfString (s : String) : PyStr := s.data

/-- ASCII model of the characters stripped by Python str.strip(). -/
def isPyWsChar (c : Char) : Bool :=
  c = ' ' || c = '\t' || c = '\n' || c = '\r' || c = '\x0b' || c = '\x0c'

/-- Characters stripped from the left of a URL by urlsplit
(the WHATWG C0-control-or-space set). -/
def isC0OrSpace (c : Char) : Bool := c.toNat ≤ 32

/-- The unsafe URL bytes removed everywhere by urlsplit: tab, CR, LF. -/
def isUnsafeUrlChar (c : Char) : Bool := c = '\t' || c = '\r' || c = '\n'

/-- Python str.lstrip restricted to a character predicate. -/
def pyLStrip (p : Char → Bool) (s : PyStr) : PyStr := s.dropWhile p

/-- Python str.rstrip restricted to a character predicate. -/
def pyRStrip (p : Char → Bool) (s : PyStr) : PyStr :=
  (s.reverse.dropWhile p).reverse

/-- Python str.strip restricted to a character predicate. -/
def pyStrip (p : Char → Bool) (s : PyStr) : PyStr := pyRStrip p (pyLStrip p s)

/-- ASCII model of Python str.lower on one character. -/
def lowerChar (c : Char) : Char :=
  if 'A' ≤ c && c ≤ 'Z' then Char.ofNat (c.toNat + 32) else c

/-- ASCII model of Python str.lower. -/
def pyLower (s : PyStr) : PyStr := s.map lowerChar

/-- Test whether the first list is a leading segment of the second
(Python str.startswith). -/
def listStarts : PyStr → PyStr → Bool
  | [], _ => true
  | _ :: _, [] => false
  | a :: as, b :: bs => a = b && listStarts as bs

/-- Membership of a character in a Python-model string. -/
def containsChar (c : Char) (s : PyStr) : Bool := s.any (fun a => a = c)

/-- Python s.split(c, 1): split at the first occurrence of a character,
returning none when the character does not occur. -/
def splitFirst (c : Char) : PyStr → Option (PyStr × PyStr)
  | [] => none
  | a :: as =>
    if a = c then some ([], as)
    else
      match splitFirst c as with
      | none => none
      | some (l, r) => some (a :: l, r)

/-- Split at the last occurrence of a character (Python rfind followed by
slicing); none when the character does not occur. -/
def splitLast (c : Char) (s : PyStr) : Option (PyStr × PyStr) :=
  match splitFirst c s.reverse with
  | none => none
  | some (l, r) => some (r.reverse, l.reverse)

/-- Python str.split(c): split on every occurrence of a character.  The
result is always nonempty. -/
def splitEvery (c : Char) : PyStr → List PyStr
  | [] => [[]]
  | a :: as =>
    let r := splitEvery c as
    if a = c then [] :: r
    else
      match r with
      | [] => [[a]]
      | h :: t => (a :: h) :: t

/-- Python c.join(parts). -/
def joinChar (c : Char) : List PyStr → PyStr
  | [] => []
  | [x] => x
  | x :: xs => x ++ c :: joinChar c xs

/-- Remove every character satisfying the predicate
(Python str.replace(b, empty) for each such character). -/
def removeChars (p : Char → Bool) (s : PyStr) : PyStr :=
  s.filter (fun c => ¬ p c)

/-- Auxiliary single-pass collapser: the flag records whether the previous
kept character was the collapse character. -/
def collapseRunsAux (c : Char) : Bool → PyStr → PyStr
  | _, [] => []
  | prev, a :: as =>
    if a = c then
      if prev then collapseRunsAux c true as
      else c :: collapseRunsAux c true as
    else a :: collapseRunsAux c false as

/-- Replace every maximal run of the character by a single occurrence,
the effect of re.sub with the run patterns used by the source
(ampersand runs in query cleaning, slash runs in path cleaning). -/
def collapseRuns (c : Char) (s : PyStr) : PyStr := collapseRunsAux c false s

/-- First character test. -/
def headIs (c : Char) : PyStr → Bool
  | [] => false
  | a :: _ => a = c

/-- Last character test (Python str.endswith for one character). -/
def lastIs (c : Char) (s : PyStr) : Bool :=
  match s.getLast? with
  | none => false
  | some a => a = c

/-! ## Frontier queue model (crawler/storage/radar_queue_manager.py)

Rows of the urls_frontier table.  Timestamps are modelled as integers
(seconds relative to an arbitrary epoch); NOW() is passed in as a
parameter.  Nullable columns are Option-valued. -/

/-- Status enum stored in urls_frontier.status. -/
inductive Status where
  | scheduled
  | inProgress
  | done
  | failed
deriving DecidableEq, Repr

/-- One row of the urls_frontier table. -/
structure FrontierRow where
  id : Nat
  url : PyStr
  source_id : Int
  depth : Option Int
  priority : Option Int
  status : Status
  scheduled_for : Option Int
  last_scheduled_at : Option Int
  fail_count : Option Nat
  last_http_status : Option Int
  last_error_code : Option PyStr
  error_category : Option PyStr
  updated_at : Int
deriving DecidableEq, Repr

/-- The task tuple returned by dequeue_task. -/
structure FrontierTask where
  id : Nat
  url : PyStr
  source_id : Int
  depth : Option Int
  priority : Option Int
deriving DecidableEq, Repr

/-- In-memory state of RadarQueueManager: configured caps, the in-memory
crawled_count, and the frontier table. -/
structure QueueState where
  maxDepth : Option Int
  maxPages : Option Nat
  crawledCount : Nat
  rows : List FrontierRow
deriving DecidableEq, Repr

/-- RadarQueueManager.has_reached_max_pages. -/
def hasReachedMaxPages (s : QueueState) : Bool :=
  match s.maxPages with
  | none => false
  | some m => decide (m ≤ s.crawledCount)

/-- The SET clause of the mark_failed UPDATE applied to one row: the prior
fail_count k is read with COALESCE(fail_count, 0), the delay is
LEAST(1800, 30 * POWER(2, k + 1)) seconds, and the row returns to
SCHEDULED with the error fields recorded. -/
def markFailedRow (now : Int) (status_code : Option Int)
    (error_code error_category : Option PyStr) (row : FrontierRow) :
    FrontierRow :=
  let k := row.fail_count.getD 0
  let delay : Int := min 1800 (30 * 2 ^ (k + 1))
  { row with
    status := Status.scheduled
    fail_count := some (k + 1)
    last_http_status := status_code
    last_error_code := error_code
    error_category := error_category
    scheduled_for := some (now + delay)
    last_scheduled_at := some now
    updated_at := now }

/-- RadarQueueManager.mark_failed over the whole table: the update applies
to every row whose id matches (the primary key makes it at most one). -/
def markFailed (s : QueueState) (now : Int) (task_id : Nat)
    (status_code : Option Int) (error_code error_category : Option PyStr) :
    QueueState :=
  { s with
    rows := s.rows.map fun r =>
      if r.id = task_id then
        markFailedRow now status_code error_code error_category r
      else r }

/-- The SET clause of the mark_done UPDATE applied to one row. -/
def markDoneRow (now : Int) (status_code : Option Int) (row : FrontierRow) :
    FrontierRow :=
  { row with
    status := Status.done
    fail_count := some 0
    last_http_status := status_code
    updated_at := now }

/-- RadarQueueManager.mark_done: updates the row, then increments the
in-memory crawled_count when a page cap is configured and the previous
status (None when the id is absent) differs from DONE. -/
def markDone (s : QueueState) (now : Int) (task_id : Nat)
    (status_code : Option Int) : QueueState :=
  let previousStatus : Option Status :=
    (s.rows.find? (fun r => r.id = task_id)).map (fun r => r.status)
  let rows := s.rows.map fun r =>
    if r.id = task_id then markDoneRow now status_code r else r
  let count :=
    if s.maxPages.isSome ∧ previousStatus ≠ some Status.done then
      s.crawledCount + 1
    else s.crawledCount
  { s with rows := rows, crawledCount := count }

/-- Eligibility filter of the dequeue selection: status SCHEDULED and
scheduled_for NULL or not after NOW(). -/
def eligible (now : Int) (r : FrontierRow) : Bool :=
  r.status = Status.scheduled &&
    (match r.scheduled_for with
     | none => true
     | some t => decide (t ≤ now))

/-- ORDER BY priority DESC, id ASC with PostgreSQL default NULLS FIRST for
the descending key: row a precedes row b. -/
def dequeuePrecedes (a b : FrontierRow) : Bool :=
  match a.priority, b.priority with
  | none, none => decide (a.id < b.id)
  | none, some _ => true
  | some _, none => false
  | some p, some q =>
    if p = q then decide (a.id < b.id) else decide (q < p)

/-- One step of the selection fold: keep the better of the current best and
the next row, considering only eligible rows. -/
def pickStep (now : Int) (best : Option FrontierRow) (r : FrontierRow) :
    Option FrontierRow :=
  if eligible now r then
    match best with
    | none => some r
    | some b => if dequeuePrecedes r b then some r else some b
  else best

/-- Select the first eligible row in dequeue order. -/
def selectBest (now : Int) (rows : List FrontierRow) : Option FrontierRow :=
  rows.foldl (pickStep now) none

/-- The pre-selection sweep of dequeue_task: SCHEDULED rows whose
scheduled_for lies beyond NOW() + 1800 seconds are pulled back to
NOW() + 1800 seconds. -/
def sweepRow (now : Int) (r : FrontierRow) : FrontierRow :=
  if r.status = Status.scheduled &&
      (match r.scheduled_for with
       | none => false
       | some t => decide (now + 1800 < t)) then
    { r with scheduled_for := some (now + 1800) }
  else r

/-- RadarQueueManager.dequeue_task: returns none when the page cap is
reached; otherwise runs the sweep, selects the single eligible row with
highest priority (ties by lowest id), marks it IN_PROGRESS and returns its
task tuple. -/
def dequeueTask (s : QueueState) (now : Int) :
    Option FrontierTask × QueueState :=
  if hasReachedMaxPages s then (none, s)
  else
    let swept := s.rows.map (sweepRow now)
    match selectBest now swept with
    | none => (none, { s with rows := swept })
    | some chosen =>
      let rows := swept.map fun r =>
        if r.id = chosen.id then
          { r with status := Status.inProgress, updated_at := now }
        else r
      (some ⟨chosen.id, chosen.url, chosen.source_id, chosen.depth,
             chosen.priority⟩,
       { s with rows := rows })

/-- The DO UPDATE SET clause of the enqueue upsert applied to the
conflicting row: depth takes the minimum, priority the maximum, and when
the existing status is DONE and force_recrawl is false the status,
scheduled_for and last_scheduled_at columns keep their values; otherwise
they take the freshly inserted values (SCHEDULED, NOW(), NOW()).
updated_at is always set. -/
def enqueueConflictRow (now : Int) (depth priority : Int)
    (force_recrawl : Bool) (existing : FrontierRow) : FrontierRow :=
  let keep := existing.status = Status.done ∧ ¬ force_recrawl
  { existing with
    depth := some (min (existing.depth.getD depth) depth)
    priority := some (max (existing.priority.getD priority) priority)
    status := if keep then existing.status else Status.scheduled
    scheduled_for := if keep then existing.scheduled_for else some now
    last_scheduled_at :=
      if keep then existing.last_scheduled_at else some now
    updated_at := now }

/-- A fresh id for an inserted frontier row. -/
def freshId (rows : List FrontierRow) : Nat :=
  (rows.map (fun r => r.id)).foldl max 0 + 1

/-- RadarQueueManager.enqueue_url: rejected beyond max_depth or once the
page cap is reached; otherwise an upsert on (url, source_id). -/
def enqueueUrl (s : QueueState) (now : Int) (url : PyStr) (source_id : Int)
    (depth : Int) (priority : Int) (force_recrawl : Bool) : QueueState :=
  if (match s.maxDepth with
      | none => false
      | some m => decide (m < depth)) then s
  else if hasReachedMaxPages s then s
  else if s.rows.any (fun r => r.url = url && r.source_id = source_id) then
    { s with
      rows := s.rows.map fun r =>
        if r.url = url && r.source_id = source_id then
          enqueueConflictRow now depth priority force_recrawl r
        else r }
  else
    { s with
      rows := s.rows ++
        [{ id := freshId s.rows
           url := url
           source_id := source_id
           depth := some depth
           priority := some priority
           status := Status.scheduled
           scheduled_for := some now
           last_scheduled_at := some now
           fail_count := none
           last_http_status := none
           last_error_code := none
           error_category := none
           updated_at := now }] }

/-! ## Lemmas about the frontier queue -/

/-- Finding a row by id commutes with an id-preserving update of the
table. -/
theorem find_id_map (g : FrontierRow → FrontierRow)
    (hg : ∀ r, (g r).id = r.id) (i : Nat) :
    ∀ l : List FrontierRow,
      (l.map g).find? (fun r => r.id = i) =
        (l.find? (fun r => r.id = i)).map g := by
  intro l
  induction l with
  | nil => rfl
  | cons a l ih =>
    simp only [List.map_cons, List.find?_cons]
    rw [hg a]
    by_cases h : a.id = i
    · simp [h]
    · simp [h, ih]

/-- One selection step yields either the previous best or the freshly seen
eligible row. -/
theorem pickStep_sound (now : Int) (best : Option FrontierRow)
    (r b : FrontierRow) (h : pickStep now best r = some b) :
    best = some b ∨ (b = r ∧ eligible now r = true) := by
  unfold pickStep at h
  by_cases he : eligible now r = true
  · rw [if_pos he] at h
    cases best with
    | none =>
      simp only [Option.some.injEq] at h
      exact Or.inr ⟨h.symm, he⟩
    | some b0 =>
      simp only at h
      by_cases hp : dequeuePrecedes r b0 = true
      · rw [if_pos hp] at h
        simp only [Option.some.injEq] at h
        exact Or.inr ⟨h.symm, he⟩
      · rw [if_neg hp] at h
        exact Or.inl h
  · rw [if_neg he] at h
    exact Or.inl h

/-- Any row produced by the selection fold is the initial accumulator or a
member of the input list, and it is eligible. -/
theorem selectBest_aux (now : Int) :
    ∀ (l : List FrontierRow) (acc : Option FrontierRow) (c : FrontierRow),
      (∀ b, acc = some b → eligible now b = true) →
      l.foldl (pickStep now) acc = some c →
      (acc = some c ∨ c ∈ l) ∧ eligible now c = true := by
  intro l
  induction l with
  | nil =>
    intro acc c hacc h
    simp only [List.foldl_nil] at h
    exact ⟨Or.inl h, hacc c h⟩
  | cons a l ih =>
    intro acc c hacc h
    simp only [List.foldl_cons] at h
    have hacc2 : ∀ b, pickStep now acc a = some b →
        eligible now b = true := by
      intro b hb
      rcases pickStep_sound now acc a b hb with h1 | h2
      · exact hacc b h1
      · exact h2.1 ▸ h2.2
    rcases ih (pickStep now acc a) c hacc2 h with ⟨hmem, helig⟩
    refine ⟨?_, helig⟩
    rcases hmem with h1 | h2
    · rcases pickStep_sound now acc a c h1 with h3 | h4
      · exact Or.inl h3
      · exact Or.inr (h4.1 ▸ List.mem_cons_self a l)
    · exact Or.inr (List.mem_cons_of_mem a h2)

/-- Any row produced by selectBest is a member of the input list and is
eligible. -/
theorem selectBest_mem_eligible (now : Int) (l : List FrontierRow)
    (c : FrontierRow) (h : selectBest now l = some c) :
    c ∈ l ∧ eligible now c = true := by
  rcases selectBest_aux now l none c (fun b hb => by cases hb) h with
    ⟨hmem, helig⟩
  rcases hmem with h1 | h2
  · cases h1
  · exact ⟨h2, helig⟩

/-- The sweep never touches a row that is not SCHEDULED. -/
theorem sweepRow_of_not_scheduled (now : Int) (r : FrontierRow)
    (h : r.status ≠ Status.scheduled) : sweepRow now r = r := by
  unfold sweepRow
  rw [if_neg]
  intro hc
  exact h (of_decide_eq_true (Bool.and_eq_true _ _ |>.mp hc).1)

/-- The sweep preserves row ids. -/
theorem sweepRow_id (now : Int) (r : FrontierRow) :
    (sweepRow now r).id = r.id := by
  unfold sweepRow
  split <;> rfl

/-! ## Claims about mark_failed, dequeue, enqueue and mark_done -/

/-- Claim C2: after mark_failed on a row whose fail_count was k, the row is
SCHEDULED, fail_count is k+1, the error columns are recorded, and
scheduled_for is now plus min(1800, 30 * 2^(k+1)) seconds. -/
theorem c2_mark_failed_backoff (s : QueueState) (now : Int) (task_id : Nat)
    (sc : Option Int) (ec cat : Option PyStr) (r : FrontierRow) (k : Nat)
    (hr : r ∈ s.rows) (hid : r.id = task_id) (hk : r.fail_count = some k) :
    ∃ r2 ∈ (markFailed s now task_id sc ec cat).rows,
      r2.id = task_id ∧
      r2.status = Status.scheduled ∧
      r2.fail_count = some (k + 1) ∧
      r2.last_http_status = sc ∧
      r2.last_error_code = ec ∧
      r2.error_category = cat ∧
      r2.last_scheduled_at = some now ∧
      r2.scheduled_for = some (now + min 1800 (30 * 2 ^ (k + 1))) := by
  refine ⟨markFailedRow now sc ec cat r, ?_, ?_⟩
  · unfold markFailed
    simp only
    have : (fun r0 =>
        if r0.id = task_id then markFailedRow now sc ec cat r0 else r0) r =
        markFailedRow now sc ec cat r := by
      simp [hid]
    exact this ▸ List.mem_map_of_mem _ hr
  · unfold markFailedRow
    simp [hk, hid]

/-- Witness for C2 at a concrete row with fail_count 0: the retry delay is
60 seconds. -/
theorem c2_witness :
    ∃ r2 ∈ (markFailed
        { maxDepth := none, maxPages := none, crawledCount := 0,
          rows := [{ id := 7, url := pyOfString "https://example.com/",
                     source_id := 1, depth := some 0, priority := some 0,
                     status := Status.inProgress, scheduled_for := none,
                     last_scheduled_at := none, fail_count := some 0,
                     last_http_status := none, last_error_code := none,
                     error_category := none, updated_at := 0 }] }
        1000 7 (some 500) none none).rows,
      r2.id = 7 ∧
      r2.status = Status.scheduled ∧
      r2.fail_count = some 1 ∧
      r2.last_http_status = some 500 ∧
      r2.last_error_code = none ∧
      r2.error_category = none ∧
      r2.last_scheduled_at = some 1000 ∧
      r2.scheduled_for = some (1000 + min 1800 (30 * 2 ^ (0 + 1))) := by
  exact c2_mark_failed_backoff _ 1000 7 (some 500) none none _ 0
    (List.mem_singleton.mpr rfl) rfl rfl

/-- Eligibility implies status SCHEDULED. -/
theorem eligible_scheduled (now : Int) (r : FrontierRow)
    (h : eligible now r = true) : r.status = Status.scheduled := by
  unfold eligible at h
  exact of_decide_eq_true (Bool.and_eq_true _ _ |>.mp h).1

/-- Claim C3 (amended): a row left IN_PROGRESS is never selected by
dequeue_task and survives it unchanged — the pre-selection sweep touches
only SCHEDULED rows and the selection considers only SCHEDULED rows, so a
stale lease is never re-picked.  The id-uniqueness hypothesis mirrors the
primary key of urls_frontier. -/
theorem c3_stale_lease_never_repicked (s : QueueState) (now : Int)
    (r : FrontierRow) (hr : r ∈ s.rows)
    (hst : r.status = Status.inProgress)
    (huniq : ∀ r2 ∈ s.rows, r2.id = r.id → r2 = r) :
    r ∈ (dequeueTask s now).2.rows ∧
      ∀ t, (dequeueTask s now).1 = some t → t.id ≠ r.id := by
  have hnotsched : r.status ≠ Status.scheduled := by
    rw [hst]; intro h; cases h
  have hsweep : sweepRow now r = r := sweepRow_of_not_scheduled now r hnotsched
  unfold dequeueTask
  cases hcap : hasReachedMaxPages s with
  | true =>
    rw [if_pos rfl]
    exact ⟨hr, by intro t ht; cases ht⟩
  | false =>
    rw [if_neg Bool.false_ne_true]
    have hrs : r ∈ s.rows.map (sweepRow now) := by
      have := List.mem_map_of_mem (sweepRow now) hr
      rw [hsweep] at this
      exact this
    cases hsel : selectBest now (s.rows.map (sweepRow now)) with
    | none =>
      simp only [hsel]
      exact ⟨hrs, by intro t ht; cases ht⟩
    | some chosen =>
      simp only [hsel]
      rcases selectBest_mem_eligible now _ chosen hsel with ⟨hcm, hce⟩
      have hchosenSched : chosen.status = Status.scheduled :=
        eligible_scheduled now chosen hce
      have hidne : chosen.id ≠ r.id := by
        intro hideq
        rcases List.mem_map.mp hcm with ⟨r0, hr0, hr0eq⟩
        have hr0id : r0.id = r.id := by
          rw [← hideq, ← hr0eq, sweepRow_id]
        have : r0 = r := huniq r0 hr0 hr0id
        rw [this, hsweep] at hr0eq
        rw [← hr0eq] at hchosenSched
        rw [hst] at hchosenSched
        cases hchosenSched
      constructor
      · have heq : (if r.id = chosen.id then
            { r with status := Status.inProgress, updated_at := now }
          else r) = r := by
          rw [if_neg (fun h => hidne h.symm)]
        exact List.mem_map.mpr ⟨r, hrs, heq⟩
      · intro t ht
        have : t.id = chosen.id := by
          simp only [Option.some.injEq] at ht
          rw [← ht]
        rw [this]
        exact hidne

/-- A concrete IN_PROGRESS row with a long-expired scheduled_for. -/
def c3row : FrontierRow :=
  { id := 1, url := pyOfString "https://example.com/", source_id := 1,
    depth := some 0, priority := some 0, status := Status.inProgress,
    scheduled_for := some 0, last_scheduled_at := some 0,
    fail_count := some 0, last_http_status := none,
    last_error_code := none, error_category := none, updated_at := 0 }

/-- Counterexample for claim C3 as stated: with a single IN_PROGRESS row
whose scheduled_for passed long ago, dequeue_task returns no task and
leaves the row IN_PROGRESS, so the stale lease is not re-picked. -/
theorem c3_counterexample :
    (dequeueTask ⟨none, none, 0, [c3row]⟩ 100000).1 = none ∧
      (dequeueTask ⟨none, none, 0, [c3row]⟩ 100000).2.rows = [c3row] := by
  constructor <;> rfl

/-- Witness for the amended claim C3 at the concrete stale state. -/
theorem c3_witness :
    c3row ∈ (dequeueTask ⟨none, none, 0, [c3row]⟩ 100000).2.rows ∧
      ∀ t, (dequeueTask ⟨none, none, 0, [c3row]⟩ 100000).1 = some t →
        t.id ≠ c3row.id := by
  exact c3_stale_lease_never_repicked ⟨none, none, 0, [c3row]⟩ 100000 c3row
    (List.mem_singleton.mpr rfl) rfl
    (by intro r2 h2 hid; exact List.mem_singleton.mp h2)

/-- Claim C4 (amended): enqueue of an existing DONE (url, source_id) row
with force_recrawl=false keeps status, scheduled_for and last_scheduled_at,
but still lowers depth to the minimum, raises priority to the maximum and
touches updated_at; with force_recrawl=true the row returns to SCHEDULED
with scheduled_for = now. -/
theorem c4_enqueue_done_upsert (s : QueueState) (now : Int) (url : PyStr)
    (sid : Int) (depth priority : Int) (force : Bool) (r : FrontierRow)
    (hdepth : ∀ m, s.maxDepth = some m → depth ≤ m)
    (hcap : hasReachedMaxPages s = false)
    (hr : r ∈ s.rows) (hu : r.url = url) (hsid : r.source_id = sid)
    (hdone : r.status = Status.done) :
    ∃ r2 ∈ (enqueueUrl s now url sid depth priority force).rows,
      r2.depth = some (min (r.depth.getD depth) depth) ∧
      r2.priority = some (max (r.priority.getD priority) priority) ∧
      r2.updated_at = now ∧
      (force = false →
        r2.status = r.status ∧ r2.scheduled_for = r.scheduled_for ∧
          r2.last_scheduled_at = r.last_scheduled_at) ∧
      (force = true →
        r2.status = Status.scheduled ∧ r2.scheduled_for = some now ∧
          r2.last_scheduled_at = some now) := by
  have hgate1 : (match s.maxDepth with
      | none => false
      | some m => decide (m < depth)) = false := by
    cases hm : s.maxDepth with
    | none => rfl
    | some m =>
      simp only [decide_eq_false_iff_not, not_lt]
      exact hdepth m hm
  have hcond : (decide (r.url = url) && decide (r.source_id = sid)) =
      true := by
    rw [Bool.and_eq_true]
    exact ⟨decide_eq_true hu, decide_eq_true hsid⟩
  have hany : (s.rows.any fun r2 =>
      decide (r2.url = url) && decide (r2.source_id = sid)) = true := by
    rw [List.any_eq_true]
    exact ⟨r, hr, hcond⟩
  refine ⟨enqueueConflictRow now depth priority force r, ?_, ?_⟩
  · unfold enqueueUrl
    rw [if_neg (fun h => Bool.false_ne_true (hgate1 ▸ h)),
      if_neg (fun h => Bool.false_ne_true (hcap ▸ h)), if_pos hany]
    refine List.mem_map.mpr ⟨r, hr, ?_⟩
    rw [if_pos hcond]
  · cases force with
    | false =>
      have hkeep : r.status = Status.done ∧ ¬ ((false : Bool) = true) :=
        ⟨hdone, Bool.false_ne_true⟩
      refine ⟨rfl, rfl, rfl, ?_, ?_⟩
      · intro _
        unfold enqueueConflictRow
        refine ⟨?_, ?_, ?_⟩
        · show (if r.status = Status.done ∧ ¬ ((false : Bool) = true) then
            r.status else Status.scheduled) = r.status
          rw [if_pos hkeep]
        · show (if r.status = Status.done ∧ ¬ ((false : Bool) = true) then
            r.scheduled_for else some now) = r.scheduled_for
          rw [if_pos hkeep]
        · show (if r.status = Status.done ∧ ¬ ((false : Bool) = true) then
            r.last_scheduled_at else some now) = r.last_scheduled_at
          rw [if_pos hkeep]
      · intro h; cases h
    | true =>
      have hnk : ¬ (r.status = Status.done ∧ ¬ ((true : Bool) = true)) := by
        intro h
        exact h.2 rfl
      refine ⟨rfl, rfl, rfl, ?_, ?_⟩
      · intro h; cases h
      · intro _
        unfold enqueueConflictRow
        refine ⟨?_, ?_, ?_⟩
        · show (if r.status = Status.done ∧ ¬ ((true : Bool) = true) then
            r.status else Status.scheduled) = Status.scheduled
          rw [if_neg hnk]
        · show (if r.status = Status.done ∧ ¬ ((true : Bool) = true) then
            r.scheduled_for else some now) = some now
          rw [if_neg hnk]
        · show (if r.status = Status.done ∧ ¬ ((true : Bool) = true) then
            r.last_scheduled_at else some now) = some now
          rw [if_neg hnk]

/-- A concrete DONE frontier row at depth 5. -/
def c4row : FrontierRow :=
  { id := 3, url := pyOfString "https://example.com/page", source_id := 1,
    depth := some 5, priority := some 0, status := Status.done,
    scheduled_for := some 50, last_scheduled_at := some 50,
    fail_count := some 0, last_http_status := some 200,
    last_error_code := none, error_category := none, updated_at := 60 }

/-- Counterexample for claim C4 as stated: re-enqueueing the DONE row at a
smaller depth with force_recrawl=false does change the row — depth drops to
the minimum and updated_at is touched — so the row is not left entirely
unchanged. -/
theorem c4_counterexample :
    (enqueueUrl ⟨none, none, 0, [c4row]⟩ 100
        (pyOfString "https://example.com/page") 1 3 0 false).rows =
      [{ c4row with depth := some 3, updated_at := 100 }] ∧
    ({ c4row with depth := some 3, updated_at := 100 } : FrontierRow) ≠
      c4row := by
  constructor
  · rfl
  · decide

/-- Witness for the amended claim C4 at the concrete DONE row with
force_recrawl=true. -/
theorem c4_witness :
    ∃ r2 ∈ (enqueueUrl ⟨none, none, 0, [c4row]⟩ 100
        (pyOfString "https://example.com/page") 1 3 0 true).rows,
      r2.depth = some (min (c4row.depth.getD 3) 3) ∧
      r2.priority = some (max (c4row.priority.getD 0) 0) ∧
      r2.updated_at = 100 ∧
      ((true : Bool) = false →
        r2.status = c4row.status ∧ r2.scheduled_for = c4row.scheduled_for ∧
          r2.last_scheduled_at = c4row.last_scheduled_at) ∧
      ((true : Bool) = true →
        r2.status = Status.scheduled ∧ r2.scheduled_for = some 100 ∧
          r2.last_scheduled_at = some 100) := by
  exact c4_enqueue_done_upsert ⟨none, none, 0, [c4row]⟩ 100
    (pyOfString "https://example.com/page") 1 3 0 true c4row
    (by intro m hm; cases hm) rfl (List.mem_singleton.mpr rfl) rfl rfl rfl

/-- Claim C10: with a page cap configured, mark_done increments the
in-memory crawled_count exactly when the row's status before the call was
not DONE, and a second mark_done on the same task leaves the counter
unchanged, so repeated calls contribute at most one. -/
theorem c10_mark_done_increments_once (s : QueueState) (now now2 : Int)
    (i : Nat) (sc sc2 : Option Int) (r : FrontierRow)
    (hfind : s.rows.find? (fun r2 => r2.id = i) = some r)
    (hmax : s.maxPages.isSome) :
    ((markDone s now i sc).crawledCount =
      if r.status = Status.done then s.crawledCount
      else s.crawledCount + 1) ∧
    (markDone (markDone s now i sc) now2 i sc2).crawledCount =
      (markDone s now i sc).crawledCount := by
  have hpred := List.find?_some hfind
  have hrid : r.id = i := of_decide_eq_true hpred
  have hmc : ∀ (s2 : QueueState) (n2 : Int) (sc3 : Option Int),
      (markDone s2 n2 i sc3).crawledCount =
        if s2.maxPages.isSome ∧
            ((s2.rows.find? (fun r2 => r2.id = i)).map
              (fun r3 => r3.status)) ≠ some Status.done then
          s2.crawledCount + 1
        else s2.crawledCount := fun _ _ _ => rfl
  have hcount1 : (markDone s now i sc).crawledCount =
      if r.status = Status.done then s.crawledCount
      else s.crawledCount + 1 := by
    rw [hmc s now sc, hfind]
    simp only [Option.map_some']
    by_cases hd : r.status = Status.done
    · rw [if_pos hd, if_neg (fun h => h.2 (congrArg Option.some hd))]
    · rw [if_neg hd, if_pos ⟨hmax, fun h => hd (Option.some.inj h)⟩]
  refine ⟨hcount1, ?_⟩
  have hgid : ∀ r2 : FrontierRow,
      ((fun r3 : FrontierRow =>
        if r3.id = i then markDoneRow now sc r3 else r3) r2).id
        = r2.id := by
    intro r2
    by_cases h : r2.id = i
    · show (if r2.id = i then markDoneRow now sc r2 else r2).id = r2.id
      rw [if_pos h]
      rfl
    · show (if r2.id = i then markDoneRow now sc r2 else r2).id = r2.id
      rw [if_neg h]
  have hrows : (markDone s now i sc).rows =
      s.rows.map (fun r3 =>
        if r3.id = i then markDoneRow now sc r3 else r3) := rfl
  have hfind2 : (markDone s now i sc).rows.find? (fun r2 => r2.id = i) =
      some (markDoneRow now sc r) := by
    rw [hrows, find_id_map _ hgid i s.rows, hfind]
    simp only [Option.map_some']
    rw [if_pos hrid]
  rw [hmc (markDone s now i sc) now2 sc2, hfind2]
  simp only [Option.map_some']
  rw [if_neg]
  intro h
  exact h.2 rfl

/-- Witness for C10 at a concrete one-row state with a page cap of 10: the
first mark_done increments the counter and the second does not. -/
theorem c10_witness :
    ((markDone ⟨none, some 10, 0, [c3row]⟩ 5 1 (some 200)).crawledCount =
      if c3row.status = Status.done then 0 else 0 + 1) ∧
    (markDone (markDone ⟨none, some 10, 0, [c3row]⟩ 5 1 (some 200)) 6 1
        (some 200)).crawledCount =
      (markDone ⟨none, some 10, 0, [c3row]⟩ 5 1 (some 200)).crawledCount := by
  exact c10_mark_done_increments_once ⟨none, some 10, 0, [c3row]⟩ 5 6 1
    (some 200) (some 200) c3row rfl rfl

/-! ## Domain crawl policy (Worker._respect_domain_policy)

Instants are modelled as integer milliseconds since an arbitrary UTC
epoch; the UTC date of an instant is its floor-division by the number of
milliseconds per day, matching datetime .date() comparisons on UTC
datetimes. -/

/-- Milliseconds per UTC day. -/
def msPerDay : Int := 86400000

/-- One row of the domain_crawl_policy table. -/
structure DomainPolicy where
  domain : PyStr
  min_delay_ms : Int
  last_crawled_at : Option Int
  next_allowed_at : Option Int
  daily_limit : Int
  crawled_today : Int
deriving DecidableEq, Repr

/-- Worker._respect_domain_policy: row creation with defaults on first
sight, daily-count reset across a UTC date boundary, the min-delay and
next-allowed waits, the daily-quota gate, and the final state written back.
The returned integer is the wait in milliseconds; the caller sleeps that
long when it is positive. -/
def respectDomainPolicy (p0 : Option DomainPolicy) (domain : PyStr)
    (defaultMinDelay : Int) (dailyLimitDefault : Int) (now : Int) :
    DomainPolicy × Int :=
  let p := match p0 with
    | some p => p
    | none =>
      { domain := domain, min_delay_ms := defaultMinDelay,
        last_crawled_at := none, next_allowed_at := none,
        daily_limit := dailyLimitDefault, crawled_today := 0 }
  let crawledToday : Int :=
    match p.last_crawled_at with
    | none => 0
    | some l =>
      if Int.fdiv l msPerDay = Int.fdiv now msPerDay then p.crawled_today
      else 0
  let minDelayWait : Int :=
    match p.last_crawled_at with
    | none => 0
    | some l => max 0 (p.min_delay_ms - (now - l))
  let nextAllowedWait : Int :=
    match p.next_allowed_at with
    | none => 0
    | some n => max 0 (n - now)
  let wait0 := max minDelayWait nextAllowedWait
  let quota := decide (p.daily_limit ≤ crawledToday)
  let nextDayStart := (Int.fdiv now msPerDay + 1) * msPerDay
  let wait := if quota then max wait0 (nextDayStart - now) else wait0
  let nextAllowed : Option Int :=
    if quota then some nextDayStart
    else if 0 < wait0 then some (now + wait0)
    else none
  let p1 := { p with crawled_today := crawledToday,
                     next_allowed_at := nextAllowed }
  let p2 :=
    if wait ≤ 0 then
      { p1 with last_crawled_at := some now,
                crawled_today := crawledToday + 1 }
    else p1
  (p2, wait)

/-- Claim C5: the policy wait is never smaller than the remaining
min-delay max(0, min_delay_ms - (now - last_crawled_at)); in particular a
policy with min_delay_ms = 2000 and last_crawled_at = now - 500 waits at
least 1500 ms. -/
theorem c5_wait_at_least_min_delay (p : DomainPolicy) (domain : PyStr)
    (dmd dld now l : Int) (hl : p.last_crawled_at = some l) :
    max 0 (p.min_delay_ms - (now - l)) ≤
      (respectDomainPolicy (some p) domain dmd dld now).2 := by
  unfold respectDomainPolicy
  simp only [hl]
  have h1 : max 0 (p.min_delay_ms - (now - l)) ≤
      max (max 0 (p.min_delay_ms - (now - l)))
        (match p.next_allowed_at with
         | none => 0
         | some n => max 0 (n - now)) := le_max_left _ _
  by_cases hq : decide (p.daily_limit ≤
      (if Int.fdiv l msPerDay = Int.fdiv now msPerDay then p.crawled_today
       else 0)) = true
  · simp only [hq, if_true]
    exact le_trans h1 (le_max_left _ _)
  · simp only [hq, if_false]
    exact h1

/-- Witness for C5: min_delay_ms = 2000 and last_crawled_at = now - 500
give a wait of at least 1500 ms. -/
theorem c5_witness :
    (1500 : Int) ≤
      (respectDomainPolicy
        (some { domain := pyOfString "example.com", min_delay_ms := 2000,
                last_crawled_at := some 999500, next_allowed_at := none,
                daily_limit := 10000, crawled_today := 3 })
        (pyOfString "example.com") 1000 10000 1000000).2 := by
  have h := c5_wait_at_least_min_delay
    { domain := pyOfString "example.com", min_delay_ms := 2000,
      last_crawled_at := some 999500, next_allowed_at := none,
      daily_limit := 10000, crawled_today := 3 }
    (pyOfString "example.com") 1000 10000 1000000 999500 rfl
  exact le_trans (by decide) h

/-! ## Worker post-fetch decision (Worker.process_url, fetch stage)

The decision the worker takes right after the fetch: it reads the status
code, the skipped flag and the body of the FetchResult. -/

/-- The fields of FetchResult that the post-fetch decision reads. -/
structure FetchResultM where
  status_code : Int
  content : PyStr
  skipped : Bool
deriving DecidableEq, Repr

/-- The branch taken by Worker.process_url after the fetch. -/
inductive PostFetchStep where
  | doneHttpStatus (code : Int)
  | doneSkipped (code : Int)
  | doneEmptyBody (code : Int)
  | failedStatus (code : Int)
  | parsePage (code : Int)
deriving DecidableEq, Repr

/-- The ordered checks of Worker.process_url after the fetch: status in
{404, 410} marks done; a skipped fetch marks done; an empty
(whitespace-only) body marks done with the empty_body skip metric; a
status of 400 or more raises, which the worker catches by logging a
CrawlErrorLog and calling mark_failed; otherwise the page is parsed. -/
def postFetchDecision (fr : FetchResultM) : PostFetchStep :=
  if fr.status_code = 404 ∨ fr.status_code = 410 then
    PostFetchStep.doneHttpStatus fr.status_code
  else if fr.skipped then PostFetchStep.doneSkipped fr.status_code
  else if pyStrip isPyWsChar fr.content = [] then
    PostFetchStep.doneEmptyBody fr.status_code
  else if 400 ≤ fr.status_code then PostFetchStep.failedStatus fr.status_code
  else PostFetchStep.parsePage fr.status_code

/-- Counterexample for claim C6 as stated: a non-skipped fetch with an
empty body and status 500 is marked done through the empty-body branch —
it is not treated as a failure, no mark_failed happens. -/
theorem c6_counterexample :
    postFetchDecision ⟨500, [], false⟩ = PostFetchStep.doneEmptyBody 500 ∧
      ∀ c : Int, postFetchDecision ⟨500, [], false⟩ ≠
        PostFetchStep.failedStatus c := by
  refine ⟨rfl, ?_⟩
  intro c h
  have h0 : postFetchDecision ⟨500, [], false⟩ =
      PostFetchStep.doneEmptyBody 500 := rfl
  rw [h0] at h
  exact PostFetchStep.noConfusion h

/-- Claim C6 (amended): a fetch that completes with an empty
(whitespace-only) body, status outside {404, 410} and not skipped, is
marked done via the empty-body branch; the failure path (CrawlErrorLog
plus mark_failed) is reached only for a non-empty body with status 400 or
more. -/
theorem c6_empty_body_marks_done (fr : FetchResultM)
    (hempty : pyStrip isPyWsChar fr.content = [])
    (hst : ¬ (fr.status_code = 404 ∨ fr.status_code = 410))
    (hsk : fr.skipped = false) :
    postFetchDecision fr = PostFetchStep.doneEmptyBody fr.status_code := by
  unfold postFetchDecision
  rw [if_neg hst, if_neg (by rw [hsk]; exact Bool.false_ne_true),
    if_pos hempty]

/-- Witness for the amended claim C6 at a whitespace-only body with
status 200. -/
theorem c6_witness :
    postFetchDecision ⟨200, pyOfString "  ", false⟩ =
      PostFetchStep.doneEmptyBody 200 := by
  exact c6_empty_body_marks_done ⟨200, pyOfString "  ", false⟩
    (by decide) (by decide) rfl

/-! ## urllib.parse embedding (CPython 3.11)

Character-level translation of urlsplit, urlparse, urlunsplit, urlunparse
and urljoin as used by the source.  Bracketed IPv6 netlocs are modelled as
parse failures (see the header); parse failure propagates as none, which
the source surfaces as a raised ValueError. -/

/-- Characters allowed in a URL scheme. -/
def schemeChar (c : Char) : Bool :=
  c.isAlpha || c.isDigit || c = '+' || c = '-' || c = '.'

/-- Membership of a string in a list of strings. -/
def pyMem (s : PyStr) (l : List PyStr) : Bool := l.any (fun t => decide (t = s))

/-- The uses_relative scheme list of urllib.parse. -/
def usesRelative : List PyStr :=
  [pyOfString "", pyOfString "ftp", pyOfString "http", pyOfString "gopher",
   pyOfString "nntp", pyOfString "imap", pyOfString "wais",
   pyOfString "file", pyOfString "https", pyOfString "shttp",
   pyOfString "mms", pyOfString "prospero", pyOfString "rtsp",
   pyOfString "rtsps", pyOfString "rtspu", pyOfString "sftp",
   pyOfString "svn", pyOfString "svn+ssh", pyOfString "ws",
   pyOfString "wss"]

/-- The uses_netloc scheme list of urllib.parse. -/
def usesNetloc : List PyStr :=
  [pyOfString "", pyOfString "ftp", pyOfString "http", pyOfString "gopher",
   pyOfString "nntp", pyOfString "telnet", pyOfString "imap",
   pyOfString "wais", pyOfString "file", pyOfString "mms",
   pyOfString "https", pyOfString "shttp", pyOfString "snews",
   pyOfString "prospero", pyOfString "rtsp", pyOfString "rtsps",
   pyOfString "rtspu", pyOfString "rsync", pyOfString "svn",
   pyOfString "svn+ssh", pyOfString "sftp", pyOfString "nfs",
   pyOfString "git", pyOfString "git+ssh", pyOfString "ws", pyOfString "wss"]

/-- The uses_params scheme list of urllib.parse. -/
def usesParams : List PyStr :=
  [pyOfString "", pyOfString "ftp", pyOfString "hdl", pyOfString "prospero",
   pyOfString "http", pyOfString "imap", pyOfString "https",
   pyOfString "shttp", pyOfString "rtsp", pyOfString "rtsps",
   pyOfString "rtspu", pyOfString "sip", pyOfString "sips",
   pyOfString "mms", pyOfString "sftp", pyOfString "tel"]

/-- Result of urlsplit. -/
structure SplitUrl where
  scheme : PyStr
  netloc : PyStr
  path : PyStr
  query : PyStr
  fragment : PyStr
deriving DecidableEq, Repr

/-- Result of urlparse. -/
structure ParsedUrl where
  scheme : PyStr
  netloc : PyStr
  path : PyStr
  params : PyStr
  query : PyStr
  fragment : PyStr
deriving DecidableEq, Repr

/-- Delimiter test used when splitting the netloc. -/
def netlocDelim (c : Char) : Bool := c = '/' || c = '?' || c = '#'

/-- urlsplit(url, scheme=default): lstrip of C0-control-or-space, removal
of tab, CR and LF, scheme detection and lower-casing, netloc extraction
after a leading double slash, then fragment and query splits.  A netloc
containing a square bracket is modelled as a parse failure. -/
def urlsplitM (url0 defaultScheme : PyStr) : Option SplitUrl :=
  let ds := removeChars isUnsafeUrlChar (pyStrip isC0OrSpace defaultScheme)
  let url := removeChars isUnsafeUrlChar (pyLStrip isC0OrSpace url0)
  let sr : PyStr × PyStr :=
    match splitFirst ':' url with
    | some (pre, post) =>
      if !pre.isEmpty &&
          (match pre with
           | c :: _ => c.isAlpha
           | [] => false) &&
          pre.all schemeChar then
        (pyLower pre, post)
      else (ds, url)
    | none => (ds, url)
  let scheme := sr.1
  let rest := sr.2
  let nr : PyStr × PyStr :=
    if listStarts (pyOfString "//") rest then
      let r := rest.drop 2
      (r.takeWhile (fun c => !netlocDelim c),
       r.dropWhile (fun c => !netlocDelim c))
    else ([], rest)
  let netloc := nr.1
  let rest2 := nr.2
  if containsChar '[' netloc || containsChar ']' netloc then none
  else
    let fr : PyStr × PyStr :=
      match splitFirst '#' rest2 with
      | some (a, b) => (a, b)
      | none => (rest2, [])
    let qr : PyStr × PyStr :=
      match splitFirst '?' fr.1 with
      | some (a, b) => (a, b)
      | none => (fr.1, [])
    some ⟨scheme, netloc, qr.1, qr.2, fr.2⟩

/-- The params split of urlparse: the part after the first semicolon of the
last path segment. -/
def splitParamsPy (url : PyStr) : PyStr × PyStr :=
  if containsChar '/' url then
    match splitLast '/' url with
    | some (before, after) =>
      match splitFirst ';' after with
      | none => (url, [])
      | some (a1, a2) => (before ++ '/' :: a1, a2)
    | none => (url, [])
  else
    match splitFirst ';' url with
    | some (a, b) => (a, b)
    | none => (url, [])

/-- urlparse(url, scheme=default): urlsplit followed by the params split
for schemes that use params. -/
def urlparseM (url ds : PyStr) : Option ParsedUrl :=
  (urlsplitM url ds).map fun sp =>
    if pyMem sp.scheme usesParams && containsChar ';' sp.path then
      let pp := splitParamsPy sp.path
      ⟨sp.scheme, sp.netloc, pp.1, pp.2, sp.query, sp.fragment⟩
    else ⟨sp.scheme, sp.netloc, sp.path, [], sp.query, sp.fragment⟩

/-- urlunsplit of CPython 3.11: the double slash is emitted when a netloc
is present, or when the scheme uses a netloc and the path does not already
start with a double slash. -/
def urlunsplitP (scheme netloc path query fragment : PyStr) : PyStr :=
  let url :=
    if !netloc.isEmpty ||
        (!scheme.isEmpty && pyMem scheme usesNetloc &&
          !listStarts (pyOfString "//") path) then
      let p2 := if !path.isEmpty && !headIs '/' path then '/' :: path
        else path
      ('/' :: '/' :: netloc) ++ p2
    else path
  let url2 := if !scheme.isEmpty then scheme ++ ':' :: url else url
  let url3 := if !query.isEmpty then url2 ++ '?' :: query else url2
  if !fragment.isEmpty then url3 ++ '#' :: fragment else url3

/-- urlunparse: params are re-attached to the path with a semicolon. -/
def urlunparseP (scheme netloc path params query fragment : PyStr) : PyStr :=
  let p2 := if !params.isEmpty then path ++ ';' :: params else path
  urlunsplitP scheme netloc p2 query fragment

/-- The middle filter of urljoin: segments[1:-1] = filter(None, ...). -/
def midFilterEmpty : List PyStr → List PyStr
  | [] => []
  | [y] => [y]
  | y :: ys => if y.isEmpty then midFilterEmpty ys else y :: midFilterEmpty ys

/-- Keep the first element, filter empty strings from the middle. -/
def keepEndsFilterEmpty : List PyStr → List PyStr
  | [] => []
  | [x] => [x]
  | x :: rest => x :: midFilterEmpty rest

/-- One step of the dot-segment resolution loop of urljoin. -/
def resolveStep (acc : List PyStr) (seg : PyStr) : List PyStr :=
  if seg = pyOfString ".." then acc.dropLast
  else if seg = pyOfString "." then acc
  else acc ++ [seg]

/-- urljoin(base, url) of CPython 3.11, including the relative-path merge
with dot-segment resolution. -/
def urljoinM (base url : PyStr) : Option PyStr :=
  if base.isEmpty then some url
  else if url.isEmpty then some base
  else
    match urlparseM base [] with
    | none => none
    | some b =>
      match urlparseM url b.scheme with
      | none => none
      | some u =>
        if ¬ (u.scheme = b.scheme ∧ pyMem u.scheme usesRelative = true) then
          some url
        else if pyMem u.scheme usesNetloc && !u.netloc.isEmpty then
          some (urlunparseP u.scheme u.netloc u.path u.params u.query
            u.fragment)
        else
          let netloc :=
            if pyMem u.scheme usesNetloc then b.netloc else u.netloc
          if u.path.isEmpty && u.params.isEmpty then
            let query := if u.query.isEmpty then b.query else u.query
            some (urlunparseP u.scheme netloc b.path b.params query
              u.fragment)
          else
            let baseParts0 := splitEvery '/' b.path
            let baseParts :=
              if !(baseParts0.getLastD []).isEmpty then baseParts0.dropLast
              else baseParts0
            let segments :=
              if headIs '/' u.path then splitEvery '/' u.path
              else keepEndsFilterEmpty (baseParts ++ splitEvery '/' u.path)
            let resolved := segments.foldl resolveStep []
            let resolved2 :=
              if segments.getLastD [] = pyOfString "." ∨
                  segments.getLastD [] = pyOfString ".." then
                resolved ++ [[]]
              else resolved
            let joined := joinChar '/' resolved2
            let path := if joined.isEmpty then pyOfString "/" else joined
            some (urlunparseP u.scheme netloc path u.params u.query
              u.fragment)

/-! ## URL normalisation (crawler/utils/url_utils.py) -/

/-- Value characters of the tracking-parameter pattern: anything except
the equals sign and the ampersand. -/
def valChar (c : Char) : Bool := !(c = '=' || c = '&')

/-- The literal tracking-parameter names of the pattern
(utm_ has its own branch). -/
def trackNameList : List PyStr :=
  [pyOfString "sessionid", pyOfString "fbclid", pyOfString "ref",
   pyOfString "gclid"]

/-- Case-insensitive prefix test (the pattern is compiled with
IGNORECASE and its literals are lower case). -/
def ciStarts (pat s : PyStr) : Bool := listStarts pat (pyLower s)

/-- Whether the tracking pattern
(utm_[^=&]+|sessionid|fbclid|ref|gclid)=[^&]* matches at the head of the
string.  The greedy value part always extends to the next ampersand or the
end, so only the name part and the equals sign are tested here. -/
def matchTrackHere (s : PyStr) : Bool :=
  (ciStarts (pyOfString "utm_") s &&
    (let r := s.drop 4
     let run := r.takeWhile valChar
     !run.isEmpty && headIs '=' (r.drop run.length))) ||
  trackNameList.any (fun nm => ciStarts nm s && headIs '=' (s.drop nm.length))

/-- Scanner realising re.sub of the tracking pattern with the empty
replacement: in skip mode (first argument true) characters are dropped up
to the next ampersand, which is exactly the extent of a match. -/
def rtAux : Bool → PyStr → PyStr
  | _, [] => []
  | true, a :: as => if a = '&' then '&' :: rtAux false as else rtAux true as
  | false, a :: as =>
    if matchTrackHere (a :: as) then rtAux true as else a :: rtAux false as

/-- re.sub of the tracking pattern with the empty replacement. -/
def removeTrackingMatches (s : PyStr) : PyStr := rtAux false s

/-- The _clean_tracking_params helper: remove tracking parameters, collapse
ampersand runs, strip ampersands from both ends. -/
def cleanTrackingParams (q : PyStr) : PyStr :=
  pyStrip (fun c => c = '&') (collapseRuns '&' (removeTrackingMatches q))

/-- normalize_url(base_url, link): strip the link, add the base scheme to
scheme-relative links, join with the base, reject schemes other than http
and https, clean the query, drop the fragment, collapse duplicate slashes,
strip the trailing slash except on the root, lower-case the netloc, and
re-serialise.  Parse failures and rejected schemes yield none. -/
def normalizeUrl (base link : PyStr) : Option PyStr :=
  let raw := pyStrip isPyWsChar link
  let rawM : Option PyStr :=
    if listStarts (pyOfString "//") raw then
      match urlparseM base [] with
      | none => none
      | some pb =>
        some ((if pb.scheme.isEmpty then pyOfString "http" else pb.scheme)
          ++ ':' :: raw)
    else some raw
  match rawM with
  | none => none
  | some raw2 =>
    match urljoinM base raw2 with
    | none => none
    | some url =>
      match urlparseM url [] with
      | none => none
      | some p =>
        if ¬ (p.scheme = pyOfString "http" ∨ p.scheme = pyOfString "https")
        then none
        else
          let q := cleanTrackingParams p.query
          let path0 := if p.path.isEmpty then pyOfString "/" else p.path
          let path1 := collapseRuns '/' path0
          let path2 :=
            if path1 ≠ pyOfString "/" ∧ lastIs '/' path1 = true then
              path1.dropLast
            else path1
          some (urlunparseP p.scheme (pyLower p.netloc) path2 p.params q [])

/-- get_domain(url): the lower-cased netloc without the port; the empty
string when parsing fails. -/
def getDomain (url : PyStr) : PyStr :=
  match urlparseM url [] with
  | none => []
  | some p =>
    match splitFirst ':' (pyLower p.netloc) with
    | none => pyLower p.netloc
    | some (pre, _) => pre

/-! ## Link filter (crawler/utils/filters.py) -/

/-- The blocked asset extensions. -/
def blockedExtensions : List PyStr :=
  [pyOfString ".jpg", pyOfString ".jpeg", pyOfString ".png",
   pyOfString ".gif", pyOfString ".webp", pyOfString ".svg",
   pyOfString ".mp4", pyOfString ".mp3", pyOfString ".pdf",
   pyOfString ".zip", pyOfString ".rar", pyOfString ".exe",
   pyOfString ".apk", pyOfString ".iso", pyOfString ".tar",
   pyOfString ".gz", pyOfString ".7z", pyOfString ".css", pyOfString ".js"]

/-- The characters that may follow a blocked extension in the pattern
escaped-extension(?:$|[?#&]). -/
def extBoundary (c : Char) : Bool := c = '?' || c = '#' || c = '&'

/-- re.search of escaped-extension(?:$|[?#&]): the pattern occurs at some
position, followed by the end of the string or a boundary character. -/
def occursWithBoundary (pat : PyStr) : PyStr → Bool
  | [] => false
  | a :: rest =>
    (listStarts pat (a :: rest) &&
      (match (a :: rest).drop pat.length with
       | [] => true
       | c :: _ => extBoundary c)) ||
    occursWithBoundary pat rest

/-- geturl() of a parse result: re-serialisation of the six components. -/
def geturlP (p : ParsedUrl) : PyStr :=
  urlunparseP p.scheme p.netloc p.path p.params p.query p.fragment

/-- is_valid_link(base_domain, url): none models a raised exception from
urlparse (the function does not catch it).  The scheme gate only requires
the scheme to start with "http"; then the blocked-extension search over
the lower-cased path-plus-query, the nonempty-netloc check, the
javascript/mailto/tel prefix check on the re-serialised URL, and the
domain comparison. -/
def isValidLink (base_domain url : PyStr) : Option Bool :=
  match urlparseM url [] with
  | none => none
  | some p =>
    if ¬ listStarts (pyOfString "http") p.scheme then some false
    else
      let combined0 :=
        if p.query.isEmpty then p.path else p.path ++ '?' :: p.query
      let combined := pyLower combined0
      if blockedExtensions.any (fun ext => occursWithBoundary ext combined)
      then some false
      else if p.netloc.isEmpty then some false
      else if ciStarts (pyOfString "javascript:") (geturlP p) ||
          ciStarts (pyOfString "mailto:") (geturlP p) ||
          ciStarts (pyOfString "tel:") (geturlP p) then some false
      else if getDomain url ≠ base_domain then some false
      else some true

/-! ## HTML link extraction (crawler/parsing/html_extractor.py)

BeautifulSoup is an external library: the anchor scan is abstracted by
taking the list of href attribute values of the <a href=...> tags in
document order as input; the per-href loop body is translated from the
source.  The Python set of collected links is modelled as a
first-insertion-order list without duplicates (CPython set iteration order
is unspecified; membership and dedup are faithful).  An exception inside
the loop makes the source return the links collected so far, realised here
by the abort branches that return the accumulator. -/

/-- The loop of extract_links over the anchor hrefs. -/
def extractLinksAux (baseUrl baseDomain : PyStr) :
    List PyStr → List PyStr → List PyStr
  | [], acc => acc
  | href :: rest, acc =>
    let h := pyStrip isPyWsChar href
    if h.isEmpty then extractLinksAux baseUrl baseDomain rest acc
    else
      match urljoinM baseUrl h with
      | none => acc
      | some full =>
        match urlparseM full [] with
        | none => acc
        | some pf =>
          if ¬ (pf.scheme = pyOfString "http" ∨
              pf.scheme = pyOfString "https") then
            extractLinksAux baseUrl baseDomain rest acc
          else if ¬ pf.netloc.isEmpty ∧ pf.netloc ≠ baseDomain then
            extractLinksAux baseUrl baseDomain rest acc
          else if full ∈ acc then extractLinksAux baseUrl baseDomain rest acc
          else extractLinksAux baseUrl baseDomain rest (acc ++ [full])

/-- extract_links(base_url, html): absolutise each anchor href against the
base, keep http(s) links whose netloc is empty or equals the netloc of the
base, collected as a set. -/
def extractLinks (baseUrl : PyStr) (hrefs : List PyStr) : List PyStr :=
  match urlparseM baseUrl [] with
  | none => []
  | some pb => extractLinksAux baseUrl pb.netloc hrefs []

/-! ## Worker link pipeline (Worker.process_url, steps 3 to 5) -/

/-- One row of the outbound_links table as created by the worker. -/
structure OutboundLinkRow where
  target_url : PyStr
  is_internal : Bool
deriving DecidableEq, Repr

/-- The seen-set dedup loop of the worker (insertion order preserved). -/
def dedupAux (seen : List PyStr) : List PyStr → List PyStr
  | [] => []
  | x :: xs =>
    if x ∈ seen then dedupAux seen xs else x :: dedupAux (x :: seen) xs

/-- Order-preserving dedup. -/
def dedupKeepOrder (l : List PyStr) : List PyStr := dedupAux [] l

/-- The link filter loop of the worker: drop links rejected by
is_valid_link, then drop links whose lower-cased netloc differs from the
base domain.  none models an exception escaping the loop. -/
def filterValidLinks (baseDomain : PyStr) : List PyStr → Option (List PyStr)
  | [] => some []
  | l :: ls =>
    match isValidLink baseDomain l with
    | none => none
    | some false => filterValidLinks baseDomain ls
    | some true =>
      match urlparseM l [] with
      | none => none
      | some pl =>
        if pyLower pl.netloc ≠ baseDomain then filterValidLinks baseDomain ls
        else (filterValidLinks baseDomain ls).map (fun r => l :: r)

/-- The OutboundLink creation loop: is_internal is the comparison of the
lower-cased netloc of the link with the base domain. -/
def mkOutboundRows (baseDomain : PyStr) :
    List PyStr → Option (List OutboundLinkRow)
  | [] => some []
  | l :: ls =>
    match urlparseM l [] with
    | none => none
    | some pl =>
      (mkOutboundRows baseDomain ls).map
        (fun rest => ⟨l, decide (pyLower pl.netloc = baseDomain)⟩ :: rest)

/-- Steps 3 to 5 of Worker.process_url restricted to link handling:
extract, dedup, filter, cap, build the OutboundLink rows; the second
component is the list of URLs enqueued at depth + 1. -/
def workerLinkPipeline (baseForLinks : PyStr) (hrefs : List PyStr)
    (maxLinks : Nat) : Option (List OutboundLinkRow × List PyStr) :=
  let uniqueLinks := dedupKeepOrder (extractLinks baseForLinks hrefs)
  let baseDomain := getDomain baseForLinks
  match filterValidLinks baseDomain uniqueLinks with
  | none => none
  | some filtered =>
    let capped := filtered.take maxLinks
    match mkOutboundRows baseDomain capped with
    | none => none
    | some rows => some (rows, capped)

/-! ## Claims about the link filter and link extraction -/

/-- Counterexample for claim C9 as stated: the scheme gate of
is_valid_link only tests str.startswith("http"), so the unknown scheme
httpx passes it and the link is accepted even though its scheme is neither
http nor https. -/
theorem c9_counterexample :
    isValidLink (pyOfString "example.com")
      (pyOfString "httpx://example.com/page") = some true := by
  rfl

/-- Claim C9 (amended): is_valid_link rejects every URL whose scheme does
not start with "http" (for example ftp:, javascript:, mailto:, tel:);
schemes merely beginning with the letters "http" pass this gate. -/
theorem c9_scheme_gate (base url : PyStr) (p : ParsedUrl)
    (hp : urlparseM url [] = some p)
    (hs : listStarts (pyOfString "http") p.scheme = false) :
    isValidLink base url = some false := by
  unfold isValidLink
  simp only [hp]
  rw [if_pos (fun h => Bool.false_ne_true (hs ▸ h))]

/-- Witness for the amended claim C9 at an ftp URL. -/
theorem c9_witness :
    isValidLink (pyOfString "example.com")
      (pyOfString "ftp://example.com/file") = some false := by
  exact c9_scheme_gate (pyOfString "example.com")
    (pyOfString "ftp://example.com/file")
    ⟨pyOfString "ftp", pyOfString "example.com", pyOfString "/file",
      [], [], []⟩ rfl rfl

/-- Counterexample for claim C1 as stated: extract_links drops the anchor
whose host differs from the base host, and processing the spec scenario
page produces no OutboundLink row with is_internal = false — only the
internal link survives, both in the rows and in the enqueue list. -/
theorem c1_counterexample :
    extractLinks (pyOfString "https://example.com/")
        [pyOfString "/a", pyOfString "https://other.com/x"] =
      [pyOfString "https://example.com/a"] ∧
    workerLinkPipeline (pyOfString "https://example.com/")
        [pyOfString "/a", pyOfString "https://other.com/x"] 1000 =
      some ([⟨pyOfString "https://example.com/a", true⟩],
        [pyOfString "https://example.com/a"]) := by
  constructor <;> rfl

/-- The property maintained for every collected link: it parses, its
scheme is http or https, and its netloc is empty or equal to the netloc of
the base. -/
def GoodLink (baseDomain l : PyStr) : Prop :=
  ∃ pf, urlparseM l [] = some pf ∧
    (pf.scheme = pyOfString "http" ∨ pf.scheme = pyOfString "https") ∧
    (pf.netloc = [] ∨ pf.netloc = baseDomain)

/-- Invariant of the extract_links loop: the accumulator stays duplicate
free and every collected link is good. -/
theorem extractLinksAux_inv (baseUrl baseDomain : PyStr) :
    ∀ (hs acc : List PyStr), acc.Nodup →
      (∀ l ∈ acc, GoodLink baseDomain l) →
      (extractLinksAux baseUrl baseDomain hs acc).Nodup ∧
      ∀ l ∈ extractLinksAux baseUrl baseDomain hs acc,
        GoodLink baseDomain l := by
  intro hs
  induction hs with
  | nil =>
    intro acc h1 h2
    exact ⟨h1, h2⟩
  | cons href rest ih =>
    intro acc h1 h2
    simp only [extractLinksAux]
    split
    · exact ih acc h1 h2
    · split
      · exact ⟨h1, h2⟩
      · next full hjoin =>
        split
        · exact ⟨h1, h2⟩
        · next pf hparse =>
          split
          · exact ih acc h1 h2
          · next hschemeNeg =>
            have hscheme : pf.scheme = pyOfString "http" ∨
                pf.scheme = pyOfString "https" := not_not.mp hschemeNeg
            split
            · exact ih acc h1 h2
            · next hnetNeg =>
              split
              · exact ih acc h1 h2
              · next hmemNeg =>
                have hgood : GoodLink baseDomain full := by
                  refine ⟨pf, hparse, hscheme, ?_⟩
                  by_cases he : pf.netloc.isEmpty = true
                  · exact Or.inl (List.isEmpty_iff.mp he)
                  · right
                    by_contra hne
                    exact hnetNeg ⟨he, hne⟩
                refine ih (acc ++ [full]) ?_ ?_
                · refine List.Nodup.append h1 (List.nodup_singleton full) ?_
                  intro x hx hx2
                  rw [List.mem_singleton.mp hx2] at hx
                  exact hmemNeg hx
                · intro l hl
                  rcases List.mem_append.mp hl with hin | hsing
                  · exact h2 l hin
                  · rw [List.mem_singleton.mp hsing]
                    exact hgood

/-- Every link filtered by the worker parses with a lower-cased netloc
equal to the base domain. -/
theorem filterValidLinks_mem (bd : PyStr) :
    ∀ (ls f : List PyStr), filterValidLinks bd ls = some f →
      ∀ l ∈ f, ∃ pl, urlparseM l [] = some pl ∧ pyLower pl.netloc = bd := by
  intro ls
  induction ls with
  | nil =>
    intro f hf l hl
    simp only [filterValidLinks, Option.some.injEq] at hf
    rw [← hf] at hl
    cases hl
  | cons x ls ih =>
    intro f hf l hl
    simp only [filterValidLinks] at hf
    split at hf
    · cases hf
    · exact ih f hf l hl
    · split at hf
      · cases hf
      · next pl hp =>
        split at hf
        · exact ih f hf l hl
        · next hd =>
          rcases Option.map_eq_some'.mp hf with ⟨f0, hf0, hfeq⟩
          rw [← hfeq] at hl
          rcases List.mem_cons.mp hl with hhead | htail
          · rw [hhead]
            exact ⟨pl, hp, not_not.mp hd⟩
          · exact ih f0 hf0 l htail

/-- Every OutboundLink row built from links whose lower-cased netloc is
the base domain has is_internal = true. -/
theorem mkOutboundRows_internal (bd : PyStr) :
    ∀ (ls : List PyStr) (rows : List OutboundLinkRow),
      (∀ l ∈ ls, ∃ pl, urlparseM l [] = some pl ∧ pyLower pl.netloc = bd) →
      mkOutboundRows bd ls = some rows →
      ∀ row ∈ rows, row.is_internal = true := by
  intro ls
  induction ls with
  | nil =>
    intro rows _ hr row hrow
    simp only [mkOutboundRows, Option.some.injEq] at hr
    rw [← hr] at hrow
    cases hrow
  | cons x ls ih =>
    intro rows hgood hr row hrow
    simp only [mkOutboundRows] at hr
    rcases hgood x (List.mem_cons_self x ls) with ⟨pl, hp, hbd⟩
    split at hr
    · cases hr
    · next pl0 hp0 =>
      have hpl : pl0 = pl := Option.some.inj (hp0.symm.trans hp)
      rcases Option.map_eq_some'.mp hr with ⟨rest, hrest, hreq⟩
      rw [← hreq] at hrow
      rcases List.mem_cons.mp hrow with hhead | htail
      · rw [hhead, hpl]
        exact decide_eq_true hbd
      · exact ih rest (fun l hl => hgood l (List.mem_cons_of_mem x hl))
          hrest row htail

/-- Claim C1 (amended): extract_links returns a duplicate-free list of
absolute http(s) URLs restricted to the host of the base (anchors whose
host differs from the base host are dropped), and consequently every
OutboundLink row the worker persists has is_internal = true. -/
theorem c1_links_same_host (base : PyStr) (hrefs : List PyStr)
    (maxLinks : Nat) :
    (extractLinks base hrefs).Nodup ∧
    (∀ l ∈ extractLinks base hrefs,
      ∃ pf, urlparseM l [] = some pf ∧
        (pf.scheme = pyOfString "http" ∨ pf.scheme = pyOfString "https") ∧
        ∀ pb, urlparseM base [] = some pb →
          (pf.netloc = [] ∨ pf.netloc = pb.netloc)) ∧
    (∀ rows enq, workerLinkPipeline base hrefs maxLinks = some (rows, enq) →
      ∀ row ∈ rows, row.is_internal = true) := by
  refine ⟨?_, ?_, ?_⟩
  · unfold extractLinks
    split
    · exact List.nodup_nil
    · next pb hb =>
      exact (extractLinksAux_inv base pb.netloc hrefs [] List.nodup_nil
        (fun l hl => absurd hl (List.not_mem_nil l))).1
  · intro l hl
    unfold extractLinks at hl
    split at hl
    · cases hl
    · next pb hb =>
      rcases (extractLinksAux_inv base pb.netloc hrefs [] List.nodup_nil
        (fun l2 hl2 => absurd hl2 (List.not_mem_nil l2))).2 l hl with
        ⟨pf, hp, hsch, hnet⟩
      refine ⟨pf, hp, hsch, ?_⟩
      intro pb2 hb2
      have hpb : pb2 = pb := Option.some.inj (hb2.symm.trans hb)
      rcases hnet with h1 | h2
      · exact Or.inl h1
      · right
        rw [h2, hpb]
  · intro rows enq hpipe row hrow
    simp only [workerLinkPipeline] at hpipe
    split at hpipe
    · cases hpipe
    · next filtered hfil =>
      split at hpipe
      · cases hpipe
      · next rows2 hmk =>
        simp only [Option.some.injEq, Prod.mk.injEq] at hpipe
        have hrows2 : rows2 = rows := hpipe.1
        rw [hrows2] at hmk
        refine mkOutboundRows_internal (getDomain base)
          (filtered.take maxLinks) rows ?_ hmk row hrow
        intro l hl
        exact filterValidLinks_mem (getDomain base) _ filtered hfil l
          (List.take_subset maxLinks filtered hl)

/-- Witness for the amended claim C1 at the spec scenario inputs. -/
theorem c1_witness :
    (extractLinks (pyOfString "https://example.com/")
      [pyOfString "/a", pyOfString "https://other.com/x"]).Nodup ∧
    (∀ rows enq,
      workerLinkPipeline (pyOfString "https://example.com/")
        [pyOfString "/a", pyOfString "https://other.com/x"] 1000 =
        some (rows, enq) →
      ∀ row ∈ rows, row.is_internal = true) := by
  have h := c1_links_same_host (pyOfString "https://example.com/")
    [pyOfString "/a", pyOfString "https://other.com/x"] 1000
  exact ⟨h.1, h.2.2⟩

/-! ## robots.txt handling (crawler/utils/robots.py over urllib.robotparser)

RobotsHandler._fetch_robots and is_allowed are translated from the source;
the RobotFileParser they drive is Python standard library code, translated
here with the documented ASCII restriction on percent-encoding (multi-byte
UTF-8 sequences are modelled byte-per-character). -/

/-- Hexadecimal digit test. -/
def isHexDigit (c : Char) : Bool :=
  c.isDigit || ('a' ≤ c && c ≤ 'f') || ('A' ≤ c && c ≤ 'F')

/-- Value of a hexadecimal digit. -/
def hexVal (c : Char) : Nat :=
  if c.isDigit then c.toNat - 48
  else if 'a' ≤ c && c ≤ 'f' then c.toNat - 87
  else c.toNat - 55

/-- urllib.parse.unquote, ASCII model: valid percent escapes are decoded,
invalid ones kept literally. -/
def pyUnquote : PyStr → PyStr
  | [] => []
  | '%' :: h1 :: h2 :: rest =>
    if isHexDigit h1 && isHexDigit h2 then
      Char.ofNat (16 * hexVal h1 + hexVal h2) :: pyUnquote rest
    else '%' :: pyUnquote (h1 :: h2 :: rest)
  | c :: rest => c :: pyUnquote rest

/-- Characters kept by urllib.parse.quote with the default safe set. -/
def quoteSafeChar (c : Char) : Bool :=
  c.isAlpha || c.isDigit || c = '_' || c = '.' || c = '-' || c = '~' ||
    c = '/'

/-- Upper-case hexadecimal digit. -/
def hexDigitUpper (n : Nat) : Char :=
  if n < 10 then Char.ofNat (48 + n) else Char.ofNat (55 + n)

/-- urllib.parse.quote with the default safe set, ASCII model. -/
def pyQuote : PyStr → PyStr
  | [] => []
  | c :: rest =>
    if quoteSafeChar c then c :: pyQuote rest
    else '%' :: hexDigitUpper (c.toNat / 16) ::
      hexDigitUpper (c.toNat % 16) :: pyQuote rest

/-- Python str.splitlines over the line terminators LF, CR and CRLF. -/
def pySplitLines : PyStr → List PyStr
  | [] => []
  | '\r' :: '\n' :: rest => [] :: pySplitLines rest
  | '\r' :: rest => [] :: pySplitLines rest
  | '\n' :: rest => [] :: pySplitLines rest
  | c :: rest =>
    match pySplitLines rest with
    | [] => [[c]]
    | h :: t => (c :: h) :: t

/-- Substring test (the Python in operator on strings). -/
def pySubstr (pat : PyStr) : PyStr → Bool
  | [] => pat.isEmpty
  | a :: rest => listStarts pat (a :: rest) || pySubstr pat rest

/-- Decimal value of a digit string. -/
def digitsToNat (s : PyStr) : Nat :=
  s.foldl (fun acc c => 10 * acc + (c.toNat - 48)) 0

/-- One robots.txt rule line. -/
structure RuleLine where
  path : PyStr
  allowance : Bool
deriving DecidableEq, Repr

/-- RuleLine construction: an empty Disallow value means allow-all; the
path is normalised by urlunparse(urlparse(path)) and then quoted.  none
models the exception a failing urlparse raises out of parse(). -/
def mkRuleLine (path : PyStr) (allowance : Bool) : Option RuleLine :=
  let allow2 := if path.isEmpty && !allowance then true else allowance
  match urlparseM path [] with
  | none => none
  | some p => some ⟨pyQuote (geturlP p), allow2⟩

/-- One robots.txt entry: a group of user agents with its rule lines. -/
structure RobotsEntry where
  useragents : List PyStr
  rulelines : List RuleLine
  delay : Option Nat
  reqRate : Option (Nat × Nat)
deriving DecidableEq, Repr

/-- The empty entry. -/
def emptyEntry : RobotsEntry := ⟨[], [], none, none⟩

/-- The RobotFileParser state. -/
structure RobotsParser where
  entries : List RobotsEntry
  defaultEntry : Option RobotsEntry
  sitemaps : List PyStr
  lastChecked : Bool
  disallowAll : Bool
  allowAll : Bool
deriving DecidableEq, Repr

/-- RobotFileParser._add_entry: a star group becomes the default entry
(first one wins), every other group is appended. -/
def addEntry (p : RobotsParser) (e : RobotsEntry) : RobotsParser :=
  if pyMem (pyOfString "*") e.useragents then
    if p.defaultEntry.isNone then { p with defaultEntry := some e } else p
  else { p with entries := p.entries ++ [e] }

/-- The line loop of RobotFileParser.parse: states 0 (start), 1 (saw a
user-agent line), 2 (saw a rule line); blank lines close groups, comments
are stripped, each remaining line splits at the first colon into a
lower-cased key and an unquoted value. -/
def parseLines : Nat → RobotsEntry → RobotsParser → List PyStr →
    Option RobotsParser
  | state, entry, p, [] => some (if state = 2 then addEntry p entry else p)
  | state, entry, p, line :: rest =>
    let sp : Nat × RobotsEntry × RobotsParser :=
      if line.isEmpty then
        if state = 1 then (0, emptyEntry, p)
        else if state = 2 then (0, emptyEntry, addEntry p entry)
        else (state, entry, p)
      else (state, entry, p)
    let state1 := sp.1
    let entry1 := sp.2.1
    let p1 := sp.2.2
    let line1 :=
      match splitFirst '#' line with
      | some (pre, _) => pre
      | none => line
    let line2 := pyStrip isPyWsChar line1
    if line2.isEmpty then parseLines state1 entry1 p1 rest
    else
      match splitFirst ':' line2 with
      | none => parseLines state1 entry1 p1 rest
      | some (k0, v0) =>
        let key := pyLower (pyStrip isPyWsChar k0)
        let value := pyUnquote (pyStrip isPyWsChar v0)
        if key = pyOfString "user-agent" then
          let pe : RobotsParser × RobotsEntry :=
            if state1 = 2 then (addEntry p1 entry1, emptyEntry)
            else (p1, entry1)
          parseLines 1
            { pe.2 with useragents := pe.2.useragents ++ [value] } pe.1 rest
        else if key = pyOfString "disallow" then
          if state1 ≠ 0 then
            match mkRuleLine value false with
            | none => none
            | some rl =>
              parseLines 2
                { entry1 with rulelines := entry1.rulelines ++ [rl] } p1 rest
          else parseLines state1 entry1 p1 rest
        else if key = pyOfString "allow" then
          if state1 ≠ 0 then
            match mkRuleLine value true with
            | none => none
            | some rl =>
              parseLines 2
                { entry1 with rulelines := entry1.rulelines ++ [rl] } p1 rest
          else parseLines state1 entry1 p1 rest
        else if key = pyOfString "crawl-delay" then
          if state1 ≠ 0 then
            let v2 := pyStrip isPyWsChar value
            let entry2 :=
              if !v2.isEmpty && v2.all Char.isDigit then
                { entry1 with delay := some (digitsToNat value) }
              else entry1
            parseLines 2 entry2 p1 rest
          else parseLines state1 entry1 p1 rest
        else if key = pyOfString "request-rate" then
          if state1 ≠ 0 then
            let entry2 :=
              match splitEvery '/' value with
              | [a, b] =>
                let a2 := pyStrip isPyWsChar a
                let b2 := pyStrip isPyWsChar b
                if (!a2.isEmpty && a2.all Char.isDigit) &&
                    (!b2.isEmpty && b2.all Char.isDigit) then
                  { entry1 with
                    reqRate := some (digitsToNat a2, digitsToNat b2) }
                else entry1
              | _ => entry1
            parseLines 2 entry2 p1 rest
          else parseLines state1 entry1 p1 rest
        else if key = pyOfString "sitemap" then
          parseLines state1 entry1
            { p1 with sitemaps := p1.sitemaps ++ [value] } rest
        else parseLines state1 entry1 p1 rest

/-- RobotFileParser.parse on a list of lines; modified() has set
last_checked. -/
def robotsParse (lines : List PyStr) : Option RobotsParser :=
  parseLines 0 emptyEntry ⟨[], none, [], true, false, false⟩ lines

/-- Entry.applies_to: the agent token before the first slash, lower-cased,
must contain one of the entry agents (star matches everything). -/
def agentApplies (e : RobotsEntry) (useragent : PyStr) : Bool :=
  let ua := pyLower ((splitEvery '/' useragent).headD [])
  e.useragents.any
    (fun agent => decide (agent = pyOfString "*") || pySubstr (pyLower agent) ua)

/-- Entry.allowance: the first rule line whose path is a star or a prefix
of the file name decides; default allow. -/
def allowanceAux : List RuleLine → PyStr → Bool
  | [], _ => true
  | rl :: rest, fn =>
    if rl.path = pyOfString "*" || listStarts rl.path fn then rl.allowance
    else allowanceAux rest fn

/-- RobotFileParser.can_fetch. -/
def canFetch (p : RobotsParser) (useragent url : PyStr) : Option Bool :=
  if p.disallowAll then some false
  else if p.allowAll then some true
  else if !p.lastChecked then some false
  else
    match urlparseM (pyUnquote url) [] with
    | none => none
    | some pu =>
      let url2 := urlunparseP [] [] pu.path pu.params pu.query pu.fragment
      let url3 := pyQuote url2
      let url4 := if url3.isEmpty then pyOfString "/" else url3
      match p.entries.find? (fun e => agentApplies e useragent) with
      | some e => some (allowanceAux e.rulelines url4)
      | none =>
        match p.defaultEntry with
        | some de => some (allowanceAux de.rulelines url4)
        | none => some true

/-- The outcome of the robots.txt HTTP fetch as seen by _fetch_robots:
either a transport error (raised exception) or a response with status and
body text. -/
inductive RobotsFetchOutcome where
  | fetchError
  | response (status : Int) (text : PyStr)
deriving DecidableEq, Repr

/-- RobotsHandler._fetch_robots: 404 and 5xx yield no parser (allow-all);
a transport error or an exception while parsing is caught by the handler
and also yields no parser; otherwise the body is parsed. -/
def fetchRobots : RobotsFetchOutcome → Option RobotsParser
  | RobotsFetchOutcome.fetchError => none
  | RobotsFetchOutcome.response st txt =>
    if st = 404 then none
    else if 500 ≤ st then none
    else
      match robotsParse (pySplitLines txt) with
      | none => none
      | some rp => some rp

/-- RobotsHandler.is_allowed for a cold cache: the URL is parsed (a parse
failure raises, modelled as none), the robots.txt is fetched with the
given outcome, and a missing parser means allowed. -/
def isAllowed (agent : PyStr) (o : RobotsFetchOutcome) (url : PyStr) :
    Option Bool :=
  match urlparseM url [] with
  | none => none
  | some _ =>
    match fetchRobots o with
    | none => some true
    | some rp => canFetch rp agent url

/-- Claim C7: robots handling fails open — a transport error, a 404 or a
5xx status each make is_allowed answer true; any other outcome parses the
body and answers can_fetch, and in particular a body with
Disallow: /private forbids a path under /private while allowing others. -/
theorem c7_robots_fail_open (agent url : PyStr) (txt : PyStr) (st : Int)
    (hurl : (urlparseM url []).isSome) :
    (isAllowed agent RobotsFetchOutcome.fetchError url = some true) ∧
    (isAllowed agent (RobotsFetchOutcome.response 404 txt) url =
      some true) ∧
    (500 ≤ st →
      isAllowed agent (RobotsFetchOutcome.response st txt) url =
        some true) ∧
    (st ≠ 404 → st < 500 →
      isAllowed agent (RobotsFetchOutcome.response st txt) url =
        (match robotsParse (pySplitLines txt) with
         | none => some true
         | some rp => canFetch rp agent url)) ∧
    (isAllowed (pyOfString "JooyaBot")
      (RobotsFetchOutcome.response 200
        (pyOfString "User-agent: *\nDisallow: /private"))
      (pyOfString "https://example.com/private/x") = some false) ∧
    (isAllowed (pyOfString "JooyaBot")
      (RobotsFetchOutcome.response 200
        (pyOfString "User-agent: *\nDisallow: /private"))
      (pyOfString "https://example.com/public") = some true) := by
  rcases Option.isSome_iff_exists.mp hurl with ⟨pu, hpu⟩
  refine ⟨?_, ?_, ?_, ?_, ?_, ?_⟩
  · simp only [isAllowed, hpu, fetchRobots]
  · simp only [isAllowed, hpu, fetchRobots, if_true]
  · intro h5
    simp only [isAllowed, hpu, fetchRobots]
    rw [if_neg (by intro h; rw [h] at h5; exact absurd h5 (by decide)),
      if_pos h5]
  · intro h404 h500
    simp only [isAllowed, hpu, fetchRobots]
    rw [if_neg h404, if_neg (not_le.mpr h500)]
    cases hrp : robotsParse (pySplitLines txt) with
    | none => rfl
    | some rp => rfl
  · rfl
  · rfl

/-- Witness for C7 at a concrete URL: the fail-open cases and the parse
case at status 200. -/
theorem c7_witness :
    (isAllowed (pyOfString "TestBot") RobotsFetchOutcome.fetchError
      (pyOfString "https://example.com/page1") = some true) ∧
    (isAllowed (pyOfString "TestBot") (RobotsFetchOutcome.response 404 [])
      (pyOfString "https://example.com/page1") = some true) ∧
    (isAllowed (pyOfString "TestBot") (RobotsFetchOutcome.response 503 [])
      (pyOfString "https://example.com/page1") = some true) := by
  have h := c7_robots_fail_open (pyOfString "TestBot")
    (pyOfString "https://example.com/page1") [] 503 (by decide)
  exact ⟨h.1, h.2.1, h.2.2.1 (by decide)⟩

/-! ## Idempotence of normalize_url (claim C8)

The counterexample: a path whose last segment carries a params part and a
trailing slash round-trips differently, because urlparse splits params at
the first semicolon after the last slash, and the trailing-slash strip of
normalize_url moves that boundary. -/

/-- Counterexample for claim C8 as stated: normalize is not idempotent —
a URL with a semicolon in its last path segment and a trailing slash
normalises to a string that normalises again to something different. -/
theorem c8_counterexample :
    normalizeUrl (pyOfString "https://example.com/")
      (pyOfString "http://e.com/a/;p/") =
      some (pyOfString "http://e.com/a/;p") ∧
    normalizeUrl (pyOfString "https://example.com/")
      (pyOfString "http://e.com/a/;p") =
      some (pyOfString "http://e.com/a;p") ∧
    pyOfString "http://e.com/a;p" ≠ pyOfString "http://e.com/a/;p" := by
  refine ⟨rfl, rfl, ?_⟩
  decide

/-- toNat of Char.ofNat below the surrogate range. -/
theorem charToNatOfNat (m : Nat) (h1 : m < 55296) :
    (Char.ofNat m).toNat = m := by
  unfold Char.ofNat
  rw [dif_pos (Or.inl h1)]
  rfl

/-- Characters with equal code points are equal. -/
theorem charEqOfToNat (c d : Char) (h : c.toNat = d.toNat) : c = d := by
  apply Char.eq_of_val_eq
  apply UInt32.eq_of_toBitVec_eq
  exact BitVec.eq_of_toNat_eq h

/-- lowerChar either fixes the character or shifts an upper-case letter
down by 32. -/
theorem lowerChar_toNat (c : Char) :
    lowerChar c = c ∨
      ((lowerChar c).toNat = c.toNat + 32 ∧ 65 ≤ c.toNat ∧
        c.toNat ≤ 90) := by
  unfold lowerChar
  by_cases h : ('A' ≤ c && c ≤ 'Z') = true
  · right
    rw [if_pos h]
    rw [Bool.and_eq_true, decide_eq_true_eq, decide_eq_true_eq] at h
    have h65 : 65 ≤ c.toNat := h.1
    have h90 : c.toNat ≤ 90 := h.2
    exact ⟨charToNatOfNat _ (by omega), h65, h90⟩
  · left
    rw [if_neg h]

/-- lowerChar fixes characters outside the upper-case range. -/
theorem lowerChar_eq_self (c : Char)
    (h : ¬ (65 ≤ c.toNat ∧ c.toNat ≤ 90)) : lowerChar c = c := by
  unfold lowerChar
  rw [if_neg]
  intro hh
  rw [Bool.and_eq_true, decide_eq_true_eq, decide_eq_true_eq] at hh
  exact h ⟨hh.1, hh.2⟩

/-- lowerChar is idempotent. -/
theorem lowerChar_idem (c : Char) : lowerChar (lowerChar c) = lowerChar c := by
  rcases lowerChar_toNat c with h | ⟨h1, _, _⟩
  · rw [h, h]
  · exact lowerChar_eq_self _ (by omega)

/-- A character below code point 97 in the image of lowerChar has the same
preimage. -/
theorem lowerChar_eq_low (c d : Char) (hd : d.toNat < 97)
    (h : lowerChar c = d) : c = d := by
  rcases lowerChar_toNat c with h0 | ⟨h1, h2, _⟩
  · rw [← h0, h]
  · rw [h] at h1
    omega

/-- pyLower is idempotent. -/
theorem pyLower_idem (s : PyStr) : pyLower (pyLower s) = pyLower s := by
  unfold pyLower
  rw [List.map_map]
  apply List.map_congr_left
  intro c _
  exact lowerChar_idem c

/-- pyLower does not introduce characters below code point 97. -/
theorem pyLower_not_mem (s : PyStr) (d : Char) (hd : d.toNat < 97)
    (h : d ∉ s) : d ∉ pyLower s := by
  intro hmem
  rcases List.mem_map.mp hmem with ⟨c, hc, hceq⟩
  rw [lowerChar_eq_low c d hd hceq] at hc
  exact h hc

/-! ## List-level helper lemmas for the idempotence proof -/

/-- splitFirst finds the first occurrence across an append. -/
theorem splitFirst_append (c : Char) (l r : PyStr) (h : c ∉ l) :
    splitFirst c (l ++ c :: r) = some (l, r) := by
  induction l with
  | nil =>
    simp [splitFirst]
  | cons a as ih =>
    have ha : a ≠ c := fun he => h (he ▸ List.mem_cons_self a as)
    simp only [List.cons_append, splitFirst, if_neg ha, List.append_eq]
    rw [ih (fun hm => h (List.mem_cons_of_mem a hm))]

/-- splitFirst misses when the character is absent. -/
theorem splitFirst_none (c : Char) (l : PyStr) (h : c ∉ l) :
    splitFirst c l = none := by
  induction l with
  | nil => rfl
  | cons a as ih =>
    have ha : a ≠ c := fun he => h (he ▸ List.mem_cons_self a as)
    simp only [splitFirst, if_neg ha]
    rw [ih (fun hm => h (List.mem_cons_of_mem a hm))]

/-- takeWhile stops exactly at the first failing element. -/
theorem takeWhile_append_stop (p : Char → Bool) (l : PyStr) (y : Char)
    (r : PyStr) (hl : ∀ x ∈ l, p x = true) (hy : p y = false) :
    (l ++ y :: r).takeWhile p = l := by
  induction l with
  | nil =>
    simp only [List.nil_append, List.takeWhile_cons, hy]
    rfl
  | cons a as ih =>
    simp only [List.cons_append, List.takeWhile_cons,
      hl a (List.mem_cons_self a as)]
    rw [ih (fun x hx => hl x (List.mem_cons_of_mem a hx))]
    simp

/-- dropWhile jumps exactly to the first failing element. -/
theorem dropWhile_append_stop (p : Char → Bool) (l : PyStr) (y : Char)
    (r : PyStr) (hl : ∀ x ∈ l, p x = true) (hy : p y = false) :
    (l ++ y :: r).dropWhile p = y :: r := by
  induction l with
  | nil =>
    simp only [List.nil_append, List.dropWhile_cons, hy]
    rfl
  | cons a as ih =>
    simp only [List.cons_append, List.dropWhile_cons,
      hl a (List.mem_cons_self a as), if_true]
    exact ih (fun x hx => hl x (List.mem_cons_of_mem a hx))

/-- takeWhile keeps everything when all elements pass. -/
theorem takeWhile_all (p : Char → Bool) (l : PyStr)
    (hl : ∀ x ∈ l, p x = true) : l.takeWhile p = l := by
  induction l with
  | nil => rfl
  | cons a as ih =>
    simp only [List.takeWhile_cons, hl a (List.mem_cons_self a as)]
    rw [ih (fun x hx => hl x (List.mem_cons_of_mem a hx))]
    simp

/-- dropWhile drops everything when all elements pass. -/
theorem dropWhile_all (p : Char → Bool) (l : PyStr)
    (hl : ∀ x ∈ l, p x = true) : l.dropWhile p = [] := by
  induction l with
  | nil => rfl
  | cons a as ih =>
    simp only [List.dropWhile_cons, hl a (List.mem_cons_self a as), if_true]
    exact ih (fun x hx => hl x (List.mem_cons_of_mem a hx))

/-- dropWhile is the identity when the head already fails. -/
theorem dropWhile_noop (p : Char → Bool) (a : Char) (l : PyStr)
    (h : p a = false) : (a :: l).dropWhile p = a :: l := by
  simp only [List.dropWhile_cons, h]
  rfl

/-- removeChars is the identity when no character matches. -/
theorem removeChars_noop (p : Char → Bool) (s : PyStr)
    (h : ∀ c ∈ s, p c = false) : removeChars p s = s := by
  unfold removeChars
  apply List.filter_eq_self.mpr
  intro c hc
  simp only [h c hc]
  rfl

/-- listStarts holds on an append with the pattern in front. -/
theorem listStarts_append_self (pre r : PyStr) :
    listStarts pre (pre ++ r) = true := by
  induction pre with
  | nil => rfl
  | cons a as ih =>
    simp only [List.cons_append, listStarts, decide_eq_true_eq]
    simp only [Bool.and_eq_true, decide_eq_true_eq]
    exact ⟨trivial, ih⟩

/-- A successful listStarts is exactly a prefix decomposition. -/
theorem listStarts_iff (pre s : PyStr) :
    listStarts pre s = true ↔ ∃ r, s = pre ++ r := by
  constructor
  · intro h
    induction pre generalizing s with
    | nil => exact ⟨s, rfl⟩
    | cons a as ih =>
      cases s with
      | nil => cases h
      | cons b bs =>
        simp only [listStarts, Bool.and_eq_true, decide_eq_true_eq] at h
        rcases ih bs h.2 with ⟨r, hr⟩
        exact ⟨r, by rw [List.cons_append, ← hr, h.1]⟩
  · intro ⟨r, hr⟩
    rw [hr]
    exact listStarts_append_self pre r

/-- pyStrip with a predicate failing on both ends is the identity. -/
theorem pyStrip_noop (p : Char → Bool) (a : Char) (l : PyStr)
    (hhead : p a = false) (hlast : ∀ c, (a :: l).getLast? = some c →
      p c = false) : pyStrip p (a :: l) = a :: l := by
  unfold pyStrip pyLStrip pyRStrip
  rw [dropWhile_noop p a l hhead]
  cases hrev : (a :: l).reverse with
  | nil =>
    exact absurd hrev (by simp)
  | cons b bs =>
    have hb : (a :: l).getLast? = some b := by
      rw [List.getLast?_eq_head?_reverse, hrev]
      rfl
    rw [dropWhile_noop p b bs (hlast b hb), ← hrev, List.reverse_reverse]

/-! ## Idempotence of the tracking-parameter cleaner -/

/-- takeWhile ignores everything from a failing junction element on. -/
theorem takeWhile_junction (p : Char → Bool) (x : PyStr) (y : Char)
    (r : PyStr) (hy : p y = false) :
    (x ++ y :: r).takeWhile p = x.takeWhile p := by
  induction x with
  | nil =>
    simp only [List.nil_append, List.takeWhile_cons, hy]
    rfl
  | cons a as ih =>
    simp only [List.cons_append, List.takeWhile_cons]
    cases hpa : p a with
    | true => rw [ih]
    | false => rfl

/-- headIs is unchanged by material behind a differing junction element. -/
theorem headIs_junction (c : Char) (x : PyStr) (y : Char) (r : PyStr)
    (hy : y ≠ c) : headIs c (x ++ y :: r) = headIs c x := by
  cases x with
  | nil =>
    simp only [List.nil_append, headIs]
    simp [hy]
  | cons a as => rfl

/-- Dropping the length of the takeWhile prefix is dropWhile. -/
theorem drop_length_takeWhile (p : Char → Bool) (l : PyStr) :
    l.drop (l.takeWhile p).length = l.dropWhile p := by
  induction l with
  | nil => rfl
  | cons a as ih =>
    simp only [List.takeWhile_cons, List.dropWhile_cons]
    cases hpa : p a with
    | true =>
      simp only [List.length_cons, List.drop_succ_cons]
      exact ih
    | false => rfl

/-- listStarts needs at least the pattern length. -/
theorem listStarts_length (pat s : PyStr) (h : listStarts pat s = true) :
    pat.length ≤ s.length := by
  rcases (listStarts_iff pat s).mp h with ⟨r, hr⟩
  rw [hr, List.length_append]
  omega

/-- listStarts across an ampersand junction, for ampersand-free patterns
and prefixes. -/
theorem listStarts_amp_junction (pat : PyStr) (hp : '&' ∉ pat) :
    ∀ (f r : PyStr), '&' ∉ f →
      listStarts pat (f ++ '&' :: r) = listStarts pat f := by
  induction pat with
  | nil =>
    intro f r _
    rfl
  | cons p ps ih =>
    intro f r hf
    have hpne : p ≠ '&' := fun he => hp (he ▸ List.mem_cons_self p ps)
    cases f with
    | nil =>
      simp only [List.nil_append, listStarts]
      simp [hpne]
    | cons a as =>
      simp only [List.cons_append, listStarts, List.append_eq]
      rw [ih (fun hm => hp (List.mem_cons_of_mem p hm)) as r
        (fun hm => hf (List.mem_cons_of_mem a hm))]

/-- pyLower maps an ampersand junction to an ampersand junction. -/
theorem pyLower_junction (f r : PyStr) :
    pyLower (f ++ '&' :: r) = pyLower f ++ '&' :: pyLower r := by
  unfold pyLower
  rw [List.map_append, List.map_cons]
  rfl

/-- Ampersand-freeness survives pyLower. -/
theorem pyLower_amp_free (f : PyStr) (hf : '&' ∉ f) : '&' ∉ pyLower f :=
  pyLower_not_mem f '&' (by decide) hf

/-- ciStarts across an ampersand junction. -/
theorem ciStarts_amp_junction (pat f r : PyStr) (hp : '&' ∉ pat)
    (hf : '&' ∉ f) :
    ciStarts pat (f ++ '&' :: r) = ciStarts pat f := by
  unfold ciStarts
  rw [pyLower_junction]
  exact listStarts_amp_junction pat hp (pyLower f) (pyLower r)
    (pyLower_amp_free f hf)

/-- The empty string has no tracking match. -/
theorem matchTrackHere_nil : matchTrackHere [] = false := by
  decide

/-- No tracking match starts at an ampersand. -/
theorem matchTrackHere_amp (x : PyStr) :
    matchTrackHere ('&' :: x) = false := by
  have h2 : lowerChar '&' = '&' := rfl
  simp [matchTrackHere, ciStarts, pyLower, trackNameList, pyOfString,
    listStarts, h2]

/-- takeWhile never lengthens a list. -/
theorem takeWhile_len_le (p : Char → Bool) :
    ∀ l : PyStr, (l.takeWhile p).length ≤ l.length := by
  intro l
  induction l with
  | nil => exact Nat.le_refl 0
  | cons a as ih =>
    simp only [List.takeWhile_cons]
    cases p a with
    | true =>
      simp only [if_true, List.length_cons]
      simpa using ih
    | false =>
      simp

/-- The first element surviving dropWhile fails the predicate. -/
theorem dropWhile_head_false (p : Char → Bool) :
    ∀ (l : PyStr) (a : Char) (r : PyStr), l.dropWhile p = a :: r →
      p a = false := by
  intro l
  induction l with
  | nil =>
    intro a r h
    cases h
  | cons b bs ih =>
    intro a r h
    simp only [List.dropWhile_cons] at h
    by_cases hpb : p b = true
    · rw [if_pos hpb] at h
      exact ih a r h
    · rw [if_neg hpb] at h
      cases h
      exact Bool.not_eq_true _ ▸ hpb

/-- One literal tracking name across an ampersand junction. -/
theorem trackName_amp_junction (nm f r : PyStr) (hnm : '&' ∉ nm)
    (hf : '&' ∉ f) :
    (ciStarts nm (f ++ '&' :: r) &&
      headIs '=' ((f ++ '&' :: r).drop nm.length)) =
    (ciStarts nm f && headIs '=' (f.drop nm.length)) := by
  rw [ciStarts_amp_junction nm f r hnm hf]
  cases hcs : ciStarts nm f with
  | false => rfl
  | true =>
    simp only [Bool.true_and]
    have hlen : nm.length ≤ f.length := by
      have := listStarts_length nm (pyLower f) hcs
      rw [pyLower, List.length_map] at this
      exact this
    rw [List.drop_append_of_le_length hlen]
    exact headIs_junction '=' (f.drop nm.length) '&' r (by decide)

/-- A tracking match cannot straddle an ampersand: matching at the head of
an ampersand junction is matching at the head of its ampersand-free part. -/
theorem matchTrackHere_amp_junction (f r : PyStr) (hf : '&' ∉ f) :
    matchTrackHere (f ++ '&' :: r) = matchTrackHere f := by
  unfold matchTrackHere
  have hutm : ciStarts (pyOfString "utm_") (f ++ '&' :: r) =
      ciStarts (pyOfString "utm_") f :=
    ciStarts_amp_junction _ f r (by decide) hf
  rw [hutm]
  have hnames : (trackNameList.any fun nm =>
      ciStarts nm (f ++ '&' :: r) &&
        headIs '=' ((f ++ '&' :: r).drop nm.length)) =
      (trackNameList.any fun nm =>
      ciStarts nm f && headIs '=' (f.drop nm.length)) := by
    simp only [trackNameList, List.any_cons, List.any_nil]
    rw [trackName_amp_junction _ f r (by decide) hf,
      trackName_amp_junction _ f r (by decide) hf,
      trackName_amp_junction _ f r (by decide) hf,
      trackName_amp_junction _ f r (by decide) hf]
  rw [hnames]
  cases hcs : ciStarts (pyOfString "utm_") f with
  | false => rfl
  | true =>
    have hlen : 4 ≤ f.length := by
      have := listStarts_length (pyOfString "utm_") (pyLower f) hcs
      rw [pyLower, List.length_map] at this
      exact this
    simp only [Bool.true_and]
    have hdrop : (f ++ '&' :: r).drop 4 = f.drop 4 ++ '&' :: r :=
      List.drop_append_of_le_length hlen
    rw [hdrop]
    have hrun : (f.drop 4 ++ '&' :: r).takeWhile valChar =
        (f.drop 4).takeWhile valChar :=
      takeWhile_junction valChar (f.drop 4) '&' r (by decide)
    rw [hrun]
    have hlen2 : ((f.drop 4).takeWhile valChar).length ≤
        (f.drop 4).length := takeWhile_len_le valChar (f.drop 4)
    rw [List.drop_append_of_le_length hlen2]
    rw [headIs_junction '=' ((f.drop 4).drop
      ((f.drop 4).takeWhile valChar).length) '&' r (by decide)]

/-- The head of the ampersand-free part decides a tracking match. -/
theorem matchTrackHere_ampPre (s : PyStr) :
    matchTrackHere s =
      matchTrackHere (s.takeWhile (fun c => !(c = '&'))) := by
  have hsplit : s.takeWhile (fun c : Char => !(c = '&')) ++
      s.dropWhile (fun c : Char => !(c = '&')) = s :=
    List.takeWhile_append_dropWhile _ _
  have hfree : '&' ∉ s.takeWhile (fun c : Char => !(c = '&')) := by
    intro hm
    have := List.mem_takeWhile_imp hm
    simp at this
  cases hdw : s.dropWhile (fun c : Char => !(c = '&')) with
  | nil =>
    conv_lhs => rw [← hsplit]
    rw [hdw, List.append_nil]
  | cons d w =>
    have hd : d = '&' := by
      have := dropWhile_head_false (fun c : Char => !(c = '&')) s d w hdw
      simp at this
      exact this
    conv_lhs => rw [← hsplit]
    rw [hdw, hd]
    exact matchTrackHere_amp_junction _ w hfree

/-- ciStarts is monotone under appending on the right. -/
theorem ciStarts_mono (pat s e : PyStr) (h : ciStarts pat s = true) :
    ciStarts pat (s ++ e) = true := by
  unfold ciStarts at h ⊢
  rcases (listStarts_iff _ _).mp h with ⟨r0, hr0⟩
  apply (listStarts_iff _ _).mpr
  refine ⟨r0 ++ pyLower e, ?_⟩
  unfold pyLower at hr0 ⊢
  rw [List.map_append, hr0, List.append_assoc]

/-- ciStarts needs at least the pattern length. -/
theorem ciStarts_length (pat s : PyStr) (h : ciStarts pat s = true) :
    pat.length ≤ s.length := by
  have := listStarts_length pat (pyLower s) h
  rw [pyLower, List.length_map] at this
  exact this

/-- headIs survives appending on the right when it already holds. -/
theorem headIs_append_left (c : Char) (x e : PyStr)
    (h : headIs c x = true) : headIs c (x ++ e) = true := by
  cases x with
  | nil => cases h
  | cons a r => exact h

/-- A prefix is recovered by take of its length. -/
theorem take_of_prefix (t s : PyStr) (h : t <+: s) :
    s.take t.length = t := by
  rcases h with ⟨e, he⟩
  rw [← he, List.take_left]

/-- A tracking match at the head survives appending on the right. -/
theorem matchTrackHere_mono (s e : PyStr) (h : matchTrackHere s = true) :
    matchTrackHere (s ++ e) = true := by
  unfold matchTrackHere at h ⊢
  rw [Bool.or_eq_true] at h
  rw [Bool.or_eq_true]
  rcases h with hutm | hnames
  · left
    rw [Bool.and_eq_true] at hutm
    obtain ⟨hcs, hin0⟩ := hutm
    have hin : (!((s.drop 4).takeWhile valChar).isEmpty &&
        headIs '=' ((s.drop 4).drop
          ((s.drop 4).takeWhile valChar).length)) = true := hin0
    have hlen : 4 ≤ s.length := ciStarts_length _ s hcs
    rw [ciStarts_mono _ s e hcs, Bool.true_and]
    obtain ⟨hne, hhead⟩ := (Bool.and_eq_true _ _).mp hin
    cases hdr : (s.drop 4).drop ((s.drop 4).takeWhile valChar).length with
    | nil =>
      rw [hdr] at hhead
      cases hhead
    | cons d rest =>
      have hd : d = '=' := by
        rw [hdr] at hhead
        exact of_decide_eq_true hhead
      have htake : (s.drop 4).take
          ((s.drop 4).takeWhile valChar).length =
          (s.drop 4).takeWhile valChar :=
        take_of_prefix _ _ (List.takeWhile_prefix _)
      have hr : s.drop 4 = (s.drop 4).takeWhile valChar ++
          '=' :: rest := by
        conv_lhs => rw [← List.take_append_drop
          ((s.drop 4).takeWhile valChar).length (s.drop 4)]
        rw [htake, hdr, hd]
      have hre : (s ++ e).drop 4 = s.drop 4 ++ e :=
        List.drop_append_of_le_length hlen
      have hall : ∀ x ∈ (s.drop 4).takeWhile valChar, valChar x = true :=
        fun x hx => List.mem_takeWhile_imp hx
      have hsplit2 : s.drop 4 ++ e =
          (s.drop 4).takeWhile valChar ++ '=' :: (rest ++ e) := by
        conv_lhs => rw [hr]
        rw [List.append_assoc, List.cons_append]
      have hrun2 : (s.drop 4 ++ e).takeWhile valChar =
          (s.drop 4).takeWhile valChar := by
        rw [hsplit2]
        exact takeWhile_append_stop valChar _ '=' (rest ++ e) hall
          (by decide)
      have hdrop2 : (s.drop 4 ++ e).drop
          ((s.drop 4).takeWhile valChar).length =
          '=' :: (rest ++ e) := by
        rw [hsplit2]
        exact List.drop_left _ _
      show (!(((s ++ e).drop 4).takeWhile valChar).isEmpty &&
          headIs '=' (((s ++ e).drop 4).drop
            (((s ++ e).drop 4).takeWhile valChar).length)) = true
      rw [hre, hrun2, hdrop2]
      rw [Bool.and_eq_true]
      exact ⟨hne, by simp [headIs]⟩
  · right
    rw [List.any_eq_true] at hnames ⊢
    obtain ⟨nm, hmem, hnm⟩ := hnames
    refine ⟨nm, hmem, ?_⟩
    obtain ⟨hcs, hhead⟩ := (Bool.and_eq_true _ _).mp hnm
    rw [Bool.and_eq_true]
    refine ⟨ciStarts_mono nm s e hcs, ?_⟩
    rw [List.drop_append_of_le_length (ciStarts_length nm s hcs)]
    exact headIs_append_left '=' _ e hhead

/-- The skip mode of the scanner consumes an ampersand-free string
entirely. -/
theorem rtAux_true_ampfree (g : PyStr) (hg : '&' ∉ g) :
    rtAux true g = [] := by
  induction g with
  | nil => rfl
  | cons a as ih =>
    have ha : a ≠ '&' := fun he => hg (he ▸ List.mem_cons_self a as)
    simp only [rtAux, if_neg ha]
    exact ih (fun hm => hg (List.mem_cons_of_mem a hm))

/-- On an ampersand-free string the scanner returns a prefix. -/
theorem rtAux_false_front (f : PyStr) (hf : '&' ∉ f) :
    rtAux false f <+: f := by
  induction f with
  | nil => exact List.prefix_refl []
  | cons a as ih =>
    have ha : a ≠ '&' := fun he => hf (he ▸ List.mem_cons_self a as)
    have has : '&' ∉ as := fun hm => hf (List.mem_cons_of_mem a hm)
    simp only [rtAux]
    by_cases hm : matchTrackHere (a :: as) = true
    · rw [if_pos hm, rtAux_true_ampfree as has]
      exact List.nil_prefix
    · rw [if_neg hm]
      rcases ih has with ⟨e, he⟩
      exact ⟨e, by rw [List.cons_append, he]⟩

/-- No suffix of the scanner output of an ampersand-free string matches. -/
theorem rtAux_false_matchfree (f : PyStr) (hf : '&' ∉ f) :
    ∀ t, t <:+ rtAux false f → matchTrackHere t = false := by
  induction f with
  | nil =>
    intro t ht
    rw [List.suffix_nil.mp ht]
    exact matchTrackHere_nil
  | cons a as ih =>
    intro t ht
    have ha : a ≠ '&' := fun he => hf (he ▸ List.mem_cons_self a as)
    have has : '&' ∉ as := fun hm => hf (List.mem_cons_of_mem a hm)
    simp only [rtAux] at ht
    by_cases hm : matchTrackHere (a :: as) = true
    · rw [if_pos hm, rtAux_true_ampfree as has] at ht
      rw [List.suffix_nil.mp ht]
      exact matchTrackHere_nil
    · rw [if_neg hm] at ht
      rcases List.suffix_cons_iff.mp ht with heq | htail
      · rw [heq]
        by_cases hcontra :
            matchTrackHere (a :: rtAux false as) = true
        · exfalso
          rcases rtAux_false_front as has with ⟨e, he⟩
          have : (a :: rtAux false as) ++ e = a :: as := by
            rw [List.cons_append, he]
          have hm2 := matchTrackHere_mono _ e hcontra
          rw [this] at hm2
          exact hm hm2
        · exact Bool.not_eq_true _ ▸ hcontra
      · exact ih has t htail

/-- A string none of whose suffixes matches is a scanner fixed point. -/
theorem rtAux_false_fixed (s : PyStr)
    (h : ∀ t, t <:+ s → matchTrackHere t = false) :
    rtAux false s = s := by
  induction s with
  | nil => rfl
  | cons a as ih =>
    simp only [rtAux]
    rw [if_neg]
    · rw [ih (fun t ht => h t (ht.trans (List.suffix_cons a as)))]
    · rw [h (a :: as) (List.suffix_refl _)]
      exact Bool.false_ne_true

/-- The skip mode across an ampersand junction. -/
theorem rtAux_true_junction (g r : PyStr) (hg : '&' ∉ g) :
    rtAux true (g ++ '&' :: r) = '&' :: rtAux false r := by
  induction g with
  | nil => rfl
  | cons a as ih =>
    have ha : a ≠ '&' := fun he => hg (he ▸ List.mem_cons_self a as)
    simp only [List.cons_append, rtAux, if_neg ha]
    exact ih (fun hm => hg (List.mem_cons_of_mem a hm))

/-- The scanner distributes over an ampersand junction. -/
theorem rtAux_false_junction (f r : PyStr) (hf : '&' ∉ f) :
    rtAux false (f ++ '&' :: r) =
      rtAux false f ++ '&' :: rtAux false r := by
  induction f with
  | nil =>
    simp only [List.nil_append, rtAux]
    rw [if_neg (by rw [matchTrackHere_amp r]; exact Bool.false_ne_true)]
  | cons a as ih =>
    have ha : a ≠ '&' := fun he => hf (he ▸ List.mem_cons_self a as)
    have has : '&' ∉ as := fun hm => hf (List.mem_cons_of_mem a hm)
    simp only [List.cons_append, rtAux, List.append_eq]
    have hmj := matchTrackHere_amp_junction (a :: as) r hf
    rw [List.cons_append] at hmj
    rw [hmj]
    by_cases hm : matchTrackHere (a :: as) = true
    · rw [if_pos hm, if_pos hm, rtAux_true_junction as r has,
        rtAux_true_ampfree as has]
      rfl
    · rw [if_neg hm, if_neg hm, ih has]
      rfl

/-- A suffix of an append is a suffix of the right part, or extends the
whole right part by a suffix of the left part. -/
theorem suffix_append_cases (t : PyStr) :
    ∀ X Y : PyStr, t <:+ X ++ Y →
      t <:+ Y ∨ ∃ x, x <:+ X ∧ t = x ++ Y := by
  intro X
  induction X with
  | nil =>
    intro Y h
    exact Or.inl h
  | cons a as ih =>
    intro Y h
    rw [List.cons_append] at h
    rcases List.suffix_cons_iff.mp h with heq | htail
    · right
      exact ⟨a :: as, List.suffix_refl _, by rw [heq, List.cons_append]⟩
    · rcases ih Y htail with hl | ⟨x, hx, hxe⟩
      · exact Or.inl hl
      · exact Or.inr ⟨x, hx.trans (List.suffix_cons a as), hxe⟩

/-- Appending the same tail preserves the suffix relation. -/
theorem suffix_append_same (x f d : PyStr) (h : x <:+ f) :
    x ++ d <:+ f ++ d := by
  rcases h with ⟨q, hq⟩
  exact ⟨q, by rw [← List.append_assoc, hq]⟩

/-- No suffix of the scanner output matches the tracking pattern
(length-bounded form). -/
theorem rt_matchfree_aux :
    ∀ n (s : PyStr), s.length ≤ n →
      ∀ t, t <:+ rtAux false s → matchTrackHere t = false := by
  intro n
  induction n with
  | zero =>
    intro s hs t ht
    have hnil : s = [] := List.eq_nil_of_length_eq_zero (Nat.le_zero.mp hs)
    rw [hnil] at ht
    rw [List.suffix_nil.mp ht]
    exact matchTrackHere_nil
  | succ n ih =>
    intro s hs t ht
    have hsplit : s.takeWhile (fun c : Char => !(c = '&')) ++
        s.dropWhile (fun c : Char => !(c = '&')) = s :=
      List.takeWhile_append_dropWhile _ _
    have hfree : '&' ∉ s.takeWhile (fun c : Char => !(c = '&')) := by
      intro hm
      have := List.mem_takeWhile_imp hm
      simp at this
    cases hdw : s.dropWhile (fun c : Char => !(c = '&')) with
    | nil =>
      have hse : s = s.takeWhile (fun c : Char => !(c = '&')) := by
        conv_lhs => rw [← hsplit]
        rw [hdw, List.append_nil]
      rw [hse] at ht
      exact rtAux_false_matchfree _ hfree t ht
    | cons d w =>
      have hd : d = '&' := by
        have := dropWhile_head_false (fun c : Char => !(c = '&')) s d w hdw
        simp at this
        exact this
      have hse : s = s.takeWhile (fun c : Char => !(c = '&')) ++
          '&' :: w := by
        conv_lhs => rw [← hsplit]
        rw [hdw, hd]
      have hwlen : w.length ≤ n := by
        have h1 : s.length = (s.takeWhile
            (fun c : Char => !(c = '&'))).length + (w.length + 1) := by
          conv_lhs => rw [hse]
          simp [List.length_append]
        omega
      rw [hse, rtAux_false_junction _ w hfree] at ht
      rcases suffix_append_cases t _ _ ht with hr | ⟨x, hx, hte⟩
      · rcases List.suffix_cons_iff.mp hr with heq | htail
        · rw [heq]
          exact matchTrackHere_amp _
        · exact ih w hwlen t htail
      · have hxamp : '&' ∉ x := fun hm =>
          hfree ((rtAux_false_front _ hfree).subset (hx.subset hm))
        rw [hte, matchTrackHere_amp_junction x _ hxamp]
        exact rtAux_false_matchfree _ hfree x hx

/-- No suffix of the scanner output matches the tracking pattern. -/
theorem rt_matchfree (s t : PyStr) (ht : t <:+ removeTrackingMatches s) :
    matchTrackHere t = false :=
  rt_matchfree_aux s.length s (Nat.le_refl _) t ht

/-- Skip mode of the collapser drops the leading run and continues in
normal mode. -/
theorem collapseRunsAux_true (c : Char) :
    ∀ w : PyStr, collapseRunsAux c true w =
      collapseRunsAux c false (w.dropWhile (fun x => x = c)) := by
  intro w
  induction w with
  | nil => rfl
  | cons a as ih =>
    simp only [List.dropWhile_cons]
    by_cases ha : a = c
    · rw [if_pos (by simp [ha])]
      simp only [collapseRunsAux, if_pos ha]
      simpa using ih
    · rw [if_neg (by simp [ha])]
      simp only [collapseRunsAux, if_neg ha]

/-- The collapser is the identity on a string free of the collapse
character. -/
theorem collapseRuns_cfree (c : Char) (f : PyStr) (hf : c ∉ f) :
    collapseRuns c f = f := by
  induction f with
  | nil => rfl
  | cons a as ih =>
    have ha : a ≠ c := fun he => hf (he ▸ List.mem_cons_self a as)
    show collapseRunsAux c false (a :: as) = a :: as
    simp only [collapseRunsAux, if_neg ha]
    exact congrArg (a :: ·) (ih (fun hm => hf (List.mem_cons_of_mem a hm)))

/-- The collapser over a junction at the collapse character. -/
theorem collapseRuns_junction (c : Char) (f w : PyStr) (hf : c ∉ f) :
    collapseRuns c (f ++ c :: w) =
      f ++ c :: collapseRuns c (w.dropWhile (fun x => x = c)) := by
  induction f with
  | nil =>
    simp only [List.nil_append]
    show collapseRunsAux c false (c :: w) = _
    simp only [collapseRunsAux, if_pos rfl]
    rw [if_neg Bool.false_ne_true, collapseRunsAux_true]
    rfl
  | cons a as ih =>
    have ha : a ≠ c := fun he => hf (he ▸ List.mem_cons_self a as)
    have has : c ∉ as := fun hm => hf (List.mem_cons_of_mem a hm)
    show collapseRunsAux c false ((a :: as) ++ c :: w) = _
    rw [List.cons_append]
    simp only [collapseRunsAux, if_neg ha]
    have ih2 : collapseRunsAux c false (as ++ c :: w) =
        as ++ c :: collapseRuns c (w.dropWhile (fun x => x = c)) := ih has
    rw [ih2]
    rfl

/-- Suffix matchfreeness transfers through ampersand-run collapsing
(length-bounded form). -/
theorem collapse_matchfree_aux :
    ∀ n (s : PyStr), s.length ≤ n →
      (∀ t, t <:+ s → matchTrackHere t = false) →
      ∀ t, t <:+ collapseRuns '&' s → matchTrackHere t = false := by
  intro n
  induction n with
  | zero =>
    intro s hs hmf t ht
    have hnil : s = [] := List.eq_nil_of_length_eq_zero (Nat.le_zero.mp hs)
    rw [hnil] at ht
    rw [List.suffix_nil.mp ht]
    exact matchTrackHere_nil
  | succ n ih =>
    intro s hs hmf t ht
    have hsplit : s.takeWhile (fun c : Char => !(c = '&')) ++
        s.dropWhile (fun c : Char => !(c = '&')) = s :=
      List.takeWhile_append_dropWhile _ _
    have hfree : '&' ∉ s.takeWhile (fun c : Char => !(c = '&')) := by
      intro hm
      have := List.mem_takeWhile_imp hm
      simp at this
    cases hdw : s.dropWhile (fun c : Char => !(c = '&')) with
    | nil =>
      have hse : s = s.takeWhile (fun c : Char => !(c = '&')) := by
        conv_lhs => rw [← hsplit]
        rw [hdw, List.append_nil]
      rw [hse, collapseRuns_cfree '&' _ hfree, ← hse] at ht
      exact hmf t ht
    | cons d w =>
      have hd : d = '&' := by
        have := dropWhile_head_false (fun c : Char => !(c = '&')) s d w hdw
        simp at this
        exact this
      have hse : s = s.takeWhile (fun c : Char => !(c = '&')) ++
          '&' :: w := by
        conv_lhs => rw [← hsplit]
        rw [hdw, hd]
      have hwsuf : w <:+ s :=
        ⟨s.takeWhile (fun c : Char => !(c = '&')) ++ ['&'], by
          rw [List.append_assoc, List.singleton_append, ← hse]⟩
      have hwlen : (w.dropWhile (fun x => x = '&')).length ≤ n := by
        have h1 : s.length = (s.takeWhile
            (fun c : Char => !(c = '&'))).length + (w.length + 1) := by
          conv_lhs => rw [hse]
          simp [List.length_append]
        have h2 : (w.dropWhile (fun x : Char => x = '&')).length ≤
            w.length := (List.dropWhile_suffix _).length_le
        omega
      rw [hse, collapseRuns_junction '&' _ w hfree] at ht
      rcases suffix_append_cases t _ _ ht with hr | ⟨x, hx, hte⟩
      · rcases List.suffix_cons_iff.mp hr with heq | htail
        · rw [heq]
          exact matchTrackHere_amp _
        · refine ih _ hwlen ?_ t htail
          intro u hu
          exact hmf u ((hu.trans (List.dropWhile_suffix _)).trans hwsuf)
      · have hxamp : '&' ∉ x := fun hm => hfree (hx.subset hm)
        rw [hte, matchTrackHere_amp_junction x _ hxamp]
        have hsx : x ++ '&' :: w <:+ s := by
          conv_rhs => rw [hse]
          exact suffix_append_same x _ _ hx
        have := hmf _ hsx
        rw [matchTrackHere_amp_junction x w hxamp] at this
        exact this

/-- takeWhile on non-ampersand characters ignores a trailing all-ampersand
pad. -/
theorem takeWhile_amp_pad (t w : PyStr) (hw : ∀ x ∈ w, x = '&') :
    (t ++ w).takeWhile (fun c : Char => !(c = '&')) =
      t.takeWhile (fun c : Char => !(c = '&')) := by
  induction t with
  | nil =>
    simp only [List.nil_append, List.takeWhile_nil]
    cases w with
    | nil => rfl
    | cons a as =>
      have ha : a = '&' := hw a (List.mem_cons_self a as)
      simp [List.takeWhile_cons, ha]
  | cons a t2 ih =>
    by_cases ha : a = '&'
    · simp [List.takeWhile_cons, ha]
    · simp only [List.cons_append, List.takeWhile_cons]
      rw [ih]

/-- A tracking match ignores a trailing all-ampersand pad. -/
theorem matchTrackHere_amp_pad (t w : PyStr) (hw : ∀ x ∈ w, x = '&') :
    matchTrackHere (t ++ w) = matchTrackHere t := by
  rw [matchTrackHere_ampPre (t ++ w), matchTrackHere_ampPre t,
    takeWhile_amp_pad t w hw]

/-- Right strip decomposes the string into the kept part and a dropped pad
of characters all satisfying the predicate. -/
theorem pyRStrip_decomp (p : Char → Bool) (s : PyStr) :
    ∃ w, s = pyRStrip p s ++ w ∧ ∀ x ∈ w, p x = true := by
  have h : s.reverse.takeWhile p ++ s.reverse.dropWhile p = s.reverse :=
    List.takeWhile_append_dropWhile _ _
  have h2 : s = (s.reverse.dropWhile p).reverse ++
      (s.reverse.takeWhile p).reverse := by
    rw [← List.reverse_append, h, List.reverse_reverse]
  exact ⟨(s.reverse.takeWhile p).reverse, h2,
    fun x hx => List.mem_takeWhile_imp (List.mem_reverse.mp hx)⟩

/-- Suffix matchfreeness transfers through the ampersand strip. -/
theorem strip_matchfree (s : PyStr)
    (hmf : ∀ t, t <:+ s → matchTrackHere t = false) :
    ∀ t, t <:+ pyStrip (fun c => c = '&') s →
      matchTrackHere t = false := by
  intro t ht
  rcases pyRStrip_decomp (fun c => c = '&')
    (pyLStrip (fun c => c = '&') s) with ⟨w, hw, hwall⟩
  have hpad : t ++ w <:+ pyLStrip (fun c => c = '&') s := by
    rw [hw]
    exact suffix_append_same t _ w ht
  have hls : pyLStrip (fun c => c = '&') s <:+ s :=
    List.dropWhile_suffix _
  have hres := hmf (t ++ w) (hpad.trans hls)
  rw [matchTrackHere_amp_pad t w
    (fun x hx => by simpa using hwall x hx)] at hres
  exact hres

/-- No suffix of the cleaned query matches the tracking pattern. -/
theorem clean_matchfree (q : PyStr) :
    ∀ t, t <:+ cleanTrackingParams q → matchTrackHere t = false := by
  intro t ht
  refine strip_matchfree _ ?_ t ht
  intro u hu
  exact collapse_matchfree_aux (removeTrackingMatches q).length _
    (Nat.le_refl _) (fun v hv => rt_matchfree q v hv) u hu

/-- The scanner leaves the cleaned query unchanged. -/
theorem rt_clean_fixed (q : PyStr) :
    removeTrackingMatches (cleanTrackingParams q) = cleanTrackingParams q :=
  rtAux_false_fixed _ (clean_matchfree q)

/-- Whether the string contains two adjacent occurrences of the
character. -/
def hasDouble (c : Char) : PyStr → Bool
  | [] => false
  | [_] => false
  | a :: b :: r => (a = c && b = c) || hasDouble c (b :: r)

/-- Unfolding of hasDouble on a cons via the head test. -/
theorem hasDouble_cons (c a : Char) (l : PyStr) :
    hasDouble c (a :: l) = ((a = c && headIs c l) || hasDouble c l) := by
  cases l with
  | nil => simp [hasDouble, headIs]
  | cons b r => simp [hasDouble, headIs]

/-- The skip-mode collapser output never starts with the collapse
character. -/
theorem collapse_true_head (c : Char) :
    ∀ s : PyStr, headIs c (collapseRunsAux c true s) = false := by
  intro s
  induction s with
  | nil => rfl
  | cons a as ih =>
    simp only [collapseRunsAux]
    by_cases ha : a = c
    · rw [if_pos ha]
      simpa using ih
    · rw [if_neg ha]
      simp [headIs, ha]

/-- The collapser output has no adjacent duplicate of the collapse
character. -/
theorem collapse_noDouble (c : Char) :
    ∀ (s : PyStr) (b : Bool),
      hasDouble c (collapseRunsAux c b s) = false := by
  intro s
  induction s with
  | nil =>
    intro b
    cases b <;> rfl
  | cons a as ih =>
    intro b
    simp only [collapseRunsAux]
    by_cases ha : a = c
    · rw [if_pos ha]
      cases b with
      | true =>
        rw [if_pos rfl]
        exact ih true
      | false =>
        rw [if_neg Bool.false_ne_true, hasDouble_cons,
          collapse_true_head c as]
        simp [ih true]
    · rw [if_neg ha, hasDouble_cons]
      simp [ha, ih false]

/-- hasDouble is preserved by removing a prefix. -/
theorem hasDouble_suffix (c : Char) :
    ∀ (q t : PyStr), hasDouble c (q ++ t) = false →
      hasDouble c t = false := by
  intro q
  induction q with
  | nil =>
    intro t h
    exact h
  | cons a q2 ih =>
    intro t h
    rw [List.cons_append, hasDouble_cons] at h
    cases hx : hasDouble c (q2 ++ t) with
    | false => exact ih t hx
    | true =>
      rw [hx, Bool.or_true] at h
      cases h

/-- hasDouble is preserved by removing a suffix. -/
theorem hasDouble_prefix (c : Char) :
    ∀ (t e : PyStr), hasDouble c (t ++ e) = false →
      hasDouble c t = false := by
  intro t
  induction t with
  | nil =>
    intro e h
    rfl
  | cons a t2 ih =>
    intro e h
    rw [List.cons_append, hasDouble_cons] at h
    rw [hasDouble_cons]
    cases t2 with
    | nil => simp [hasDouble, headIs]
    | cons b r =>
      have hh : headIs c ((b :: r) ++ e) = headIs c (b :: r) := rfl
      cases hx : hasDouble c ((b :: r) ++ e) with
      | true =>
        rw [hx, Bool.or_true] at h
        cases h
      | false =>
        have h2 := ih e hx
        rw [hx, Bool.or_false] at h
        rw [h2, Bool.or_false, ← hh]
        exact h

/-- On a string with no adjacent duplicates the collapser is the
identity. -/
theorem collapse_of_noDouble (c : Char) :
    ∀ s : PyStr, hasDouble c s = false → collapseRuns c s = s := by
  intro s
  induction s with
  | nil =>
    intro h
    rfl
  | cons a as ih =>
    intro h
    rw [hasDouble_cons] at h
    have hdas : hasDouble c as = false := by
      cases hx : hasDouble c as
      · rfl
      · rw [hx, Bool.or_true] at h
        cases h
    have htail : collapseRunsAux c false as = as := ih hdas
    show collapseRunsAux c false (a :: as) = a :: as
    simp only [collapseRunsAux]
    by_cases ha : a = c
    · rw [if_pos ha, if_neg Bool.false_ne_true]
      have hhead : headIs c as = false := by
        cases hy : headIs c as
        · rfl
        · rw [hy, ha] at h
          simp at h
      cases as with
      | nil =>
        rw [ha]
        rfl
      | cons b r =>
        have hb : b ≠ c := by
          intro he
          rw [he] at hhead
          simp [headIs] at hhead
        have htail2 : b :: collapseRunsAux c false r = b :: r := by
          rw [← htail]
          simp only [collapseRunsAux, if_neg hb]
        have hr : collapseRunsAux c false r = r := by
          injection htail2
        rw [ha]
        show c :: collapseRunsAux c true (b :: r) = c :: b :: r
        simp only [collapseRunsAux, if_neg hb]
        rw [hr]
    · rw [if_neg ha, htail]

/-- hasDouble is preserved by stripping both ends. -/
theorem hasDouble_strip (c : Char) (p : Char → Bool) (s : PyStr)
    (h : hasDouble c s = false) :
    hasDouble c (pyStrip p s) = false := by
  have hsuf : pyLStrip p s <:+ s := List.dropWhile_suffix p
  rcases hsuf with ⟨q, hq⟩
  rw [← hq] at h
  have h1 : hasDouble c (pyLStrip p s) = false := hasDouble_suffix c q _ h
  rcases pyRStrip_decomp p (pyLStrip p s) with ⟨w, hw, _⟩
  rw [hw] at h1
  exact hasDouble_prefix c _ w h1

/-- The cleaned query is a fixed point of ampersand-run collapsing. -/
theorem collapse_clean_fixed (q : PyStr) :
    collapseRuns '&' (cleanTrackingParams q) = cleanTrackingParams q := by
  refine collapse_of_noDouble '&' _ ?_
  refine hasDouble_strip '&' _ _ ?_
  exact collapse_noDouble '&' _ false

/-- The last element surviving pyRStrip fails the predicate. -/
theorem pyRStrip_last_false (p : Char → Bool) (l : PyStr) (c : Char)
    (h : (pyRStrip p l).getLast? = some c) : p c = false := by
  unfold pyRStrip at h
  rw [List.getLast?_eq_head?_reverse, List.reverse_reverse] at h
  cases hx : l.reverse.dropWhile p with
  | nil =>
    rw [hx] at h
    cases h
  | cons b bs =>
    rw [hx] at h
    have hb : b = c := by
      injection h
    rw [← hb]
    exact dropWhile_head_false p l.reverse b bs hx

/-- pyStrip is idempotent. -/
theorem pyStrip_idem (p : Char → Bool) (s : PyStr) :
    pyStrip p (pyStrip p s) = pyStrip p s := by
  cases h : pyStrip p s with
  | nil => rfl
  | cons a u =>
    rcases pyRStrip_decomp p (pyLStrip p s) with ⟨w, hw, _⟩
    have hps : pyStrip p s = pyRStrip p (pyLStrip p s) := rfl
    have hl : pyLStrip p s = a :: (u ++ w) := by
      rw [hw, ← hps, h, List.cons_append]
    have hhead : p a = false :=
      dropWhile_head_false p s a (u ++ w) hl
    have hlast : ∀ x, (a :: u).getLast? = some x → p x = false := by
      intro x hc
      refine pyRStrip_last_false p (pyLStrip p s) x ?_
      rw [← hps, h]
      exact hc
    exact pyStrip_noop p a u hhead hlast

/-- _clean_tracking_params is idempotent. -/
theorem cleanTrackingParams_idem (q : PyStr) :
    cleanTrackingParams (cleanTrackingParams q) = cleanTrackingParams q := by
  show pyStrip (fun c => c = '&')
      (collapseRuns '&' (removeTrackingMatches (cleanTrackingParams q))) =
    cleanTrackingParams q
  rw [rt_clean_fixed, collapse_clean_fixed]
  exact pyStrip_idem _ _

/-- takeWhile over a block of passing characters continues past it. -/
theorem takeWhile_all_append (q : Char → Bool) :
    ∀ (N rest : PyStr), (∀ c ∈ N, q c = true) →
      (N ++ rest).takeWhile q = N ++ rest.takeWhile q := by
  intro N
  induction N with
  | nil =>
    intro rest h
    rfl
  | cons a as ih =>
    intro rest h
    have ha : q a = true := h a (List.mem_cons_self a as)
    simp only [List.cons_append, List.takeWhile_cons, ha, if_true]
    rw [ih rest (fun c hc => h c (List.mem_cons_of_mem a hc))]

/-- dropWhile over a block of passing characters discards it. -/
theorem dropWhile_all_append (q : Char → Bool) :
    ∀ (N rest : PyStr), (∀ c ∈ N, q c = true) →
      (N ++ rest).dropWhile q = rest.dropWhile q := by
  intro N
  induction N with
  | nil =>
    intro rest h
    rfl
  | cons a as ih =>
    intro rest h
    have ha : q a = true := h a (List.mem_cons_self a as)
    simp only [List.cons_append, List.dropWhile_cons, ha, if_true]
    exact ih rest (fun c hc => h c (List.mem_cons_of_mem a hc))

/-- Canonical serialisation of an http(s) URL whose path is slash-led or
empty, with an empty fragment. -/
theorem urlunsplit_shape (S N P Q : PyStr)
    (hS : S = pyOfString "http" ∨ S = pyOfString "https")
    (hPhead : P = [] ∨ headIs '/' P = true)
    (hPP : listStarts (pyOfString "//") P = false) :
    urlunsplitP S N P Q [] =
      (S ++ ':' :: '/' :: '/' :: (N ++ P)) ++
        (if Q.isEmpty then [] else '?' :: Q) := by
  have hP2 : (if !P.isEmpty && !headIs '/' P then '/' :: P else P) = P := by
    rcases hPhead with h | h
    · subst h
      rfl
    · rw [h]
      simp
  have hcond : (!N.isEmpty || (!S.isEmpty && pyMem S usesNetloc &&
      !listStarts (pyOfString "//") P)) = true := by
    have hx : (!S.isEmpty && pyMem S usesNetloc &&
        !listStarts (pyOfString "//") P) = true := by
      rw [hPP]
      rcases hS with h | h <;> subst h <;> rfl
    rw [hx, Bool.or_true]
  have hSne : (!S.isEmpty) = true := by
    rcases hS with h | h <;> subst h <;> rfl
  simp only [urlunsplitP]
  rw [if_pos hcond, hP2, if_pos hSne]
  rw [if_neg (by simp)]
  cases hQ : Q.isEmpty with
  | true => simp [List.append_assoc]
  | false => simp [List.append_assoc]

/-- Parsing the canonical serialisation recovers the components
(http scheme). -/
theorem urlsplit_roundtrip_http (N P Q ds : PyStr)
    (hNd : ∀ c ∈ N, netlocDelim c = false)
    (hNl : '[' ∉ N) (hNr : ']' ∉ N)
    (hPhead : P = [] ∨ headIs '/' P = true)
    (hPP : listStarts (pyOfString "//") P = false)
    (hPq : '?' ∉ P) (hPh : '#' ∉ P) (hQh : '#' ∉ Q)
    (hNs : ∀ c ∈ N, isUnsafeUrlChar c = false)
    (hPs : ∀ c ∈ P, isUnsafeUrlChar c = false)
    (hQs : ∀ c ∈ Q, isUnsafeUrlChar c = false) :
    urlsplitM (urlunsplitP (pyOfString "http") N P Q []) ds =
      some ⟨pyOfString "http", N, P, Q, []⟩ := by
  rw [urlunsplit_shape _ N P Q (Or.inl rfl) hPhead hPP]
  have htwNP : ∀ rest : PyStr, (N ++ rest).takeWhile
      (fun c => !netlocDelim c) = N ++ rest.takeWhile
      (fun c => !netlocDelim c) :=
    fun rest => takeWhile_all_append _ N rest
      (fun c hc => by rw [hNd c hc]; rfl)
  have hdwNP : ∀ rest : PyStr, (N ++ rest).dropWhile
      (fun c => !netlocDelim c) = rest.dropWhile
      (fun c => !netlocDelim c) :=
    fun rest => dropWhile_all_append _ N rest
      (fun c hc => by rw [hNd c hc]; rfl)
  have hPshape : P = [] ∨ ∃ P', P = '/' :: P' := by
    rcases hPhead with h | h
    · exact Or.inl h
    · right
      cases P with
      | nil => cases h
      | cons p0 P' =>
        have hp0 : p0 = '/' := by simpa [headIs] using h
        exact ⟨P', by rw [hp0]⟩
  have hcl : containsChar '[' N = false := by
    unfold containsChar
    rw [List.any_eq_false]
    intro a ha he
    exact hNl ((of_decide_eq_true he) ▸ ha)
  have hcr : containsChar ']' N = false := by
    unfold containsChar
    rw [List.any_eq_false]
    intro a ha he
    exact hNr ((of_decide_eq_true he) ▸ ha)
  have hlow : pyLower ['h', 't', 't', 'p'] = pyOfString "http" := by decide
  cases Q with
  | nil =>
    have hform : (pyOfString "http" ++ ':' :: '/' :: '/' :: (N ++ P)) ++
        (if ([] : PyStr).isEmpty then [] else '?' :: ([] : PyStr)) =
        'h' :: 't' :: 't' :: 'p' :: ':' :: '/' :: '/' :: (N ++ P) := by
      simp [pyOfString, List.append_assoc]
    rw [hform]
    have hsafe2 : ∀ c ∈ ('h' :: 't' :: 't' :: 'p' :: ':' :: '/' :: '/' ::
        (N ++ P)), isUnsafeUrlChar c = false := by
      intro c hc
      simp only [List.mem_cons] at hc
      rcases hc with rfl | rfl | rfl | rfl | rfl | rfl | rfl | hc
      · decide
      · decide
      · decide
      · decide
      · decide
      · decide
      · decide
      · rcases List.mem_append.mp hc with h | h
        · exact hNs c h
        · exact hPs c h
    have hls : pyLStrip isC0OrSpace ('h' :: 't' :: 't' :: 'p' :: ':' ::
        '/' :: '/' :: (N ++ P)) = 'h' :: 't' :: 't' :: 'p' :: ':' ::
        '/' :: '/' :: (N ++ P) :=
      dropWhile_noop _ _ _ (by decide)
    have hrc : removeChars isUnsafeUrlChar ('h' :: 't' :: 't' :: 'p' ::
        ':' :: '/' :: '/' :: (N ++ P)) = 'h' :: 't' :: 't' :: 'p' ::
        ':' :: '/' :: '/' :: (N ++ P) :=
      removeChars_noop _ _ hsafe2
    have hsp : splitFirst ':' ('h' :: 't' :: 't' :: 'p' :: ':' :: '/' ::
        '/' :: (N ++ P)) =
        some (['h', 't', 't', 'p'], '/' :: '/' :: (N ++ P)) :=
      splitFirst_append ':' ['h', 't', 't', 'p'] ('/' :: '/' :: (N ++ P))
        (by decide)
    have hst : listStarts (pyOfString "//") ('/' :: '/' :: (N ++ P)) =
        true :=
      listStarts_append_self (pyOfString "//") (N ++ P)
    have htw : (N ++ P).takeWhile (fun c => !netlocDelim c) = N := by
      rw [htwNP P]
      rcases hPshape with h | ⟨P', h⟩
      · rw [h]
        simp
      · rw [h]
        simp [List.takeWhile_cons, netlocDelim]
    have hdw : (N ++ P).dropWhile (fun c => !netlocDelim c) = P := by
      rw [hdwNP P]
      rcases hPshape with h | ⟨P', h⟩
      · rw [h]
        rfl
      · rw [h]
        simp [List.dropWhile_cons, netlocDelim]
    have hfr : splitFirst '#' P = none := splitFirst_none '#' P hPh
    have hqq : splitFirst '?' P = none := splitFirst_none '?' P hPq
    simp +decide [urlsplitM, hls, hrc, hsp, hst, htw, hdw, hcl, hcr,
      hfr, hqq, hlow]
  | cons q0 Q' =>
    have hform : (pyOfString "http" ++ ':' :: '/' :: '/' :: (N ++ P)) ++
        (if (q0 :: Q' : PyStr).isEmpty then [] else '?' :: q0 :: Q') =
        'h' :: 't' :: 't' :: 'p' :: ':' :: '/' :: '/' ::
          (N ++ (P ++ '?' :: q0 :: Q')) := by
      simp [pyOfString, List.append_assoc]
    rw [hform]
    have hsafe2 : ∀ c ∈ ('h' :: 't' :: 't' :: 'p' :: ':' :: '/' :: '/' ::
        (N ++ (P ++ '?' :: q0 :: Q'))), isUnsafeUrlChar c = false := by
      intro c hc
      simp only [List.mem_cons] at hc
      rcases hc with rfl | rfl | rfl | rfl | rfl | rfl | rfl | hc
      · decide
      · decide
      · decide
      · decide
      · decide
      · decide
      · decide
      · rcases List.mem_append.mp hc with h | h
        · exact hNs c h
        · rcases List.mem_append.mp h with h2 | h2
          · exact hPs c h2
          · rcases List.mem_cons.mp h2 with rfl | h3
            · decide
            · exact hQs c h3
    have hls : pyLStrip isC0OrSpace ('h' :: 't' :: 't' :: 'p' :: ':' ::
        '/' :: '/' :: (N ++ (P ++ '?' :: q0 :: Q'))) =
        'h' :: 't' :: 't' :: 'p' :: ':' ::
        '/' :: '/' :: (N ++ (P ++ '?' :: q0 :: Q')) :=
      dropWhile_noop _ _ _ (by decide)
    have hrc : removeChars isUnsafeUrlChar ('h' :: 't' :: 't' :: 'p' ::
        ':' :: '/' :: '/' :: (N ++ (P ++ '?' :: q0 :: Q'))) =
        'h' :: 't' :: 't' :: 'p' ::
        ':' :: '/' :: '/' :: (N ++ (P ++ '?' :: q0 :: Q')) :=
      removeChars_noop _ _ hsafe2
    have hsp : splitFirst ':' ('h' :: 't' :: 't' :: 'p' :: ':' :: '/' ::
        '/' :: (N ++ (P ++ '?' :: q0 :: Q'))) =
        some (['h', 't', 't', 'p'],
          '/' :: '/' :: (N ++ (P ++ '?' :: q0 :: Q'))) :=
      splitFirst_append ':' ['h', 't', 't', 'p']
        ('/' :: '/' :: (N ++ (P ++ '?' :: q0 :: Q'))) (by decide)
    have hst : listStarts (pyOfString "//")
        ('/' :: '/' :: (N ++ (P ++ '?' :: q0 :: Q'))) = true :=
      listStarts_append_self (pyOfString "//") (N ++ (P ++ '?' :: q0 :: Q'))
    have htw2 : (P ++ '?' :: q0 :: Q').takeWhile
        (fun c => !netlocDelim c) = [] := by
      rcases hPshape with h | ⟨P', h⟩
      · rw [h]
        simp +decide [List.takeWhile_cons, netlocDelim]
      · rw [h]
        simp +decide [List.takeWhile_cons, netlocDelim]
    have htw : (N ++ (P ++ '?' :: q0 :: Q')).takeWhile
        (fun c => !netlocDelim c) = N := by
      rw [htwNP, htw2, List.append_nil]
    have hdw2 : (P ++ '?' :: q0 :: Q').dropWhile
        (fun c => !netlocDelim c) = P ++ '?' :: q0 :: Q' := by
      rcases hPshape with h | ⟨P', h⟩
      · rw [h]
        simp +decide [List.dropWhile_cons, netlocDelim]
      · rw [h]
        simp +decide [List.dropWhile_cons, netlocDelim]
    have hdw : (N ++ (P ++ '?' :: q0 :: Q')).dropWhile
        (fun c => !netlocDelim c) = P ++ '?' :: q0 :: Q' := by
      rw [hdwNP, hdw2]
    have hfr : splitFirst '#' (P ++ '?' :: q0 :: Q') = none := by
      refine splitFirst_none '#' _ ?_
      intro hm
      rcases List.mem_append.mp hm with h | h
      · exact hPh h
      · rcases List.mem_cons.mp h with he | h2
        · exact absurd he (by decide)
        · exact hQh h2
    have hqq : splitFirst '?' (P ++ '?' :: q0 :: Q') =
        some (P, q0 :: Q') :=
      splitFirst_append '?' P (q0 :: Q') hPq
    simp +decide [urlsplitM, hls, hrc, hsp, hst, htw, hdw, hcl, hcr,
      hfr, hqq, hlow]

/-- Parsing the canonical serialisation recovers the components
(https scheme). -/
theorem urlsplit_roundtrip_https (N P Q ds : PyStr)
    (hNd : ∀ c ∈ N, netlocDelim c = false)
    (hNl : '[' ∉ N) (hNr : ']' ∉ N)
    (hPhead : P = [] ∨ headIs '/' P = true)
    (hPP : listStarts (pyOfString "//") P = false)
    (hPq : '?' ∉ P) (hPh : '#' ∉ P) (hQh : '#' ∉ Q)
    (hNs : ∀ c ∈ N, isUnsafeUrlChar c = false)
    (hPs : ∀ c ∈ P, isUnsafeUrlChar c = false)
    (hQs : ∀ c ∈ Q, isUnsafeUrlChar c = false) :
    urlsplitM (urlunsplitP (pyOfString "https") N P Q []) ds =
      some ⟨pyOfString "https", N, P, Q, []⟩ := by
  rw [urlunsplit_shape _ N P Q (Or.inr rfl) hPhead hPP]
  have htwNP : ∀ rest : PyStr, (N ++ rest).takeWhile
      (fun c => !netlocDelim c) = N ++ rest.takeWhile
      (fun c => !netlocDelim c) :=
    fun rest => takeWhile_all_append _ N rest
      (fun c hc => by rw [hNd c hc]; rfl)
  have hdwNP : ∀ rest : PyStr, (N ++ rest).dropWhile
      (fun c => !netlocDelim c) = rest.dropWhile
      (fun c => !netlocDelim c) :=
    fun rest => dropWhile_all_append _ N rest
      (fun c hc => by rw [hNd c hc]; rfl)
  have hPshape : P = [] ∨ ∃ P', P = '/' :: P' := by
    rcases hPhead with h | h
    · exact Or.inl h
    · right
      cases P with
      | nil => cases h
      | cons p0 P' =>
        have hp0 : p0 = '/' := by simpa [headIs] using h
        exact ⟨P', by rw [hp0]⟩
  have hcl : containsChar '[' N = false := by
    unfold containsChar
    rw [List.any_eq_false]
    intro a ha he
    exact hNl ((of_decide_eq_true he) ▸ ha)
  have hcr : containsChar ']' N = false := by
    unfold containsChar
    rw [List.any_eq_false]
    intro a ha he
    exact hNr ((of_decide_eq_true he) ▸ ha)
  have hlow : pyLower ['h', 't', 't', 'p', 's'] = pyOfString "https" := by decide
  cases Q with
  | nil =>
    have hform : (pyOfString "https" ++ ':' :: '/' :: '/' :: (N ++ P)) ++
        (if ([] : PyStr).isEmpty then [] else '?' :: ([] : PyStr)) =
        'h' :: 't' :: 't' :: 'p' :: 's' :: ':' :: '/' :: '/' :: (N ++ P) := by
      simp [pyOfString, List.append_assoc]
    rw [hform]
    have hsafe2 : ∀ c ∈ ('h' :: 't' :: 't' :: 'p' :: 's' :: ':' :: '/' :: '/' ::
        (N ++ P)), isUnsafeUrlChar c = false := by
      intro c hc
      simp only [List.mem_cons] at hc
      rcases hc with rfl | rfl | rfl | rfl | rfl | rfl | rfl | rfl | hc
      · decide
      · decide
      · decide
      · decide
      · decide
      · decide
      · decide
      · decide
      · rcases List.mem_append.mp hc with h | h
        · exact hNs c h
        · exact hPs c h
    have hls : pyLStrip isC0OrSpace ('h' :: 't' :: 't' :: 'p' :: 's' :: ':' ::
        '/' :: '/' :: (N ++ P)) = 'h' :: 't' :: 't' :: 'p' :: 's' :: ':' ::
        '/' :: '/' :: (N ++ P) :=
      dropWhile_noop _ _ _ (by decide)
    have hrc : removeChars isUnsafeUrlChar ('h' :: 't' :: 't' :: 'p' :: 's' ::
        ':' :: '/' :: '/' :: (N ++ P)) = 'h' :: 't' :: 't' :: 'p' :: 's' ::
        ':' :: '/' :: '/' :: (N ++ P) :=
      removeChars_noop _ _ hsafe2
    have hsp : splitFirst ':' ('h' :: 't' :: 't' :: 'p' :: 's' :: ':' :: '/' ::
        '/' :: (N ++ P)) =
        some (['h', 't', 't', 'p', 's'], '/' :: '/' :: (N ++ P)) :=
      splitFirst_append ':' ['h', 't', 't', 'p', 's'] ('/' :: '/' :: (N ++ P))
        (by decide)
    have hst : listStarts (pyOfString "//") ('/' :: '/' :: (N ++ P)) =
        true :=
      listStarts_append_self (pyOfString "//") (N ++ P)
    have htw : (N ++ P).takeWhile (fun c => !netlocDelim c) = N := by
      rw [htwNP P]
      rcases hPshape with h | ⟨P', h⟩
      · rw [h]
        simp
      · rw [h]
        simp [List.takeWhile_cons, netlocDelim]
    have hdw : (N ++ P).dropWhile (fun c => !netlocDelim c) = P := by
      rw [hdwNP P]
      rcases hPshape with h | ⟨P', h⟩
      · rw [h]
        rfl
      · rw [h]
        simp [List.dropWhile_cons, netlocDelim]
    have hfr : splitFirst '#' P = none := splitFirst_none '#' P hPh
    have hqq : splitFirst '?' P = none := splitFirst_none '?' P hPq
    simp +decide [urlsplitM, hls, hrc, hsp, hst, htw, hdw, hcl, hcr,
      hfr, hqq, hlow]
  | cons q0 Q' =>
    have hform : (pyOfString "https" ++ ':' :: '/' :: '/' :: (N ++ P)) ++
        (if (q0 :: Q' : PyStr).isEmpty then [] else '?' :: q0 :: Q') =
        'h' :: 't' :: 't' :: 'p' :: 's' :: ':' :: '/' :: '/' ::
          (N ++ (P ++ '?' :: q0 :: Q')) := by
      simp [pyOfString, List.append_assoc]
    rw [hform]
    have hsafe2 : ∀ c ∈ ('h' :: 't' :: 't' :: 'p' :: 's' :: ':' :: '/' :: '/' ::
        (N ++ (P ++ '?' :: q0 :: Q'))), isUnsafeUrlChar c = false := by
      intro c hc
      simp only [List.mem_cons] at hc
      rcases hc with rfl | rfl | rfl | rfl | rfl | rfl | rfl | rfl | hc
      · decide
      · decide
      · decide
      · decide
      · decide
      · decide
      · decide
      · decide
      · rcases List.mem_append.mp hc with h | h
        · exact hNs c h
        · rcases List.mem_append.mp h with h2 | h2
          · exact hPs c h2
          · rcases List.mem_cons.mp h2 with rfl | h3
            · decide
            · exact hQs c h3
    have hls : pyLStrip isC0OrSpace ('h' :: 't' :: 't' :: 'p' :: 's' :: ':' ::
        '/' :: '/' :: (N ++ (P ++ '?' :: q0 :: Q'))) =
        'h' :: 't' :: 't' :: 'p' :: 's' :: ':' ::
        '/' :: '/' :: (N ++ (P ++ '?' :: q0 :: Q')) :=
      dropWhile_noop _ _ _ (by decide)
    have hrc : removeChars isUnsafeUrlChar ('h' :: 't' :: 't' :: 'p' :: 's' ::
        ':' :: '/' :: '/' :: (N ++ (P ++ '?' :: q0 :: Q'))) =
        'h' :: 't' :: 't' :: 'p' :: 's' ::
        ':' :: '/' :: '/' :: (N ++ (P ++ '?' :: q0 :: Q')) :=
      removeChars_noop _ _ hsafe2
    have hsp : splitFirst ':' ('h' :: 't' :: 't' :: 'p' :: 's' :: ':' :: '/' ::
        '/' :: (N ++ (P ++ '?' :: q0 :: Q'))) =
        some (['h', 't', 't', 'p', 's'],
          '/' :: '/' :: (N ++ (P ++ '?' :: q0 :: Q'))) :=
      splitFirst_append ':' ['h', 't', 't', 'p', 's']
        ('/' :: '/' :: (N ++ (P ++ '?' :: q0 :: Q'))) (by decide)
    have hst : listStarts (pyOfString "//")
        ('/' :: '/' :: (N ++ (P ++ '?' :: q0 :: Q'))) = true :=
      listStarts_append_self (pyOfString "//") (N ++ (P ++ '?' :: q0 :: Q'))
    have htw2 : (P ++ '?' :: q0 :: Q').takeWhile
        (fun c => !netlocDelim c) = [] := by
      rcases hPshape with h | ⟨P', h⟩
      · rw [h]
        simp +decide [List.takeWhile_cons, netlocDelim]
      · rw [h]
        simp +decide [List.takeWhile_cons, netlocDelim]
    have htw : (N ++ (P ++ '?' :: q0 :: Q')).takeWhile
        (fun c => !netlocDelim c) = N := by
      rw [htwNP, htw2, List.append_nil]
    have hdw2 : (P ++ '?' :: q0 :: Q').dropWhile
        (fun c => !netlocDelim c) = P ++ '?' :: q0 :: Q' := by
      rcases hPshape with h | ⟨P', h⟩
      · rw [h]
        simp +decide [List.dropWhile_cons, netlocDelim]
      · rw [h]
        simp +decide [List.dropWhile_cons, netlocDelim]
    have hdw : (N ++ (P ++ '?' :: q0 :: Q')).dropWhile
        (fun c => !netlocDelim c) = P ++ '?' :: q0 :: Q' := by
      rw [hdwNP, hdw2]
    have hfr : splitFirst '#' (P ++ '?' :: q0 :: Q') = none := by
      refine splitFirst_none '#' _ ?_
      intro hm
      rcases List.mem_append.mp hm with h | h
      · exact hPh h
      · rcases List.mem_cons.mp h with he | h2
        · exact absurd he (by decide)
        · exact hQh h2
    have hqq : splitFirst '?' (P ++ '?' :: q0 :: Q') =
        some (P, q0 :: Q') :=
      splitFirst_append '?' P (q0 :: Q') hPq
    simp +decide [urlsplitM, hls, hrc, hsp, hst, htw, hdw, hcl, hcr,
      hfr, hqq, hlow]

/-- Parsing a canonical http(s) serialisation recovers the components. -/
theorem urlsplitM_roundtrip (S N P Q ds : PyStr)
    (hS : S = pyOfString "http" ∨ S = pyOfString "https")
    (hNd : ∀ c ∈ N, netlocDelim c = false)
    (hNl : '[' ∉ N) (hNr : ']' ∉ N)
    (hPhead : P = [] ∨ headIs '/' P = true)
    (hPP : listStarts (pyOfString "//") P = false)
    (hPq : '?' ∉ P) (hPh : '#' ∉ P) (hQh : '#' ∉ Q)
    (hNs : ∀ c ∈ N, isUnsafeUrlChar c = false)
    (hPs : ∀ c ∈ P, isUnsafeUrlChar c = false)
    (hQs : ∀ c ∈ Q, isUnsafeUrlChar c = false) :
    urlsplitM (urlunsplitP S N P Q []) ds = some ⟨S, N, P, Q, []⟩ := by
  rcases hS with h | h
  · subst h
    exact urlsplit_roundtrip_http N P Q ds hNd hNl hNr hPhead hPP hPq hPh
      hQh hNs hPs hQs
  · subst h
    exact urlsplit_roundtrip_https N P Q ds hNd hNl hNr hPhead hPP hPq hPh
      hQh hNs hPs hQs

/-- urlparse on a canonical serialisation: the params split does not fire
when the path has no semicolon. -/
theorem urlparseM_roundtrip (S N P Q ds : PyStr)
    (hS : S = pyOfString "http" ∨ S = pyOfString "https")
    (hNd : ∀ c ∈ N, netlocDelim c = false)
    (hNl : '[' ∉ N) (hNr : ']' ∉ N)
    (hPhead : P = [] ∨ headIs '/' P = true)
    (hPP : listStarts (pyOfString "//") P = false)
    (hPq : '?' ∉ P) (hPh : '#' ∉ P) (hQh : '#' ∉ Q)
    (hNs : ∀ c ∈ N, isUnsafeUrlChar c = false)
    (hPs : ∀ c ∈ P, isUnsafeUrlChar c = false)
    (hQs : ∀ c ∈ Q, isUnsafeUrlChar c = false)
    (hPsemi : ';' ∉ P) :
    urlparseM (urlunsplitP S N P Q []) ds = some ⟨S, N, P, [], Q, []⟩ := by
  unfold urlparseM
  rw [urlsplitM_roundtrip S N P Q ds hS hNd hNl hNr hPhead hPP hPq hPh
    hQh hNs hPs hQs]
  have hsc : containsChar ';' P = false := by
    unfold containsChar
    rw [List.any_eq_false]
    intro a ha he
    exact hPsemi ((of_decide_eq_true he) ▸ ha)
  simp [hsc]

/-- urljoin maps a canonical absolute http(s) URL to itself. -/
theorem urljoin_canonical (base S N P Q : PyStr)
    (hb : base = [] ∨ ∃ b, urlparseM base [] = some b)
    (hS : S = pyOfString "http" ∨ S = pyOfString "https")
    (hNd : ∀ c ∈ N, netlocDelim c = false)
    (hNl : '[' ∉ N) (hNr : ']' ∉ N)
    (hPhead : P = [] ∨ headIs '/' P = true)
    (hPP : listStarts (pyOfString "//") P = false)
    (hPq : '?' ∉ P) (hPh : '#' ∉ P) (hQh : '#' ∉ Q)
    (hNs : ∀ c ∈ N, isUnsafeUrlChar c = false)
    (hPs : ∀ c ∈ P, isUnsafeUrlChar c = false)
    (hQs : ∀ c ∈ Q, isUnsafeUrlChar c = false)
    (hPsemi : ';' ∉ P)
    (hNne : N ≠ []) :
    urljoinM base (urlunsplitP S N P Q []) =
      some (urlunsplitP S N P Q []) := by
  cases base with
  | nil => rfl
  | cons b0 bs =>
    rcases hb with hb0 | ⟨b, hbp⟩
    · cases hb0
    · have hvne : (urlunsplitP S N P Q []).isEmpty = false := by
        rw [urlunsplit_shape S N P Q hS hPhead hPP]
        rcases hS with h | h <;> subst h <;> rfl
      have hparse : urlparseM (urlunsplitP S N P Q []) b.scheme =
          some ⟨S, N, P, [], Q, []⟩ :=
        urlparseM_roundtrip S N P Q b.scheme hS hNd hNl hNr hPhead hPP
          hPq hPh hQh hNs hPs hQs hPsemi
      have hNie : N.isEmpty = false := by
        cases N with
        | nil => exact absurd rfl hNne
        | cons a as => rfl
      simp +decide only [urljoinM, List.isEmpty_cons, hvne, hbp, hparse]
      by_cases hsch : S = b.scheme ∧ pyMem S usesRelative = true
      · rw [if_neg (not_not_intro hsch)]
        have hmem : (pyMem S usesNetloc && !List.isEmpty N) = true := by
          rw [hNie]
          rcases hS with h | h <;> subst h <;> rfl
        rw [if_pos hmem]
        rfl
      · rw [if_pos hsch]
        rfl

/-- The last element reported by getLast? is a member. -/
theorem getLast_mem_of_eq :
    ∀ (l : PyStr) (c : Char), l.getLast? = some c → c ∈ l := by
  intro l
  induction l with
  | nil =>
    intro c h
    cases h
  | cons a t ih =>
    intro c h
    cases t with
    | nil =>
      have : a = c := by
        injection h
      rw [this]
      exact List.mem_cons_self c []
    | cons b t2 =>
      rw [List.getLast?_cons_cons] at h
      exact List.mem_cons_of_mem a (ih c h)

/-- pyStrip is the identity when no character satisfies the predicate. -/
theorem pyStrip_noop_mem (p : Char → Bool) (s : PyStr)
    (hne : s.isEmpty = false) (hall : ∀ c ∈ s, p c = false) :
    pyStrip p s = s := by
  cases s with
  | nil => cases hne
  | cons a l =>
    exact pyStrip_noop p a l (hall a (List.mem_cons_self a l))
      (fun c hc => hall c (getLast_mem_of_eq _ c hc))

/-- normalize_url maps a canonical clean http(s) URL to itself. -/
theorem normalize_canonical (base S N P Q : PyStr)
    (hb : base = [] ∨ ∃ b, urlparseM base [] = some b)
    (hS : S = pyOfString "http" ∨ S = pyOfString "https")
    (hNd : ∀ c ∈ N, netlocDelim c = false)
    (hNl : '[' ∉ N) (hNr : ']' ∉ N)
    (hNs : ∀ c ∈ N, isUnsafeUrlChar c = false)
    (hNlow : pyLower N = N)
    (hNne : N ≠ [])
    (hPhead : headIs '/' P = true)
    (hPP : listStarts (pyOfString "//") P = false)
    (hPq : '?' ∉ P) (hPh : '#' ∉ P) (hPsemi : ';' ∉ P)
    (hPs : ∀ c ∈ P, isUnsafeUrlChar c = false)
    (hPnd : hasDouble '/' P = false)
    (hPtr : P = pyOfString "/" ∨ lastIs '/' P = false)
    (hQh : '#' ∉ Q)
    (hQs : ∀ c ∈ Q, isUnsafeUrlChar c = false)
    (hQclean : cleanTrackingParams Q = Q)
    (hw : ∀ c ∈ urlunsplitP S N P Q [], isPyWsChar c = false) :
    normalizeUrl base (urlunsplitP S N P Q []) =
      some (urlunsplitP S N P Q []) := by
  have hvne : (urlunsplitP S N P Q []).isEmpty = false := by
    rw [urlunsplit_shape S N P Q hS (Or.inr hPhead) hPP]
    rcases hS with h | h <;> subst h <;> rfl
  have hstrip : pyStrip isPyWsChar (urlunsplitP S N P Q []) =
      urlunsplitP S N P Q [] :=
    pyStrip_noop_mem _ _ hvne hw
  have hns : listStarts (pyOfString "//") (urlunsplitP S N P Q []) =
      false := by
    rw [urlunsplit_shape S N P Q hS (Or.inr hPhead) hPP]
    rcases hS with h | h <;> subst h <;> rfl
  have hjoin := urljoin_canonical base S N P Q hb hS hNd hNl hNr
    (Or.inr hPhead) hPP hPq hPh hQh hNs hPs hQs hPsemi hNne
  have hparse := urlparseM_roundtrip S N P Q [] hS hNd hNl hNr
    (Or.inr hPhead) hPP hPq hPh hQh hNs hPs hQs hPsemi
  have hPie : P.isEmpty = false := by
    cases P with
    | nil => cases hPhead
    | cons a as => rfl
  have hcoll : collapseRuns '/' P = P := collapse_of_noDouble '/' P hPnd
  have hpath2 : ¬(P ≠ pyOfString "/" ∧ lastIs '/' P = true) := by
    intro hand
    rcases hPtr with h | h
    · exact hand.1 h
    · rw [h] at hand
      cases hand.2
  simp +decide only [normalizeUrl, hstrip, hns, hjoin, hparse, hQclean,
    hPie, hcoll, hNlow, if_false, if_true]
  rw [if_neg (not_not_intro hS)]
  rw [if_neg hpath2]
  rfl

/-- A missing splitFirst means the character is absent. -/
theorem splitFirst_eq_none (c : Char) :
    ∀ s : PyStr, splitFirst c s = none → c ∉ s := by
  intro s
  induction s with
  | nil =>
    intro _ hm
    cases hm
  | cons a as ih =>
    intro h hm
    simp only [splitFirst] at h
    by_cases ha : a = c
    · rw [if_pos ha] at h
      cases h
    · rw [if_neg ha] at h
      rcases List.mem_cons.mp hm with he | hm2
      · exact ha he.symm
      · cases hs : splitFirst c as with
        | none => exact ih hs hm2
        | some pr =>
          obtain ⟨l, r⟩ := pr
          simp only [hs] at h
          cases h

/-- A successful splitFirst decomposes the string at the first
occurrence. -/
theorem splitFirst_eq_some (c : Char) :
    ∀ (s a b : PyStr), splitFirst c s = some (a, b) →
      c ∉ a ∧ s = a ++ c :: b := by
  intro s
  induction s with
  | nil =>
    intro a b h
    cases h
  | cons x xs ih =>
    intro a b h
    simp only [splitFirst] at h
    by_cases hx : x = c
    · rw [if_pos hx] at h
      injection h with h2
      rw [Prod.mk.injEq] at h2
      obtain ⟨ha, hb⟩ := h2
      subst ha
      subst hb
      exact ⟨List.not_mem_nil c, by rw [List.nil_append, hx]⟩
    · rw [if_neg hx] at h
      cases hs : splitFirst c xs with
      | none =>
        simp only [hs] at h
        cases h
      | some pr =>
        obtain ⟨l, r⟩ := pr
        simp only [hs] at h
        injection h with h2
        rw [Prod.mk.injEq] at h2
        obtain ⟨ha, hb⟩ := h2
        subst ha
        subst hb
        obtain ⟨hcl, hde⟩ := ih l r hs
        refine ⟨?_, by rw [List.cons_append, ← hde]⟩
        intro hm
        rcases List.mem_cons.mp hm with he | hm2
        · exact hx he.symm
        · exact hcl hm2

/-- Characters surviving removeChars are members failing the predicate. -/
theorem mem_removeChars (p : Char → Bool) (s : PyStr) (c : Char)
    (h : c ∈ removeChars p s) : c ∈ s ∧ p c = false := by
  unfold removeChars at h
  have h2 := List.mem_filter.mp h
  refine ⟨h2.1, ?_⟩
  have h3 := h2.2
  simp at h3
  exact h3

/-- Scanner output characters come from the input. -/
theorem rtAux_subset (c : Char) :
    ∀ (s : PyStr) (b : Bool), c ∈ rtAux b s → c ∈ s := by
  intro s
  induction s with
  | nil =>
    intro b h
    cases b <;> exact absurd h (List.not_mem_nil c)
  | cons a as ih =>
    intro b h
    cases b with
    | true =>
      simp only [rtAux] at h
      by_cases ha : a = '&'
      · rw [if_pos ha] at h
        rcases List.mem_cons.mp h with he | h2
        · rw [he, ← ha]
          exact List.mem_cons_self _ _
        · exact List.mem_cons_of_mem a (ih false h2)
      · rw [if_neg ha] at h
        exact List.mem_cons_of_mem a (ih true h)
    | false =>
      simp only [rtAux] at h
      by_cases hm : matchTrackHere (a :: as) = true
      · rw [if_pos hm] at h
        exact List.mem_cons_of_mem a (ih true h)
      · rw [if_neg hm] at h
        rcases List.mem_cons.mp h with he | h2
        · rw [he]
          exact List.mem_cons_self _ _
        · exact List.mem_cons_of_mem a (ih false h2)

/-- Collapser output characters come from the input. -/
theorem collapseRunsAux_subset (c x : Char) :
    ∀ (s : PyStr) (b : Bool), x ∈ collapseRunsAux c b s → x ∈ s := by
  intro s
  induction s with
  | nil =>
    intro b h
    cases b <;> exact absurd h (List.not_mem_nil x)
  | cons a as ih =>
    intro b h
    simp only [collapseRunsAux] at h
    by_cases ha : a = c
    · rw [if_pos ha] at h
      cases b with
      | true =>
        rw [if_pos rfl] at h
        exact List.mem_cons_of_mem a (ih true h)
      | false =>
        rw [if_neg Bool.false_ne_true] at h
        rcases List.mem_cons.mp h with he | h2
        · rw [he, ← ha]
          exact List.mem_cons_self _ _
        · exact List.mem_cons_of_mem a (ih true h2)
    · rw [if_neg ha] at h
      rcases List.mem_cons.mp h with he | h2
      · rw [he]
        exact List.mem_cons_self _ _
      · exact List.mem_cons_of_mem a (ih false h2)

/-- Strip output characters come from the input. -/
theorem pyStrip_subset (p : Char → Bool) (s : PyStr) (c : Char)
    (h : c ∈ pyStrip p s) : c ∈ s := by
  rcases pyRStrip_decomp p (pyLStrip p s) with ⟨w, hw, _⟩
  have h1 : c ∈ pyLStrip p s := by
    rw [hw]
    exact List.mem_append.mpr (Or.inl h)
  exact (List.dropWhile_suffix p).subset h1

/-- Cleaned-query characters come from the query. -/
theorem clean_subset (q : PyStr) (c : Char)
    (h : c ∈ cleanTrackingParams q) : c ∈ q :=
  rtAux_subset c q false
    (collapseRunsAux_subset '&' c _ false (pyStrip_subset _ _ c h))

/-- The collapser never empties a nonempty string. -/
theorem collapse_ne_nil (c a : Char) (s : PyStr) :
    collapseRuns c (a :: s) ≠ [] := by
  show collapseRunsAux c false (a :: s) ≠ []
  simp only [collapseRunsAux]
  by_cases ha : a = c
  · rw [if_pos ha, if_neg Bool.false_ne_true]
    exact List.cons_ne_nil _ _
  · rw [if_neg ha]
    exact List.cons_ne_nil _ _

/-- No adjacent duplicate means no doubled-character prefix. -/
theorem noDouble_no_prefix (c : Char) (s : PyStr)
    (h : hasDouble c s = false) :
    listStarts (c :: c :: ([] : PyStr)) s = false := by
  cases s with
  | nil => rfl
  | cons a t =>
    cases t with
    | nil => simp [listStarts]
    | cons b r =>
      simp only [hasDouble] at h
      cases hx : (decide (a = c) && decide (b = c)) with
      | true =>
        rw [hx, Bool.true_or] at h
        cases h
      | false =>
        by_cases hac : a = c
        · by_cases hbc : b = c
          · rw [hac, hbc] at hx
            simp at hx
          · have hd : decide (c = b) = false :=
              decide_eq_false (fun hh => hbc hh.symm)
            show (decide (c = a) &&
              (decide (c = b) && listStarts [] r)) = false
            rw [hd, Bool.false_and, Bool.and_false]
        · have hd : decide (c = a) = false :=
            decide_eq_false (fun hh => hac hh.symm)
          show (decide (c = a) &&
            (decide (c = b) && listStarts [] r)) = false
          rw [hd, Bool.false_and]

/-- lastIs over a concatenated final character. -/
theorem lastIs_concat (c x : Char) (t : PyStr) :
    lastIs c (t ++ [x]) = decide (x = c) := by
  unfold lastIs
  rw [List.getLast?_concat]

/-- Appending the duplicate of a duplicate tail creates an adjacent
pair. -/
theorem hasDouble_append_last (c : Char) :
    ∀ t : PyStr, lastIs c t = true → hasDouble c (t ++ [c]) = true := by
  intro t
  induction t with
  | nil =>
    intro h
    simp [lastIs] at h
  | cons a t2 ih =>
    intro h
    cases t2 with
    | nil =>
      have ha : a = c := by simpa [lastIs] using h
      subst ha
      simp [hasDouble]
    | cons b r =>
      have h2 : lastIs c (b :: r) = true := by
        unfold lastIs at h ⊢
        rwa [List.getLast?_cons_cons] at h
      rw [List.cons_append, hasDouble_cons, ih h2, Bool.or_true]

/-- Dropping a trailing duplicate leaves no trailing duplicate when no
two are adjacent. -/
theorem dropLast_lastIs (c : Char) (s : PyStr)
    (hnd : hasDouble c s = false) (hl : lastIs c s = true) :
    lastIs c s.dropLast = false := by
  cases hx : lastIs c s.dropLast with
  | false => rfl
  | true =>
    exfalso
    have hne : s ≠ [] := by
      intro he
      rw [he] at hl
      simp [lastIs] at hl
    have hdec : s.dropLast ++ [s.getLast hne] = s :=
      List.dropLast_append_getLast hne
    have hgl : s.getLast hne = c := by
      simp only [lastIs, List.getLast?_eq_getLast s hne] at hl
      exact of_decide_eq_true hl
    have hd2 := hasDouble_append_last c s.dropLast hx
    rw [hgl] at hdec
    rw [hdec] at hd2
    rw [hd2] at hnd
    cases hnd

/-- Lower-casing keeps netloc delimiters absent. -/
theorem netlocDelim_lower (N0 : PyStr)
    (h : ∀ c ∈ N0, netlocDelim c = false) :
    ∀ c ∈ pyLower N0, netlocDelim c = false := by
  intro c hc
  rcases List.mem_map.mp hc with ⟨d, hd, hde⟩
  rcases lowerChar_toNat d with he | ⟨h1, h2, h3⟩
  · rw [← hde, he]
    exact h d hd
  · rw [← hde]
    cases hx : netlocDelim (lowerChar d) with
    | false => rfl
    | true =>
      exfalso
      have h97 : 97 ≤ (lowerChar d).toNat := by omega
      unfold netlocDelim at hx
      rw [Bool.or_eq_true, Bool.or_eq_true] at hx
      rcases hx with (hx | hx) | hx
      · rw [of_decide_eq_true hx] at h97
        exact absurd h97 (by decide)
      · rw [of_decide_eq_true hx] at h97
        exact absurd h97 (by decide)
      · rw [of_decide_eq_true hx] at h97
        exact absurd h97 (by decide)

/-- Lower-casing keeps unsafe URL characters absent. -/
theorem unsafe_lower (N0 : PyStr)
    (h : ∀ c ∈ N0, isUnsafeUrlChar c = false) :
    ∀ c ∈ pyLower N0, isUnsafeUrlChar c = false := by
  intro c hc
  rcases List.mem_map.mp hc with ⟨d, hd, hde⟩
  rcases lowerChar_toNat d with he | ⟨h1, h2, h3⟩
  · rw [← hde, he]
    exact h d hd
  · rw [← hde]
    cases hx : isUnsafeUrlChar (lowerChar d) with
    | false => rfl
    | true =>
      exfalso
      have h97 : 97 ≤ (lowerChar d).toNat := by omega
      unfold isUnsafeUrlChar at hx
      rw [Bool.or_eq_true, Bool.or_eq_true] at hx
      rcases hx with (hx | hx) | hx
      · rw [of_decide_eq_true hx] at h97
        exact absurd h97 (by decide)
      · rw [of_decide_eq_true hx] at h97
        exact absurd h97 (by decide)
      · rw [of_decide_eq_true hx] at h97
        exact absurd h97 (by decide)

/-- Path characters appear in the serialised URL. -/
theorem mem_urlunsplit_path (c : Char) (S N path Q F : PyStr)
    (hc : c ∈ path) : c ∈ urlunsplitP S N path Q F := by
  simp only [urlunsplitP]
  split_ifs <;>
    simp [List.mem_append, List.mem_cons, hc]

/-- Prepending the slash inside urlunsplit does not change the
serialisation of an http(s) URL. -/
theorem urlunsplit_prep (S N path Q : PyStr)
    (hS : S = pyOfString "http" ∨ S = pyOfString "https")
    (hpp : listStarts (pyOfString "//") path = false) :
    urlunsplitP S N path Q [] =
      urlunsplitP S N (if !path.isEmpty && !headIs '/' path
        then '/' :: path else path) Q [] := by
  cases hc : (!path.isEmpty && !headIs '/' path) with
  | false =>
    rw [if_neg Bool.false_ne_true]
  | true =>
    rw [if_pos rfl]
    obtain ⟨hne, hhd⟩ := (Bool.and_eq_true _ _).mp hc
    have hstarts2 : listStarts (pyOfString "//") ('/' :: path) = false := by
      cases path with
      | nil =>
        simp at hne
      | cons p0 pt =>
        have hp0 : p0 ≠ '/' := by
          intro he
          rw [show headIs '/' (p0 :: pt) = decide (p0 = '/') from rfl] at hhd
          rw [he] at hhd
          simp at hhd
        have hd : decide ('/' = p0) = false :=
          decide_eq_false (fun hh => hp0 hh.symm)
        show (decide ('/' = '/') &&
          (decide ('/' = p0) && listStarts [] pt)) = false
        rw [hd, Bool.false_and, Bool.and_false]
    have hcondL : (!N.isEmpty || (!S.isEmpty && pyMem S usesNetloc &&
        !listStarts (pyOfString "//") path)) = true := by
      have hx : (!S.isEmpty && pyMem S usesNetloc &&
          !listStarts (pyOfString "//") path) = true := by
        rw [hpp]
        rcases hS with h | h <;> subst h <;> rfl
      rw [hx, Bool.or_true]
    have hcondR : (!N.isEmpty || (!S.isEmpty && pyMem S usesNetloc &&
        !listStarts (pyOfString "//") ('/' :: path))) = true := by
      have hx : (!S.isEmpty && pyMem S usesNetloc &&
          !listStarts (pyOfString "//") ('/' :: path)) = true := by
        rw [hstarts2]
        rcases hS with h | h <;> subst h <;> rfl
      rw [hx, Bool.or_true]
    have hh2 : headIs '/' ('/' :: path) = true := rfl
    simp +decide only [urlunsplitP, hcondL, hcondR, hc, hh2, if_true,
      if_false, List.isEmpty_cons, Bool.not_true, Bool.not_false,
      Bool.and_false]

/-- A character reported absent by containsChar is not a member. -/
theorem not_mem_of_containsChar (c : Char) (s : PyStr)
    (h : containsChar c s = false) : c ∉ s := by
  intro hm
  have hx : containsChar c s = true := by
    unfold containsChar
    rw [List.any_eq_true]
    exact ⟨c, hm, by simp⟩
  rw [hx] at h
  cases h

/-- Structural properties of a successful urlsplit: the netloc is free of
delimiters and brackets, the path and query are free of their separators,
and all components are free of unsafe characters. -/
theorem urlsplit_props (url ds : PyStr) (sp : SplitUrl)
    (h : urlsplitM url ds = some sp) :
    (∀ c ∈ sp.netloc, netlocDelim c = false) ∧
    ('[' ∉ sp.netloc ∧ ']' ∉ sp.netloc) ∧
    (∀ c ∈ sp.netloc, isUnsafeUrlChar c = false) ∧
    ('#' ∉ sp.path ∧ '?' ∉ sp.path) ∧
    (∀ c ∈ sp.path, isUnsafeUrlChar c = false) ∧
    '#' ∉ sp.query ∧
    (∀ c ∈ sp.query, isUnsafeUrlChar c = false) := by
  have hu2 : ∀ c ∈ removeChars isUnsafeUrlChar (pyLStrip isC0OrSpace url),
      isUnsafeUrlChar c = false :=
    fun c hc => (mem_removeChars _ _ c hc).2
  simp only [urlsplitM] at h
  cases hsp1 : splitFirst ':'
      (removeChars isUnsafeUrlChar (pyLStrip isC0OrSpace url)) with
  | none =>
    simp only [hsp1] at h
    cases hnr : listStarts (pyOfString "//") (removeChars isUnsafeUrlChar (pyLStrip isC0OrSpace url)) with
    | true =>
      simp +decide only [hnr, eq_self_iff_true, Bool.false_eq_true, if_true, if_false] at h
      cases hbr0 : (containsChar '[' (((removeChars isUnsafeUrlChar (pyLStrip isC0OrSpace url)).drop 2).takeWhile (fun c => !netlocDelim c)) ||
          containsChar ']' (((removeChars isUnsafeUrlChar (pyLStrip isC0OrSpace url)).drop 2).takeWhile (fun c => !netlocDelim c))) with
      | true =>
        simp +decide only [hbr0, eq_self_iff_true, Bool.false_eq_true, if_true, if_false] at h
        cases h
      | false =>
        simp +decide only [hbr0, eq_self_iff_true, Bool.false_eq_true, if_true, if_false] at h
        have hbl0 : containsChar '[' (((removeChars isUnsafeUrlChar (pyLStrip isC0OrSpace url)).drop 2).takeWhile (fun c => !netlocDelim c)) = false := by
          cases hx : containsChar '[' (((removeChars isUnsafeUrlChar (pyLStrip isC0OrSpace url)).drop 2).takeWhile (fun c => !netlocDelim c)) with
          | false => rfl
          | true =>
            rw [hx, Bool.true_or] at hbr0
            cases hbr0
        have hbr1 : containsChar ']' (((removeChars isUnsafeUrlChar (pyLStrip isC0OrSpace url)).drop 2).takeWhile (fun c => !netlocDelim c)) = false := by
          cases hx : containsChar ']' (((removeChars isUnsafeUrlChar (pyLStrip isC0OrSpace url)).drop 2).takeWhile (fun c => !netlocDelim c)) with
          | false => rfl
          | true =>
            rw [hx, Bool.or_true] at hbr0
            cases hbr0
        have hbl : '[' ∉ (((removeChars isUnsafeUrlChar (pyLStrip isC0OrSpace url)).drop 2).takeWhile (fun c => !netlocDelim c)) := not_mem_of_containsChar _ _ hbl0
        have hbrr : ']' ∉ (((removeChars isUnsafeUrlChar (pyLStrip isC0OrSpace url)).drop 2).takeWhile (fun c => !netlocDelim c)) := not_mem_of_containsChar _ _ hbr1
        have hnd2 : ∀ c ∈ (((removeChars isUnsafeUrlChar (pyLStrip isC0OrSpace url)).drop 2).takeWhile (fun c => !netlocDelim c)), netlocDelim c = false := by
          intro c hc
          have hx := List.mem_takeWhile_imp hc
          simpa using hx
        have hnsafe : ∀ c ∈ (((removeChars isUnsafeUrlChar (pyLStrip isC0OrSpace url)).drop 2).takeWhile (fun c => !netlocDelim c)), isUnsafeUrlChar c = false :=
          fun c hc => hu2 c (List.mem_of_mem_drop
            ((List.takeWhile_sublist _).subset hc))
        have hr2safe : ∀ c ∈ (((removeChars isUnsafeUrlChar (pyLStrip isC0OrSpace url)).drop 2).dropWhile (fun c => !netlocDelim c)), isUnsafeUrlChar c = false :=
          fun c hc => hu2 c (List.mem_of_mem_drop
            ((List.dropWhile_sublist _).subset hc))
        cases hf : splitFirst '#' (((removeChars isUnsafeUrlChar (pyLStrip isC0OrSpace url)).drop 2).dropWhile (fun c => !netlocDelim c)) with
        | none =>
          have hfn : '#' ∉ (((removeChars isUnsafeUrlChar (pyLStrip isC0OrSpace url)).drop 2).dropWhile (fun c => !netlocDelim c)) := splitFirst_eq_none '#' _ hf
          simp only [hf] at h
          have hfsafe : ∀ c ∈ (((removeChars isUnsafeUrlChar (pyLStrip isC0OrSpace url)).drop 2).dropWhile (fun c => !netlocDelim c)), isUnsafeUrlChar c = false := hr2safe
          cases hq : splitFirst '?' (((removeChars isUnsafeUrlChar (pyLStrip isC0OrSpace url)).drop 2).dropWhile (fun c => !netlocDelim c)) with
          | none =>
            simp only [hq] at h
            injection h with h2
            subst h2
            have hqn : '?' ∉ (((removeChars isUnsafeUrlChar (pyLStrip isC0OrSpace url)).drop 2).dropWhile (fun c => !netlocDelim c)) := splitFirst_eq_none '?' _ hq
            exact ⟨hnd2, ⟨hbl, hbrr⟩, hnsafe, ⟨hfn, hqn⟩, hfsafe,
              List.not_mem_nil '#', fun c hc => absurd hc (List.not_mem_nil c)⟩
          | some prq =>
            obtain ⟨qa, qb⟩ := prq
            simp only [hq] at h
            injection h with h2
            subst h2
            obtain ⟨hqa1, hqa2⟩ := splitFirst_eq_some '?' _ qa qb hq
            have hqasub : ∀ c ∈ qa, c ∈ (((removeChars isUnsafeUrlChar (pyLStrip isC0OrSpace url)).drop 2).dropWhile (fun c => !netlocDelim c)) := fun c hc => by
              rw [hqa2]
              exact List.mem_append.mpr (Or.inl hc)
            have hqbsub : ∀ c ∈ qb, c ∈ (((removeChars isUnsafeUrlChar (pyLStrip isC0OrSpace url)).drop 2).dropWhile (fun c => !netlocDelim c)) := fun c hc => by
              rw [hqa2]
              exact List.mem_append.mpr (Or.inr (List.mem_cons_of_mem _ hc))
            exact ⟨hnd2, ⟨hbl, hbrr⟩, hnsafe,
              ⟨fun hm => hfn (hqasub '#' hm), fun hm => hqa1 hm⟩,
              fun c hc => hfsafe c (hqasub c hc),
              fun hm => hfn (hqbsub '#' hm),
              fun c hc => hfsafe c (hqbsub c hc)⟩
        | some prf =>
          obtain ⟨fa, fb⟩ := prf
          simp only [hf] at h
          obtain ⟨hfa1, hfa2⟩ := splitFirst_eq_some '#' _ fa fb hf
          have hfasub : ∀ c ∈ fa, c ∈ (((removeChars isUnsafeUrlChar (pyLStrip isC0OrSpace url)).drop 2).dropWhile (fun c => !netlocDelim c)) := fun c hc => by
            rw [hfa2]
            exact List.mem_append.mpr (Or.inl hc)
          have hfsafe : ∀ c ∈ fa, isUnsafeUrlChar c = false := fun c hc =>
            hr2safe c (hfasub c hc)
          cases hq : splitFirst '?' (fa) with
          | none =>
            simp only [hq] at h
            injection h with h2
            subst h2
            have hqn : '?' ∉ (fa) := splitFirst_eq_none '?' _ hq
            exact ⟨hnd2, ⟨hbl, hbrr⟩, hnsafe, ⟨hfa1, hqn⟩, hfsafe,
              List.not_mem_nil '#', fun c hc => absurd hc (List.not_mem_nil c)⟩
          | some prq =>
            obtain ⟨qa, qb⟩ := prq
            simp only [hq] at h
            injection h with h2
            subst h2
            obtain ⟨hqa1, hqa2⟩ := splitFirst_eq_some '?' _ qa qb hq
            have hqasub : ∀ c ∈ qa, c ∈ (fa) := fun c hc => by
              rw [hqa2]
              exact List.mem_append.mpr (Or.inl hc)
            have hqbsub : ∀ c ∈ qb, c ∈ (fa) := fun c hc => by
              rw [hqa2]
              exact List.mem_append.mpr (Or.inr (List.mem_cons_of_mem _ hc))
            exact ⟨hnd2, ⟨hbl, hbrr⟩, hnsafe,
              ⟨fun hm => hfa1 (hqasub '#' hm), fun hm => hqa1 hm⟩,
              fun c hc => hfsafe c (hqasub c hc),
              fun hm => hfa1 (hqbsub '#' hm),
              fun c hc => hfsafe c (hqbsub c hc)⟩
    | false =>
      simp +decide only [hnr, eq_self_iff_true, Bool.false_eq_true, if_true, if_false] at h
      have hbl : '[' ∉ ([] : PyStr) := List.not_mem_nil '['
      have hbrr : ']' ∉ ([] : PyStr) := List.not_mem_nil ']'
      have hnd2 : ∀ c ∈ ([] : PyStr), netlocDelim c = false :=
        fun c hc => absurd hc (List.not_mem_nil c)
      have hnsafe : ∀ c ∈ ([] : PyStr), isUnsafeUrlChar c = false :=
        fun c hc => absurd hc (List.not_mem_nil c)
      have hr2safe : ∀ c ∈ (removeChars isUnsafeUrlChar (pyLStrip isC0OrSpace url)), isUnsafeUrlChar c = false := hu2
      cases hf : splitFirst '#' (removeChars isUnsafeUrlChar (pyLStrip isC0OrSpace url)) with
      | none =>
        have hfn : '#' ∉ (removeChars isUnsafeUrlChar (pyLStrip isC0OrSpace url)) := splitFirst_eq_none '#' _ hf
        simp only [hf] at h
        have hfsafe : ∀ c ∈ (removeChars isUnsafeUrlChar (pyLStrip isC0OrSpace url)), isUnsafeUrlChar c = false := hr2safe
        cases hq : splitFirst '?' (removeChars isUnsafeUrlChar (pyLStrip isC0OrSpace url)) with
        | none =>
          simp only [hq] at h
          injection h with h2
          subst h2
          have hqn : '?' ∉ (removeChars isUnsafeUrlChar (pyLStrip isC0OrSpace url)) := splitFirst_eq_none '?' _ hq
          exact ⟨hnd2, ⟨hbl, hbrr⟩, hnsafe, ⟨hfn, hqn⟩, hfsafe,
            List.not_mem_nil '#', fun c hc => absurd hc (List.not_mem_nil c)⟩
        | some prq =>
          obtain ⟨qa, qb⟩ := prq
          simp only [hq] at h
          injection h with h2
          subst h2
          obtain ⟨hqa1, hqa2⟩ := splitFirst_eq_some '?' _ qa qb hq
          have hqasub : ∀ c ∈ qa, c ∈ (removeChars isUnsafeUrlChar (pyLStrip isC0OrSpace url)) := fun c hc => by
            rw [hqa2]
            exact List.mem_append.mpr (Or.inl hc)
          have hqbsub : ∀ c ∈ qb, c ∈ (removeChars isUnsafeUrlChar (pyLStrip isC0OrSpace url)) := fun c hc => by
            rw [hqa2]
            exact List.mem_append.mpr (Or.inr (List.mem_cons_of_mem _ hc))
          exact ⟨hnd2, ⟨hbl, hbrr⟩, hnsafe,
            ⟨fun hm => hfn (hqasub '#' hm), fun hm => hqa1 hm⟩,
            fun c hc => hfsafe c (hqasub c hc),
            fun hm => hfn (hqbsub '#' hm),
            fun c hc => hfsafe c (hqbsub c hc)⟩
      | some prf =>
        obtain ⟨fa, fb⟩ := prf
        simp only [hf] at h
        obtain ⟨hfa1, hfa2⟩ := splitFirst_eq_some '#' _ fa fb hf
        have hfasub : ∀ c ∈ fa, c ∈ (removeChars isUnsafeUrlChar (pyLStrip isC0OrSpace url)) := fun c hc => by
          rw [hfa2]
          exact List.mem_append.mpr (Or.inl hc)
        have hfsafe : ∀ c ∈ fa, isUnsafeUrlChar c = false := fun c hc =>
          hr2safe c (hfasub c hc)
        cases hq : splitFirst '?' (fa) with
        | none =>
          simp only [hq] at h
          injection h with h2
          subst h2
          have hqn : '?' ∉ (fa) := splitFirst_eq_none '?' _ hq
          exact ⟨hnd2, ⟨hbl, hbrr⟩, hnsafe, ⟨hfa1, hqn⟩, hfsafe,
            List.not_mem_nil '#', fun c hc => absurd hc (List.not_mem_nil c)⟩
        | some prq =>
          obtain ⟨qa, qb⟩ := prq
          simp only [hq] at h
          injection h with h2
          subst h2
          obtain ⟨hqa1, hqa2⟩ := splitFirst_eq_some '?' _ qa qb hq
          have hqasub : ∀ c ∈ qa, c ∈ (fa) := fun c hc => by
            rw [hqa2]
            exact List.mem_append.mpr (Or.inl hc)
          have hqbsub : ∀ c ∈ qb, c ∈ (fa) := fun c hc => by
            rw [hqa2]
            exact List.mem_append.mpr (Or.inr (List.mem_cons_of_mem _ hc))
          exact ⟨hnd2, ⟨hbl, hbrr⟩, hnsafe,
            ⟨fun hm => hfa1 (hqasub '#' hm), fun hm => hqa1 hm⟩,
            fun c hc => hfsafe c (hqasub c hc),
            fun hm => hfa1 (hqbsub '#' hm),
            fun c hc => hfsafe c (hqbsub c hc)⟩
  | some pr =>
    obtain ⟨pre, post⟩ := pr
    simp only [hsp1] at h
    cases pre with
    | nil =>
      simp +decide only [eq_self_iff_true, Bool.false_eq_true, if_true, if_false] at h
      cases hnr : listStarts (pyOfString "//") (removeChars isUnsafeUrlChar (pyLStrip isC0OrSpace url)) with
      | true =>
        simp +decide only [hnr, eq_self_iff_true, Bool.false_eq_true, if_true, if_false] at h
        cases hbr0 : (containsChar '[' (((removeChars isUnsafeUrlChar (pyLStrip isC0OrSpace url)).drop 2).takeWhile (fun c => !netlocDelim c)) ||
            containsChar ']' (((removeChars isUnsafeUrlChar (pyLStrip isC0OrSpace url)).drop 2).takeWhile (fun c => !netlocDelim c))) with
        | true =>
          simp +decide only [hbr0, eq_self_iff_true, Bool.false_eq_true, if_true, if_false] at h
          cases h
        | false =>
          simp +decide only [hbr0, eq_self_iff_true, Bool.false_eq_true, if_true, if_false] at h
          have hbl0 : containsChar '[' (((removeChars isUnsafeUrlChar (pyLStrip isC0OrSpace url)).drop 2).takeWhile (fun c => !netlocDelim c)) = false := by
            cases hx : containsChar '[' (((removeChars isUnsafeUrlChar (pyLStrip isC0OrSpace url)).drop 2).takeWhile (fun c => !netlocDelim c)) with
            | false => rfl
            | true =>
              rw [hx, Bool.true_or] at hbr0
              cases hbr0
          have hbr1 : containsChar ']' (((removeChars isUnsafeUrlChar (pyLStrip isC0OrSpace url)).drop 2).takeWhile (fun c => !netlocDelim c)) = false := by
            cases hx : containsChar ']' (((removeChars isUnsafeUrlChar (pyLStrip isC0OrSpace url)).drop 2).takeWhile (fun c => !netlocDelim c)) with
            | false => rfl
            | true =>
              rw [hx, Bool.or_true] at hbr0
              cases hbr0
          have hbl : '[' ∉ (((removeChars isUnsafeUrlChar (pyLStrip isC0OrSpace url)).drop 2).takeWhile (fun c => !netlocDelim c)) := not_mem_of_containsChar _ _ hbl0
          have hbrr : ']' ∉ (((removeChars isUnsafeUrlChar (pyLStrip isC0OrSpace url)).drop 2).takeWhile (fun c => !netlocDelim c)) := not_mem_of_containsChar _ _ hbr1
          have hnd2 : ∀ c ∈ (((removeChars isUnsafeUrlChar (pyLStrip isC0OrSpace url)).drop 2).takeWhile (fun c => !netlocDelim c)), netlocDelim c = false := by
            intro c hc
            have hx := List.mem_takeWhile_imp hc
            simpa using hx
          have hnsafe : ∀ c ∈ (((removeChars isUnsafeUrlChar (pyLStrip isC0OrSpace url)).drop 2).takeWhile (fun c => !netlocDelim c)), isUnsafeUrlChar c = false :=
            fun c hc => hu2 c (List.mem_of_mem_drop
              ((List.takeWhile_sublist _).subset hc))
          have hr2safe : ∀ c ∈ (((removeChars isUnsafeUrlChar (pyLStrip isC0OrSpace url)).drop 2).dropWhile (fun c => !netlocDelim c)), isUnsafeUrlChar c = false :=
            fun c hc => hu2 c (List.mem_of_mem_drop
              ((List.dropWhile_sublist _).subset hc))
          cases hf : splitFirst '#' (((removeChars isUnsafeUrlChar (pyLStrip isC0OrSpace url)).drop 2).dropWhile (fun c => !netlocDelim c)) with
          | none =>
            have hfn : '#' ∉ (((removeChars isUnsafeUrlChar (pyLStrip isC0OrSpace url)).drop 2).dropWhile (fun c => !netlocDelim c)) := splitFirst_eq_none '#' _ hf
            simp only [hf] at h
            have hfsafe : ∀ c ∈ (((removeChars isUnsafeUrlChar (pyLStrip isC0OrSpace url)).drop 2).dropWhile (fun c => !netlocDelim c)), isUnsafeUrlChar c = false := hr2safe
            cases hq : splitFirst '?' (((removeChars isUnsafeUrlChar (pyLStrip isC0OrSpace url)).drop 2).dropWhile (fun c => !netlocDelim c)) with
            | none =>
              simp only [hq] at h
              injection h with h2
              subst h2
              have hqn : '?' ∉ (((removeChars isUnsafeUrlChar (pyLStrip isC0OrSpace url)).drop 2).dropWhile (fun c => !netlocDelim c)) := splitFirst_eq_none '?' _ hq
              exact ⟨hnd2, ⟨hbl, hbrr⟩, hnsafe, ⟨hfn, hqn⟩, hfsafe,
                List.not_mem_nil '#', fun c hc => absurd hc (List.not_mem_nil c)⟩
            | some prq =>
              obtain ⟨qa, qb⟩ := prq
              simp only [hq] at h
              injection h with h2
              subst h2
              obtain ⟨hqa1, hqa2⟩ := splitFirst_eq_some '?' _ qa qb hq
              have hqasub : ∀ c ∈ qa, c ∈ (((removeChars isUnsafeUrlChar (pyLStrip isC0OrSpace url)).drop 2).dropWhile (fun c => !netlocDelim c)) := fun c hc => by
                rw [hqa2]
                exact List.mem_append.mpr (Or.inl hc)
              have hqbsub : ∀ c ∈ qb, c ∈ (((removeChars isUnsafeUrlChar (pyLStrip isC0OrSpace url)).drop 2).dropWhile (fun c => !netlocDelim c)) := fun c hc => by
                rw [hqa2]
                exact List.mem_append.mpr (Or.inr (List.mem_cons_of_mem _ hc))
              exact ⟨hnd2, ⟨hbl, hbrr⟩, hnsafe,
                ⟨fun hm => hfn (hqasub '#' hm), fun hm => hqa1 hm⟩,
                fun c hc => hfsafe c (hqasub c hc),
                fun hm => hfn (hqbsub '#' hm),
                fun c hc => hfsafe c (hqbsub c hc)⟩
          | some prf =>
            obtain ⟨fa, fb⟩ := prf
            simp only [hf] at h
            obtain ⟨hfa1, hfa2⟩ := splitFirst_eq_some '#' _ fa fb hf
            have hfasub : ∀ c ∈ fa, c ∈ (((removeChars isUnsafeUrlChar (pyLStrip isC0OrSpace url)).drop 2).dropWhile (fun c => !netlocDelim c)) := fun c hc => by
              rw [hfa2]
              exact List.mem_append.mpr (Or.inl hc)
            have hfsafe : ∀ c ∈ fa, isUnsafeUrlChar c = false := fun c hc =>
              hr2safe c (hfasub c hc)
            cases hq : splitFirst '?' (fa) with
            | none =>
              simp only [hq] at h
              injection h with h2
              subst h2
              have hqn : '?' ∉ (fa) := splitFirst_eq_none '?' _ hq
              exact ⟨hnd2, ⟨hbl, hbrr⟩, hnsafe, ⟨hfa1, hqn⟩, hfsafe,
                List.not_mem_nil '#', fun c hc => absurd hc (List.not_mem_nil c)⟩
            | some prq =>
              obtain ⟨qa, qb⟩ := prq
              simp only [hq] at h
              injection h with h2
              subst h2
              obtain ⟨hqa1, hqa2⟩ := splitFirst_eq_some '?' _ qa qb hq
              have hqasub : ∀ c ∈ qa, c ∈ (fa) := fun c hc => by
                rw [hqa2]
                exact List.mem_append.mpr (Or.inl hc)
              have hqbsub : ∀ c ∈ qb, c ∈ (fa) := fun c hc => by
                rw [hqa2]
                exact List.mem_append.mpr (Or.inr (List.mem_cons_of_mem _ hc))
              exact ⟨hnd2, ⟨hbl, hbrr⟩, hnsafe,
                ⟨fun hm => hfa1 (hqasub '#' hm), fun hm => hqa1 hm⟩,
                fun c hc => hfsafe c (hqasub c hc),
                fun hm => hfa1 (hqbsub '#' hm),
                fun c hc => hfsafe c (hqbsub c hc)⟩
      | false =>
        simp +decide only [hnr, eq_self_iff_true, Bool.false_eq_true, if_true, if_false] at h
        have hbl : '[' ∉ ([] : PyStr) := List.not_mem_nil '['
        have hbrr : ']' ∉ ([] : PyStr) := List.not_mem_nil ']'
        have hnd2 : ∀ c ∈ ([] : PyStr), netlocDelim c = false :=
          fun c hc => absurd hc (List.not_mem_nil c)
        have hnsafe : ∀ c ∈ ([] : PyStr), isUnsafeUrlChar c = false :=
          fun c hc => absurd hc (List.not_mem_nil c)
        have hr2safe : ∀ c ∈ (removeChars isUnsafeUrlChar (pyLStrip isC0OrSpace url)), isUnsafeUrlChar c = false := hu2
        cases hf : splitFirst '#' (removeChars isUnsafeUrlChar (pyLStrip isC0OrSpace url)) with
        | none =>
          have hfn : '#' ∉ (removeChars isUnsafeUrlChar (pyLStrip isC0OrSpace url)) := splitFirst_eq_none '#' _ hf
          simp only [hf] at h
          have hfsafe : ∀ c ∈ (removeChars isUnsafeUrlChar (pyLStrip isC0OrSpace url)), isUnsafeUrlChar c = false := hr2safe
          cases hq : splitFirst '?' (removeChars isUnsafeUrlChar (pyLStrip isC0OrSpace url)) with
          | none =>
            simp only [hq] at h
            injection h with h2
            subst h2
            have hqn : '?' ∉ (removeChars isUnsafeUrlChar (pyLStrip isC0OrSpace url)) := splitFirst_eq_none '?' _ hq
            exact ⟨hnd2, ⟨hbl, hbrr⟩, hnsafe, ⟨hfn, hqn⟩, hfsafe,
              List.not_mem_nil '#', fun c hc => absurd hc (List.not_mem_nil c)⟩
          | some prq =>
            obtain ⟨qa, qb⟩ := prq
            simp only [hq] at h
            injection h with h2
            subst h2
            obtain ⟨hqa1, hqa2⟩ := splitFirst_eq_some '?' _ qa qb hq
            have hqasub : ∀ c ∈ qa, c ∈ (removeChars isUnsafeUrlChar (pyLStrip isC0OrSpace url)) := fun c hc => by
              rw [hqa2]
              exact List.mem_append.mpr (Or.inl hc)
            have hqbsub : ∀ c ∈ qb, c ∈ (removeChars isUnsafeUrlChar (pyLStrip isC0OrSpace url)) := fun c hc => by
              rw [hqa2]
              exact List.mem_append.mpr (Or.inr (List.mem_cons_of_mem _ hc))
            exact ⟨hnd2, ⟨hbl, hbrr⟩, hnsafe,
              ⟨fun hm => hfn (hqasub '#' hm), fun hm => hqa1 hm⟩,
              fun c hc => hfsafe c (hqasub c hc),
              fun hm => hfn (hqbsub '#' hm),
              fun c hc => hfsafe c (hqbsub c hc)⟩
        | some prf =>
          obtain ⟨fa, fb⟩ := prf
          simp only [hf] at h
          obtain ⟨hfa1, hfa2⟩ := splitFirst_eq_some '#' _ fa fb hf
          have hfasub : ∀ c ∈ fa, c ∈ (removeChars isUnsafeUrlChar (pyLStrip isC0OrSpace url)) := fun c hc => by
            rw [hfa2]
            exact List.mem_append.mpr (Or.inl hc)
          have hfsafe : ∀ c ∈ fa, isUnsafeUrlChar c = false := fun c hc =>
            hr2safe c (hfasub c hc)
          cases hq : splitFirst '?' (fa) with
          | none =>
            simp only [hq] at h
            injection h with h2
            subst h2
            have hqn : '?' ∉ (fa) := splitFirst_eq_none '?' _ hq
            exact ⟨hnd2, ⟨hbl, hbrr⟩, hnsafe, ⟨hfa1, hqn⟩, hfsafe,
              List.not_mem_nil '#', fun c hc => absurd hc (List.not_mem_nil c)⟩
          | some prq =>
            obtain ⟨qa, qb⟩ := prq
            simp only [hq] at h
            injection h with h2
            subst h2
            obtain ⟨hqa1, hqa2⟩ := splitFirst_eq_some '?' _ qa qb hq
            have hqasub : ∀ c ∈ qa, c ∈ (fa) := fun c hc => by
              rw [hqa2]
              exact List.mem_append.mpr (Or.inl hc)
            have hqbsub : ∀ c ∈ qb, c ∈ (fa) := fun c hc => by
              rw [hqa2]
              exact List.mem_append.mpr (Or.inr (List.mem_cons_of_mem _ hc))
            exact ⟨hnd2, ⟨hbl, hbrr⟩, hnsafe,
              ⟨fun hm => hfa1 (hqasub '#' hm), fun hm => hqa1 hm⟩,
              fun c hc => hfsafe c (hqasub c hc),
              fun hm => hfa1 (hqbsub '#' hm),
              fun c hc => hfsafe c (hqbsub c hc)⟩
    | cons c0 pt =>
      simp only [] at h
      cases hcnd : (!(c0 :: pt).isEmpty && c0.isAlpha &&
          (c0 :: pt).all schemeChar) with
      | true =>
        simp +decide only [hcnd, eq_self_iff_true, Bool.false_eq_true, if_true, if_false] at h
        obtain ⟨hpre1, hpre2⟩ := splitFirst_eq_some ':' _ _ _ hsp1
        have hpost : ∀ c ∈ post, isUnsafeUrlChar c = false :=
          fun c hc => hu2 c (by
            rw [hpre2]
            exact List.mem_append.mpr (Or.inr (List.mem_cons_of_mem _ hc)))
        cases hnr : listStarts (pyOfString "//") (post) with
        | true =>
          simp +decide only [hnr, eq_self_iff_true, Bool.false_eq_true, if_true, if_false] at h
          cases hbr0 : (containsChar '[' (((post).drop 2).takeWhile (fun c => !netlocDelim c)) ||
              containsChar ']' (((post).drop 2).takeWhile (fun c => !netlocDelim c))) with
          | true =>
            simp +decide only [hbr0, eq_self_iff_true, Bool.false_eq_true, if_true, if_false] at h
            cases h
          | false =>
            simp +decide only [hbr0, eq_self_iff_true, Bool.false_eq_true, if_true, if_false] at h
            have hbl0 : containsChar '[' (((post).drop 2).takeWhile (fun c => !netlocDelim c)) = false := by
              cases hx : containsChar '[' (((post).drop 2).takeWhile (fun c => !netlocDelim c)) with
              | false => rfl
              | true =>
                rw [hx, Bool.true_or] at hbr0
                cases hbr0
            have hbr1 : containsChar ']' (((post).drop 2).takeWhile (fun c => !netlocDelim c)) = false := by
              cases hx : containsChar ']' (((post).drop 2).takeWhile (fun c => !netlocDelim c)) with
              | false => rfl
              | true =>
                rw [hx, Bool.or_true] at hbr0
                cases hbr0
            have hbl : '[' ∉ (((post).drop 2).takeWhile (fun c => !netlocDelim c)) := not_mem_of_containsChar _ _ hbl0
            have hbrr : ']' ∉ (((post).drop 2).takeWhile (fun c => !netlocDelim c)) := not_mem_of_containsChar _ _ hbr1
            have hnd2 : ∀ c ∈ (((post).drop 2).takeWhile (fun c => !netlocDelim c)), netlocDelim c = false := by
              intro c hc
              have hx := List.mem_takeWhile_imp hc
              simpa using hx
            have hnsafe : ∀ c ∈ (((post).drop 2).takeWhile (fun c => !netlocDelim c)), isUnsafeUrlChar c = false :=
              fun c hc => hpost c (List.mem_of_mem_drop
                ((List.takeWhile_sublist _).subset hc))
            have hr2safe : ∀ c ∈ (((post).drop 2).dropWhile (fun c => !netlocDelim c)), isUnsafeUrlChar c = false :=
              fun c hc => hpost c (List.mem_of_mem_drop
                ((List.dropWhile_sublist _).subset hc))
            cases hf : splitFirst '#' (((post).drop 2).dropWhile (fun c => !netlocDelim c)) with
            | none =>
              have hfn : '#' ∉ (((post).drop 2).dropWhile (fun c => !netlocDelim c)) := splitFirst_eq_none '#' _ hf
              simp only [hf] at h
              have hfsafe : ∀ c ∈ (((post).drop 2).dropWhile (fun c => !netlocDelim c)), isUnsafeUrlChar c = false := hr2safe
              cases hq : splitFirst '?' (((post).drop 2).dropWhile (fun c => !netlocDelim c)) with
              | none =>
                simp only [hq] at h
                injection h with h2
                subst h2
                have hqn : '?' ∉ (((post).drop 2).dropWhile (fun c => !netlocDelim c)) := splitFirst_eq_none '?' _ hq
                exact ⟨hnd2, ⟨hbl, hbrr⟩, hnsafe, ⟨hfn, hqn⟩, hfsafe,
                  List.not_mem_nil '#', fun c hc => absurd hc (List.not_mem_nil c)⟩
              | some prq =>
                obtain ⟨qa, qb⟩ := prq
                simp only [hq] at h
                injection h with h2
                subst h2
                obtain ⟨hqa1, hqa2⟩ := splitFirst_eq_some '?' _ qa qb hq
                have hqasub : ∀ c ∈ qa, c ∈ (((post).drop 2).dropWhile (fun c => !netlocDelim c)) := fun c hc => by
                  rw [hqa2]
                  exact List.mem_append.mpr (Or.inl hc)
                have hqbsub : ∀ c ∈ qb, c ∈ (((post).drop 2).dropWhile (fun c => !netlocDelim c)) := fun c hc => by
                  rw [hqa2]
                  exact List.mem_append.mpr (Or.inr (List.mem_cons_of_mem _ hc))
                exact ⟨hnd2, ⟨hbl, hbrr⟩, hnsafe,
                  ⟨fun hm => hfn (hqasub '#' hm), fun hm => hqa1 hm⟩,
                  fun c hc => hfsafe c (hqasub c hc),
                  fun hm => hfn (hqbsub '#' hm),
                  fun c hc => hfsafe c (hqbsub c hc)⟩
            | some prf =>
              obtain ⟨fa, fb⟩ := prf
              simp only [hf] at h
              obtain ⟨hfa1, hfa2⟩ := splitFirst_eq_some '#' _ fa fb hf
              have hfasub : ∀ c ∈ fa, c ∈ (((post).drop 2).dropWhile (fun c => !netlocDelim c)) := fun c hc => by
                rw [hfa2]
                exact List.mem_append.mpr (Or.inl hc)
              have hfsafe : ∀ c ∈ fa, isUnsafeUrlChar c = false := fun c hc =>
                hr2safe c (hfasub c hc)
              cases hq : splitFirst '?' (fa) with
              | none =>
                simp only [hq] at h
                injection h with h2
                subst h2
                have hqn : '?' ∉ (fa) := splitFirst_eq_none '?' _ hq
                exact ⟨hnd2, ⟨hbl, hbrr⟩, hnsafe, ⟨hfa1, hqn⟩, hfsafe,
                  List.not_mem_nil '#', fun c hc => absurd hc (List.not_mem_nil c)⟩
              | some prq =>
                obtain ⟨qa, qb⟩ := prq
                simp only [hq] at h
                injection h with h2
                subst h2
                obtain ⟨hqa1, hqa2⟩ := splitFirst_eq_some '?' _ qa qb hq
                have hqasub : ∀ c ∈ qa, c ∈ (fa) := fun c hc => by
                  rw [hqa2]
                  exact List.mem_append.mpr (Or.inl hc)
                have hqbsub : ∀ c ∈ qb, c ∈ (fa) := fun c hc => by
                  rw [hqa2]
                  exact List.mem_append.mpr (Or.inr (List.mem_cons_of_mem _ hc))
                exact ⟨hnd2, ⟨hbl, hbrr⟩, hnsafe,
                  ⟨fun hm => hfa1 (hqasub '#' hm), fun hm => hqa1 hm⟩,
                  fun c hc => hfsafe c (hqasub c hc),
                  fun hm => hfa1 (hqbsub '#' hm),
                  fun c hc => hfsafe c (hqbsub c hc)⟩
        | false =>
          simp +decide only [hnr, eq_self_iff_true, Bool.false_eq_true, if_true, if_false] at h
          have hbl : '[' ∉ ([] : PyStr) := List.not_mem_nil '['
          have hbrr : ']' ∉ ([] : PyStr) := List.not_mem_nil ']'
          have hnd2 : ∀ c ∈ ([] : PyStr), netlocDelim c = false :=
            fun c hc => absurd hc (List.not_mem_nil c)
          have hnsafe : ∀ c ∈ ([] : PyStr), isUnsafeUrlChar c = false :=
            fun c hc => absurd hc (List.not_mem_nil c)
          have hr2safe : ∀ c ∈ (post), isUnsafeUrlChar c = false := hpost
          cases hf : splitFirst '#' (post) with
          | none =>
            have hfn : '#' ∉ (post) := splitFirst_eq_none '#' _ hf
            simp only [hf] at h
            have hfsafe : ∀ c ∈ (post), isUnsafeUrlChar c = false := hr2safe
            cases hq : splitFirst '?' (post) with
            | none =>
              simp only [hq] at h
              injection h with h2
              subst h2
              have hqn : '?' ∉ (post) := splitFirst_eq_none '?' _ hq
              exact ⟨hnd2, ⟨hbl, hbrr⟩, hnsafe, ⟨hfn, hqn⟩, hfsafe,
                List.not_mem_nil '#', fun c hc => absurd hc (List.not_mem_nil c)⟩
            | some prq =>
              obtain ⟨qa, qb⟩ := prq
              simp only [hq] at h
              injection h with h2
              subst h2
              obtain ⟨hqa1, hqa2⟩ := splitFirst_eq_some '?' _ qa qb hq
              have hqasub : ∀ c ∈ qa, c ∈ (post) := fun c hc => by
                rw [hqa2]
                exact List.mem_append.mpr (Or.inl hc)
              have hqbsub : ∀ c ∈ qb, c ∈ (post) := fun c hc => by
                rw [hqa2]
                exact List.mem_append.mpr (Or.inr (List.mem_cons_of_mem _ hc))
              exact ⟨hnd2, ⟨hbl, hbrr⟩, hnsafe,
                ⟨fun hm => hfn (hqasub '#' hm), fun hm => hqa1 hm⟩,
                fun c hc => hfsafe c (hqasub c hc),
                fun hm => hfn (hqbsub '#' hm),
                fun c hc => hfsafe c (hqbsub c hc)⟩
          | some prf =>
            obtain ⟨fa, fb⟩ := prf
            simp only [hf] at h
            obtain ⟨hfa1, hfa2⟩ := splitFirst_eq_some '#' _ fa fb hf
            have hfasub : ∀ c ∈ fa, c ∈ (post) := fun c hc => by
              rw [hfa2]
              exact List.mem_append.mpr (Or.inl hc)
            have hfsafe : ∀ c ∈ fa, isUnsafeUrlChar c = false := fun c hc =>
              hr2safe c (hfasub c hc)
            cases hq : splitFirst '?' (fa) with
            | none =>
              simp only [hq] at h
              injection h with h2
              subst h2
              have hqn : '?' ∉ (fa) := splitFirst_eq_none '?' _ hq
              exact ⟨hnd2, ⟨hbl, hbrr⟩, hnsafe, ⟨hfa1, hqn⟩, hfsafe,
                List.not_mem_nil '#', fun c hc => absurd hc (List.not_mem_nil c)⟩
            | some prq =>
              obtain ⟨qa, qb⟩ := prq
              simp only [hq] at h
              injection h with h2
              subst h2
              obtain ⟨hqa1, hqa2⟩ := splitFirst_eq_some '?' _ qa qb hq
              have hqasub : ∀ c ∈ qa, c ∈ (fa) := fun c hc => by
                rw [hqa2]
                exact List.mem_append.mpr (Or.inl hc)
              have hqbsub : ∀ c ∈ qb, c ∈ (fa) := fun c hc => by
                rw [hqa2]
                exact List.mem_append.mpr (Or.inr (List.mem_cons_of_mem _ hc))
              exact ⟨hnd2, ⟨hbl, hbrr⟩, hnsafe,
                ⟨fun hm => hfa1 (hqasub '#' hm), fun hm => hqa1 hm⟩,
                fun c hc => hfsafe c (hqasub c hc),
                fun hm => hfa1 (hqbsub '#' hm),
                fun c hc => hfsafe c (hqbsub c hc)⟩
      | false =>
        simp +decide only [hcnd, eq_self_iff_true, Bool.false_eq_true, if_true, if_false] at h
        cases hnr : listStarts (pyOfString "//") (removeChars isUnsafeUrlChar (pyLStrip isC0OrSpace url)) with
        | true =>
          simp +decide only [hnr, eq_self_iff_true, Bool.false_eq_true, if_true, if_false] at h
          cases hbr0 : (containsChar '[' (((removeChars isUnsafeUrlChar (pyLStrip isC0OrSpace url)).drop 2).takeWhile (fun c => !netlocDelim c)) ||
              containsChar ']' (((removeChars isUnsafeUrlChar (pyLStrip isC0OrSpace url)).drop 2).takeWhile (fun c => !netlocDelim c))) with
          | true =>
            simp +decide only [hbr0, eq_self_iff_true, Bool.false_eq_true, if_true, if_false] at h
            cases h
          | false =>
            simp +decide only [hbr0, eq_self_iff_true, Bool.false_eq_true, if_true, if_false] at h
            have hbl0 : containsChar '[' (((removeChars isUnsafeUrlChar (pyLStrip isC0OrSpace url)).drop 2).takeWhile (fun c => !netlocDelim c)) = false := by
              cases hx : containsChar '[' (((removeChars isUnsafeUrlChar (pyLStrip isC0OrSpace url)).drop 2).takeWhile (fun c => !netlocDelim c)) with
              | false => rfl
              | true =>
                rw [hx, Bool.true_or] at hbr0
                cases hbr0
            have hbr1 : containsChar ']' (((removeChars isUnsafeUrlChar (pyLStrip isC0OrSpace url)).drop 2).takeWhile (fun c => !netlocDelim c)) = false := by
              cases hx : containsChar ']' (((removeChars isUnsafeUrlChar (pyLStrip isC0OrSpace url)).drop 2).takeWhile (fun c => !netlocDelim c)) with
              | false => rfl
              | true =>
                rw [hx, Bool.or_true] at hbr0
                cases hbr0
            have hbl : '[' ∉ (((removeChars isUnsafeUrlChar (pyLStrip isC0OrSpace url)).drop 2).takeWhile (fun c => !netlocDelim c)) := not_mem_of_containsChar _ _ hbl0
            have hbrr : ']' ∉ (((removeChars isUnsafeUrlChar (pyLStrip isC0OrSpace url)).drop 2).takeWhile (fun c => !netlocDelim c)) := not_mem_of_containsChar _ _ hbr1
            have hnd2 : ∀ c ∈ (((removeChars isUnsafeUrlChar (pyLStrip isC0OrSpace url)).drop 2).takeWhile (fun c => !netlocDelim c)), netlocDelim c = false := by
              intro c hc
              have hx := List.mem_takeWhile_imp hc
              simpa using hx
            have hnsafe : ∀ c ∈ (((removeChars isUnsafeUrlChar (pyLStrip isC0OrSpace url)).drop 2).takeWhile (fun c => !netlocDelim c)), isUnsafeUrlChar c = false :=
              fun c hc => hu2 c (List.mem_of_mem_drop
                ((List.takeWhile_sublist _).subset hc))
            have hr2safe : ∀ c ∈ (((removeChars isUnsafeUrlChar (pyLStrip isC0OrSpace url)).drop 2).dropWhile (fun c => !netlocDelim c)), isUnsafeUrlChar c = false :=
              fun c hc => hu2 c (List.mem_of_mem_drop
                ((List.dropWhile_sublist _).subset hc))
            cases hf : splitFirst '#' (((removeChars isUnsafeUrlChar (pyLStrip isC0OrSpace url)).drop 2).dropWhile (fun c => !netlocDelim c)) with
            | none =>
              have hfn : '#' ∉ (((removeChars isUnsafeUrlChar (pyLStrip isC0OrSpace url)).drop 2).dropWhile (fun c => !netlocDelim c)) := splitFirst_eq_none '#' _ hf
              simp only [hf] at h
              have hfsafe : ∀ c ∈ (((removeChars isUnsafeUrlChar (pyLStrip isC0OrSpace url)).drop 2).dropWhile (fun c => !netlocDelim c)), isUnsafeUrlChar c = false := hr2safe
              cases hq : splitFirst '?' (((removeChars isUnsafeUrlChar (pyLStrip isC0OrSpace url)).drop 2).dropWhile (fun c => !netlocDelim c)) with
              | none =>
                simp only [hq] at h
                injection h with h2
                subst h2
                have hqn : '?' ∉ (((removeChars isUnsafeUrlChar (pyLStrip isC0OrSpace url)).drop 2).dropWhile (fun c => !netlocDelim c)) := splitFirst_eq_none '?' _ hq
                exact ⟨hnd2, ⟨hbl, hbrr⟩, hnsafe, ⟨hfn, hqn⟩, hfsafe,
                  List.not_mem_nil '#', fun c hc => absurd hc (List.not_mem_nil c)⟩
              | some prq =>
                obtain ⟨qa, qb⟩ := prq
                simp only [hq] at h
                injection h with h2
                subst h2
                obtain ⟨hqa1, hqa2⟩ := splitFirst_eq_some '?' _ qa qb hq
                have hqasub : ∀ c ∈ qa, c ∈ (((removeChars isUnsafeUrlChar (pyLStrip isC0OrSpace url)).drop 2).dropWhile (fun c => !netlocDelim c)) := fun c hc => by
                  rw [hqa2]
                  exact List.mem_append.mpr (Or.inl hc)
                have hqbsub : ∀ c ∈ qb, c ∈ (((removeChars isUnsafeUrlChar (pyLStrip isC0OrSpace url)).drop 2).dropWhile (fun c => !netlocDelim c)) := fun c hc => by
                  rw [hqa2]
                  exact List.mem_append.mpr (Or.inr (List.mem_cons_of_mem _ hc))
                exact ⟨hnd2, ⟨hbl, hbrr⟩, hnsafe,
                  ⟨fun hm => hfn (hqasub '#' hm), fun hm => hqa1 hm⟩,
                  fun c hc => hfsafe c (hqasub c hc),
                  fun hm => hfn (hqbsub '#' hm),
                  fun c hc => hfsafe c (hqbsub c hc)⟩
            | some prf =>
              obtain ⟨fa, fb⟩ := prf
              simp only [hf] at h
              obtain ⟨hfa1, hfa2⟩ := splitFirst_eq_some '#' _ fa fb hf
              have hfasub : ∀ c ∈ fa, c ∈ (((removeChars isUnsafeUrlChar (pyLStrip isC0OrSpace url)).drop 2).dropWhile (fun c => !netlocDelim c)) := fun c hc => by
                rw [hfa2]
                exact List.mem_append.mpr (Or.inl hc)
              have hfsafe : ∀ c ∈ fa, isUnsafeUrlChar c = false := fun c hc =>
                hr2safe c (hfasub c hc)
              cases hq : splitFirst '?' (fa) with
              | none =>
                simp only [hq] at h
                injection h with h2
                subst h2
                have hqn : '?' ∉ (fa) := splitFirst_eq_none '?' _ hq
                exact ⟨hnd2, ⟨hbl, hbrr⟩, hnsafe, ⟨hfa1, hqn⟩, hfsafe,
                  List.not_mem_nil '#', fun c hc => absurd hc (List.not_mem_nil c)⟩
              | some prq =>
                obtain ⟨qa, qb⟩ := prq
                simp only [hq] at h
                injection h with h2
                subst h2
                obtain ⟨hqa1, hqa2⟩ := splitFirst_eq_some '?' _ qa qb hq
                have hqasub : ∀ c ∈ qa, c ∈ (fa) := fun c hc => by
                  rw [hqa2]
                  exact List.mem_append.mpr (Or.inl hc)
                have hqbsub : ∀ c ∈ qb, c ∈ (fa) := fun c hc => by
                  rw [hqa2]
                  exact List.mem_append.mpr (Or.inr (List.mem_cons_of_mem _ hc))
                exact ⟨hnd2, ⟨hbl, hbrr⟩, hnsafe,
                  ⟨fun hm => hfa1 (hqasub '#' hm), fun hm => hqa1 hm⟩,
                  fun c hc => hfsafe c (hqasub c hc),
                  fun hm => hfa1 (hqbsub '#' hm),
                  fun c hc => hfsafe c (hqbsub c hc)⟩
        | false =>
          simp +decide only [hnr, eq_self_iff_true, Bool.false_eq_true, if_true, if_false] at h
          have hbl : '[' ∉ ([] : PyStr) := List.not_mem_nil '['
          have hbrr : ']' ∉ ([] : PyStr) := List.not_mem_nil ']'
          have hnd2 : ∀ c ∈ ([] : PyStr), netlocDelim c = false :=
            fun c hc => absurd hc (List.not_mem_nil c)
          have hnsafe : ∀ c ∈ ([] : PyStr), isUnsafeUrlChar c = false :=
            fun c hc => absurd hc (List.not_mem_nil c)
          have hr2safe : ∀ c ∈ (removeChars isUnsafeUrlChar (pyLStrip isC0OrSpace url)), isUnsafeUrlChar c = false := hu2
          cases hf : splitFirst '#' (removeChars isUnsafeUrlChar (pyLStrip isC0OrSpace url)) with
          | none =>
            have hfn : '#' ∉ (removeChars isUnsafeUrlChar (pyLStrip isC0OrSpace url)) := splitFirst_eq_none '#' _ hf
            simp only [hf] at h
            have hfsafe : ∀ c ∈ (removeChars isUnsafeUrlChar (pyLStrip isC0OrSpace url)), isUnsafeUrlChar c = false := hr2safe
            cases hq : splitFirst '?' (removeChars isUnsafeUrlChar (pyLStrip isC0OrSpace url)) with
            | none =>
              simp only [hq] at h
              injection h with h2
              subst h2
              have hqn : '?' ∉ (removeChars isUnsafeUrlChar (pyLStrip isC0OrSpace url)) := splitFirst_eq_none '?' _ hq
              exact ⟨hnd2, ⟨hbl, hbrr⟩, hnsafe, ⟨hfn, hqn⟩, hfsafe,
                List.not_mem_nil '#', fun c hc => absurd hc (List.not_mem_nil c)⟩
            | some prq =>
              obtain ⟨qa, qb⟩ := prq
              simp only [hq] at h
              injection h with h2
              subst h2
              obtain ⟨hqa1, hqa2⟩ := splitFirst_eq_some '?' _ qa qb hq
              have hqasub : ∀ c ∈ qa, c ∈ (removeChars isUnsafeUrlChar (pyLStrip isC0OrSpace url)) := fun c hc => by
                rw [hqa2]
                exact List.mem_append.mpr (Or.inl hc)
              have hqbsub : ∀ c ∈ qb, c ∈ (removeChars isUnsafeUrlChar (pyLStrip isC0OrSpace url)) := fun c hc => by
                rw [hqa2]
                exact List.mem_append.mpr (Or.inr (List.mem_cons_of_mem _ hc))
              exact ⟨hnd2, ⟨hbl, hbrr⟩, hnsafe,
                ⟨fun hm => hfn (hqasub '#' hm), fun hm => hqa1 hm⟩,
                fun c hc => hfsafe c (hqasub c hc),
                fun hm => hfn (hqbsub '#' hm),
                fun c hc => hfsafe c (hqbsub c hc)⟩
          | some prf =>
            obtain ⟨fa, fb⟩ := prf
            simp only [hf] at h
            obtain ⟨hfa1, hfa2⟩ := splitFirst_eq_some '#' _ fa fb hf
            have hfasub : ∀ c ∈ fa, c ∈ (removeChars isUnsafeUrlChar (pyLStrip isC0OrSpace url)) := fun c hc => by
              rw [hfa2]
              exact List.mem_append.mpr (Or.inl hc)
            have hfsafe : ∀ c ∈ fa, isUnsafeUrlChar c = false := fun c hc =>
              hr2safe c (hfasub c hc)
            cases hq : splitFirst '?' (fa) with
            | none =>
              simp only [hq] at h
              injection h with h2
              subst h2
              have hqn : '?' ∉ (fa) := splitFirst_eq_none '?' _ hq
              exact ⟨hnd2, ⟨hbl, hbrr⟩, hnsafe, ⟨hfa1, hqn⟩, hfsafe,
                List.not_mem_nil '#', fun c hc => absurd hc (List.not_mem_nil c)⟩
            | some prq =>
              obtain ⟨qa, qb⟩ := prq
              simp only [hq] at h
              injection h with h2
              subst h2
              obtain ⟨hqa1, hqa2⟩ := splitFirst_eq_some '?' _ qa qb hq
              have hqasub : ∀ c ∈ qa, c ∈ (fa) := fun c hc => by
                rw [hqa2]
                exact List.mem_append.mpr (Or.inl hc)
              have hqbsub : ∀ c ∈ qb, c ∈ (fa) := fun c hc => by
                rw [hqa2]
                exact List.mem_append.mpr (Or.inr (List.mem_cons_of_mem _ hc))
              exact ⟨hnd2, ⟨hbl, hbrr⟩, hnsafe,
                ⟨fun hm => hfa1 (hqasub '#' hm), fun hm => hqa1 hm⟩,
                fun c hc => hfsafe c (hqasub c hc),
                fun hm => hfa1 (hqbsub '#' hm),
                fun c hc => hfsafe c (hqbsub c hc)⟩

/-- A successful splitLast decomposes the string at the last
occurrence. -/
theorem splitLast_eq_some (c : Char) (s before after : PyStr)
    (h : splitLast c s = some (before, after)) :
    c ∉ after ∧ s = before ++ c :: after := by
  unfold splitLast at h
  cases hf : splitFirst c s.reverse with
  | none =>
    rw [hf] at h
    cases h
  | some pr =>
    obtain ⟨l, r⟩ := pr
    simp only [hf] at h
    injection h with h2
    rw [Prod.mk.injEq] at h2
    obtain ⟨hb, ha⟩ := h2
    obtain ⟨hcl, hdec⟩ := splitFirst_eq_some c s.reverse l r hf
    subst hb
    subst ha
    constructor
    · intro hm
      exact hcl (List.mem_reverse.mp hm)
    · have hrr : s = (l ++ c :: r).reverse := by
        rw [← hdec, List.reverse_reverse]
      rw [hrr]
      simp [List.reverse_append]

/-- Characters of the path part of the params split come from the path or
are the slash. -/
theorem splitParams_fst_subset (u : PyStr) :
    ∀ c ∈ (splitParamsPy u).1, c ∈ u ∨ c = '/' := by
  intro c hc
  unfold splitParamsPy at hc
  by_cases hsl : containsChar '/' u = true
  · rw [if_pos hsl] at hc
    cases hl : splitLast '/' u with
    | none =>
      simp only [hl] at hc
      exact Or.inl hc
    | some pr =>
      obtain ⟨before, after⟩ := pr
      simp only [hl] at hc
      cases hf : splitFirst ';' after with
      | none =>
        simp only [hf] at hc
        exact Or.inl hc
      | some pr2 =>
        obtain ⟨a1, a2⟩ := pr2
        simp only [hf] at hc
        obtain ⟨hni, hdec⟩ := splitLast_eq_some '/' u before after hl
        obtain ⟨hni2, hdec2⟩ := splitFirst_eq_some ';' after a1 a2 hf
        rcases List.mem_append.mp hc with h1 | h2
        · left
          rw [hdec]
          exact List.mem_append.mpr (Or.inl h1)
        · rcases List.mem_cons.mp h2 with he | h3
          · exact Or.inr he
          · left
            rw [hdec, hdec2]
            exact List.mem_append.mpr (Or.inr (List.mem_cons_of_mem _
              (List.mem_append.mpr (Or.inl h3))))
  · rw [if_neg hsl] at hc
    cases hf : splitFirst ';' u with
    | none =>
      simp only [hf] at hc
      exact Or.inl hc
    | some pr =>
      obtain ⟨a, b⟩ := pr
      simp only [hf] at hc
      obtain ⟨hx, hdec⟩ := splitFirst_eq_some ';' u a b hf
      left
      rw [hdec]
      exact List.mem_append.mpr (Or.inl hc)

/-- Structural properties of a successful urlparse, inherited from the
underlying urlsplit. -/
theorem urlparse_props (url ds : PyStr) (p : ParsedUrl)
    (h : urlparseM url ds = some p) :
    (∀ c ∈ p.netloc, netlocDelim c = false) ∧
    ('[' ∉ p.netloc ∧ ']' ∉ p.netloc) ∧
    (∀ c ∈ p.netloc, isUnsafeUrlChar c = false) ∧
    ('#' ∉ p.path ∧ '?' ∉ p.path) ∧
    (∀ c ∈ p.path, isUnsafeUrlChar c = false) ∧
    '#' ∉ p.query ∧
    (∀ c ∈ p.query, isUnsafeUrlChar c = false) := by
  unfold urlparseM at h
  cases hsp : urlsplitM url ds with
  | none =>
    rw [hsp] at h
    cases h
  | some sp =>
    rw [hsp, Option.map_some'] at h
    injection h with h2
    obtain ⟨hA, hB, hC, ⟨hD1, hD2⟩, hE, hF, hG⟩ :=
      urlsplit_props url ds sp hsp
    by_cases hcond : (pyMem sp.scheme usesParams &&
        containsChar ';' sp.path) = true
    · rw [if_pos hcond] at h2
      subst h2
      refine ⟨hA, hB, hC, ⟨?_, ?_⟩, ?_, hF, hG⟩
      · intro hm
        rcases splitParams_fst_subset sp.path '#' hm with h1 | h1
        · exact hD1 h1
        · exact absurd h1 (by decide)
      · intro hm
        rcases splitParams_fst_subset sp.path '?' hm with h1 | h1
        · exact hD2 h1
        · exact absurd h1 (by decide)
      · intro c hc
        rcases splitParams_fst_subset sp.path c hc with h1 | h1
        · exact hE c h1
        · rw [h1]
          decide
    · rw [if_neg hcond] at h2
      subst h2
      exact ⟨hA, hB, hC, ⟨hD1, hD2⟩, hE, hF, hG⟩

/-- C8: normalize_url is idempotent on its own output for URLs whose
normalised form contains no whitespace and no semicolon and whose parsed
host is nonempty: normalising the normalised URL returns it unchanged. -/
theorem c8_normalize_idem (base u v : PyStr)
    (hv : normalizeUrl base u = some v)
    (hws : ∀ c ∈ v, isPyWsChar c = false)
    (hsemi : ';' ∉ v)
    (hnet : (urlparseM v []).map (fun pv => pv.netloc.isEmpty) =
      some false) :
    normalizeUrl base v = some v := by
  simp only [normalizeUrl] at hv
  split at hv
  · cases hv
  · rename_i raw2 hraweq
    cases hjoin : urljoinM base raw2 with
    | none =>
      simp only [hjoin] at hv
      cases hv
    | some url3 =>
      simp only [hjoin] at hv
      cases hparse : urlparseM url3 [] with
      | none =>
        simp only [hparse] at hv
        cases hv
      | some p2 =>
        simp only [hparse] at hv
        by_cases hsch : p2.scheme = pyOfString "http" ∨
            p2.scheme = pyOfString "https"
        · rw [if_neg (not_not_intro hsch)] at hv
          injection hv with hveq
          set path0 := (if List.isEmpty p2.path = true then pyOfString "/"
            else p2.path) with hpath0
          set path1 := collapseRuns '/' path0 with hpath1
          set path2 := (if path1 ≠ pyOfString "/" ∧
            lastIs '/' path1 = true then path1.dropLast else path1)
            with hpath2
          set q2 := cleanTrackingParams p2.query with hq2
          have hb : base = [] ∨ ∃ b, urlparseM base [] = some b := by
            cases hbase : base with
            | nil => exact Or.inl rfl
            | cons b0 bs =>
              right
              rw [hbase] at hjoin
              simp only [urljoinM] at hjoin
              by_cases hre : raw2.isEmpty = true
              · simp +decide only [hre, List.isEmpty_cons,
                  Bool.false_eq_true, eq_self_iff_true, if_true,
                  if_false] at hjoin
                injection hjoin with hj2
                rw [hj2]
                exact ⟨p2, hparse⟩
              · simp +decide only [List.isEmpty_cons, Bool.false_eq_true,
                  eq_self_iff_true, if_true, if_false,
                  if_neg hre] at hjoin
                cases hpb : urlparseM (b0 :: bs) [] with
                | none =>
                  simp only [hpb] at hjoin
                  cases hjoin
                | some b => exact ⟨b, rfl⟩
          have hprm : p2.params = [] := by
            cases hpp : p2.params with
            | nil => rfl
            | cons x xs =>
              exfalso
              apply hsemi
              rw [← hveq, hpp]
              show ';' ∈ urlunsplitP p2.scheme (pyLower p2.netloc)
                (path2 ++ ';' :: x :: xs) q2 []
              exact mem_urlunsplit_path ';' _ _ _ _ _
                (List.mem_append.mpr
                  (Or.inr (List.mem_cons_self ';' (x :: xs))))
          rw [hprm] at hveq
          obtain ⟨hA, ⟨hBL, hBR⟩, hC, ⟨hD1, hD2⟩, hE, hF, hG⟩ :=
            urlparse_props url3 [] p2 hparse
          have hp0ne : path0 ≠ [] := by
            rw [hpath0]
            by_cases hpe : List.isEmpty p2.path = true
            · rw [if_pos hpe]
              decide
            · rw [if_neg hpe]
              intro he
              exact hpe (by rw [he]; rfl)
          have hp0props : ∀ c, c ∈ path0 → c ∈ p2.path ∨ c = '/' := by
            rw [hpath0]
            by_cases hpe : List.isEmpty p2.path = true
            · rw [if_pos hpe]
              intro c hc
              exact Or.inr (List.mem_singleton.mp hc)
            · rw [if_neg hpe]
              exact fun c hc => Or.inl hc
          have hp1nd : hasDouble '/' path1 = false := by
            rw [hpath1]
            exact collapse_noDouble '/' path0 false
          have hp1ne : path1 ≠ [] := by
            rw [hpath1]
            cases hp0c : path0 with
            | nil => exact absurd hp0c hp0ne
            | cons a as => exact collapse_ne_nil '/' a as
          have hp2nd : hasDouble '/' path2 = false := by
            rw [hpath2]
            by_cases hc : (path1 ≠ pyOfString "/" ∧
                lastIs '/' path1 = true)
            · rw [if_pos hc]
              have hdec : path1.dropLast ++ [path1.getLast hp1ne] =
                  path1 := List.dropLast_append_getLast hp1ne
              exact hasDouble_prefix '/' _ _ (by rw [hdec]; exact hp1nd)
            · rw [if_neg hc]
              exact hp1nd
          have hp2ne : path2 ≠ [] := by
            rw [hpath2]
            by_cases hc : (path1 ≠ pyOfString "/" ∧
                lastIs '/' path1 = true)
            · rw [if_pos hc]
              cases hp1c : path1 with
              | nil => exact absurd hp1c hp1ne
              | cons a as =>
                cases as with
                | nil =>
                  exfalso
                  have hl := hc.2
                  rw [hp1c] at hl
                  have ha : a = '/' := by simpa [lastIs] using hl
                  exact hc.1 (by rw [hp1c, ha]; rfl)
                | cons b bs =>
                  simp [List.dropLast]
            · rw [if_neg hc]
              exact hp1ne
          have hp2tr : path2 = pyOfString "/" ∨
              lastIs '/' path2 = false := by
            rw [hpath2]
            by_cases hc : (path1 ≠ pyOfString "/" ∧
                lastIs '/' path1 = true)
            · rw [if_pos hc]
              exact Or.inr (dropLast_lastIs '/' path1 hp1nd hc.2)
            · rw [if_neg hc]
              rcases not_and_or.mp hc with h1 | h2
              · exact Or.inl (not_not.mp h1)
              · right
                cases hx : lastIs '/' path1 with
                | false => rfl
                | true => exact absurd hx h2
          have hpath2sub : ∀ c, c ∈ path2 → c ∈ path0 := by
            intro c hc
            have h1 : c ∈ path1 := by
              rw [hpath2] at hc
              by_cases hcnd : (path1 ≠ pyOfString "/" ∧
                  lastIs '/' path1 = true)
              · rw [if_pos hcnd] at hc
                exact List.dropLast_subset _ hc
              · rw [if_neg hcnd] at hc
                exact hc
            rw [hpath1] at h1
            exact collapseRunsAux_subset '/' c path0 false h1
          have hp2h : '#' ∉ path2 := fun hm => by
            rcases hp0props '#' (hpath2sub '#' hm) with h1 | h1
            · exact hD1 h1
            · exact absurd h1 (by decide)
          have hp2q : '?' ∉ path2 := fun hm => by
            rcases hp0props '?' (hpath2sub '?' hm) with h1 | h1
            · exact hD2 h1
            · exact absurd h1 (by decide)
          have hp2safe : ∀ c ∈ path2, isUnsafeUrlChar c = false := by
            intro c hc
            rcases hp0props c (hpath2sub c hc) with h1 | h1
            · exact hE c h1
            · rw [h1]
              decide
          have hp2semi : ';' ∉ path2 := fun hm => hsemi (by
            rw [← hveq]
            show ';' ∈ urlunsplitP p2.scheme (pyLower p2.netloc) path2
              q2 []
            exact mem_urlunsplit_path ';' _ _ _ _ _ hm)
          have hNd' : ∀ c ∈ pyLower p2.netloc, netlocDelim c = false :=
            netlocDelim_lower _ hA
          have hNl' : '[' ∉ pyLower p2.netloc :=
            pyLower_not_mem _ '[' (by decide) hBL
          have hNr' : ']' ∉ pyLower p2.netloc :=
            pyLower_not_mem _ ']' (by decide) hBR
          have hNs' : ∀ c ∈ pyLower p2.netloc,
              isUnsafeUrlChar c = false := unsafe_lower _ hC
          have hNlow' : pyLower (pyLower p2.netloc) = pyLower p2.netloc :=
            pyLower_idem _
          have hQh' : '#' ∉ q2 := fun hm =>
            hF (clean_subset _ _ (by rw [hq2] at hm; exact hm))
          have hQs' : ∀ c ∈ q2, isUnsafeUrlChar c = false := by
            intro c hc
            rw [hq2] at hc
            exact hG c (clean_subset _ c hc)
          have hQcl : cleanTrackingParams q2 = q2 := by
            rw [hq2]
            exact cleanTrackingParams_idem _
          have hPPp2 : listStarts (pyOfString "//") path2 = false :=
            noDouble_no_prefix '/' path2 hp2nd
          have hprep := urlunsplit_prep p2.scheme (pyLower p2.netloc)
            path2 q2 hsch hPPp2
          set P := (if !path2.isEmpty && !headIs '/' path2
            then '/' :: path2 else path2) with hP
          have hie2 : path2.isEmpty = false := by
            cases hpc : path2 with
            | nil => exact absurd hpc hp2ne
            | cons a as => rfl
          have hPhead' : headIs '/' P = true := by
            rw [hP]
            cases hc2 : (!path2.isEmpty && !headIs '/' path2) with
            | true =>
              rw [if_pos rfl]
              rfl
            | false =>
              rw [if_neg Bool.false_ne_true]
              cases hx : headIs '/' path2 with
              | true => rfl
              | false =>
                exfalso
                rw [hie2, hx] at hc2
                simp at hc2
          have hPnd' : hasDouble '/' P = false := by
            rw [hP]
            cases hc2 : (!path2.isEmpty && !headIs '/' path2) with
            | true =>
              rw [if_pos rfl, hasDouble_cons]
              obtain ⟨h1, h2⟩ := (Bool.and_eq_true _ _).mp hc2
              have hh : headIs '/' path2 = false := by
                cases hx : headIs '/' path2 with
                | false => rfl
                | true =>
                  rw [hx] at h2
                  cases h2
              rw [hh, hp2nd]
              simp
            | false =>
              rw [if_neg Bool.false_ne_true]
              exact hp2nd
          have hPtr' : P = pyOfString "/" ∨ lastIs '/' P = false := by
            rw [hP]
            cases hc2 : (!path2.isEmpty && !headIs '/' path2) with
            | true =>
              rw [if_pos rfl]
              right
              have hlc : lastIs '/' ('/' :: path2) = lastIs '/' path2 := by
                cases hpc : path2 with
                | nil => exact absurd hpc hp2ne
                | cons a as =>
                  unfold lastIs
                  rw [List.getLast?_cons_cons]
              rw [hlc]
              rcases hp2tr with h1 | h1
              · exfalso
                obtain ⟨hx1, hx2⟩ := (Bool.and_eq_true _ _).mp hc2
                rw [h1] at hx2
                simp [headIs, pyOfString] at hx2
              · exact h1
            | false =>
              rw [if_neg Bool.false_ne_true]
              exact hp2tr
          have hPq' : '?' ∉ P := by
            rw [hP]
            cases hc2 : (!path2.isEmpty && !headIs '/' path2) with
            | true =>
              rw [if_pos rfl]
              intro hm
              rcases List.mem_cons.mp hm with he | hm2
              · exact absurd he (by decide)
              · exact hp2q hm2
            | false =>
              rw [if_neg Bool.false_ne_true]
              exact hp2q
          have hPh' : '#' ∉ P := by
            rw [hP]
            cases hc2 : (!path2.isEmpty && !headIs '/' path2) with
            | true =>
              rw [if_pos rfl]
              intro hm
              rcases List.mem_cons.mp hm with he | hm2
              · exact absurd he (by decide)
              · exact hp2h hm2
            | false =>
              rw [if_neg Bool.false_ne_true]
              exact hp2h
          have hPsemi' : ';' ∉ P := by
            rw [hP]
            cases hc2 : (!path2.isEmpty && !headIs '/' path2) with
            | true =>
              rw [if_pos rfl]
              intro hm
              rcases List.mem_cons.mp hm with he | hm2
              · exact absurd he (by decide)
              · exact hp2semi hm2
            | false =>
              rw [if_neg Bool.false_ne_true]
              exact hp2semi
          have hPs' : ∀ c ∈ P, isUnsafeUrlChar c = false := by
            rw [hP]
            cases hc2 : (!path2.isEmpty && !headIs '/' path2) with
            | true =>
              rw [if_pos rfl]
              intro c hc
              rcases List.mem_cons.mp hc with he | hm2
              · rw [he]
                decide
              · exact hp2safe c hm2
            | false =>
              rw [if_neg Bool.false_ne_true]
              exact hp2safe
          have hPP' : listStarts (pyOfString "//") P = false :=
            noDouble_no_prefix '/' P hPnd'
          have hveq2 : urlunsplitP p2.scheme (pyLower p2.netloc) P q2 [] =
              v := by
            rw [← hprep]
            exact hveq
          have hwv : ∀ c ∈ urlunsplitP p2.scheme (pyLower p2.netloc) P
              q2 [], isPyWsChar c = false := by
            rw [hveq2]
            exact hws
          have hroundtrip : urlparseM v [] = some
              ⟨p2.scheme, pyLower p2.netloc, P, [], q2, []⟩ := by
            rw [← hveq2]
            exact urlparseM_roundtrip p2.scheme (pyLower p2.netloc) P q2
              [] hsch hNd' hNl' hNr' (Or.inr hPhead') hPP' hPq' hPh' hQh'
              hNs' hPs' hQs' hPsemi'
          have hnet' : pyLower p2.netloc ≠ [] := by
            rw [hroundtrip, Option.map_some'] at hnet
            injection hnet with hx
            intro he
            rw [he] at hx
            simp at hx
          rw [← hveq2]
          exact normalize_canonical base p2.scheme (pyLower p2.netloc) P
            q2 hb hsch hNd' hNl' hNr' hNs' hNlow' hnet' hPhead' hPP' hPq'
            hPh' hPsemi' hPs' hPnd' hPtr' hQh' hQs' hQcl hwv
        · rw [if_pos hsch] at hv
          cases hv

/-- Witness for C8 at a concrete URL: normalising the normalised form of
http://EXAMPLE.com//a?b=1 returns it unchanged. -/
theorem c8_witness :
    normalizeUrl [] (pyOfString "http://example.com/a?b=1") =
      some (pyOfString "http://example.com/a?b=1") :=
  c8_normalize_idem [] (pyOfString "http://EXAMPLE.com//a?b=1")
    (pyOfString "http://example.com/a?b=1")
    (by decide) (by decide) (by decide) (by decide)

end Jooya
